import Mathlib

/-!
Toonify: a shallow embedding of the TOON codec.

The development follows the Go sources of the repository:

* `internal/types/types.go`  : options, `ToonError`;
* `internal/utils/utils.go`  : `CountIndent`, `NeedsQuoting`, `isNumeric`;
* `encoder/encoder.go`       : `encodeValue` and its helpers;
* `parser/parser.go`         : `Parse`, `parseValue` and its helpers;
* `decoder/decoder.go`       : `Decode`, first for the two destinations of the tests,
  then (`Decoder.Decode`) for typed destinations through a model of `reflect`;
* `toonify.go`               : `Encode`, `Decode`, `EncodeBytes`, `DecodeBytes`.

Conventions of the embedding.

* A Go `string` is a `List Char` (`Str`): texts are sequences of Unicode code
  points, that is valid UTF-8.  Byte indexing that the sources do at ASCII
  characters (`value[0] == '"'`, `strings.Index(…, ":")`) is done on characters.
* The value tree handed to the encoder is the tree *after* `normalizeValue`:
  `nil`, booleans, integers, floats, strings, `map[string]interface{}` and
  `[]interface{}`.  A Go map has no order; an object is an association list and
  the order of the list is the order in which `range` visits the map.
* Go `int` is 64 bits wide; sums and products of indentation counts wrap
  (`wrapInt`).
* The parser keeps a cursor `p.pos` over `p.lines`; the embedding keeps the
  pair of `p.pos` and the slice `p.lines[p.pos:]`.  The mutually recursive
  parser functions are defined by recursion on a fuel counter; `Parse` supplies
  fuel from the number of lines.
* Three pieces of the Go standard library are parameters (`GoLib`):
  `strconv.ParseFloat`, the `%g` verb, and the Unicode digit table above
  Latin-1.  `strconv.ParseInt`, `strings.TrimSpace` and the other string
  functions are written out.
* `parser.parseRegularArray` and `arrayHeaderRegex` have no caller in the
  sources and are left out.
-/

namespace Toonify

/-- A Go string, as its sequence of code points. -/
abbrev Str := List Char

/-! ## Pieces of the Go standard library -/

/-- A `float64`, as its IEEE-754 bit pattern. -/
structure GoFloat where
  bits : Nat
deriving DecidableEq, Repr

/-- The parts of the Go standard library that the embedding takes as given:
`ParseFloat s` is `strconv.ParseFloat(s, 64)` (`none` when it returns an
error), `FormatFloat f` is `fmt.Sprintf("%g", f)`, and `IsDigitTable` is
`unicode.Digit` for the code points above Latin-1. -/
structure GoLib where
  ParseFloat : Str → Option GoFloat
  FormatFloat : GoFloat → Str
  IsDigitTable : Char → Bool

/-- Go `int` arithmetic on a 64-bit platform: the result wraps. -/
def wrapInt (x : Int) : Int := (x + 2 ^ 63) % 2 ^ 64 - 2 ^ 63

/-- The predicate `unicode.IsSpace`. -/
def IsSpace (c : Char) : Bool :=
  let n := c.toNat
  n == 0x09 || n == 0x0A || n == 0x0B || n == 0x0C || n == 0x0D || n == 0x20 ||
  n == 0x85 || n == 0xA0 || n == 0x1680 || (0x2000 ≤ n && n ≤ 0x200A) ||
  n == 0x2028 || n == 0x2029 || n == 0x202F || n == 0x205F || n == 0x3000

/-- The digits `0` to `9`. -/
def isAsciiDigit (c : Char) : Bool := 48 ≤ c.toNat && c.toNat ≤ 57

/-- The predicate `unicode.IsDigit`: decided directly on Latin-1, by the table
above it. -/
def IsDigit (lib : GoLib) (c : Char) : Bool :=
  if c.toNat ≤ 0xFF then isAsciiDigit c else lib.IsDigitTable c

/-- The function `strings.TrimSpace`. -/
def TrimSpace (s : Str) : Str := (s.dropWhile IsSpace).rdropWhile IsSpace

/-- The function `strings.HasPrefix`. -/
def HasPrefix (s pre : Str) : Bool := pre.isPrefixOf s

/-- The function `strings.HasSuffix`. -/
def HasSuffix (s suf : Str) : Bool := suf.isSuffixOf s

/-- The function `strings.Index`: the position of the first occurrence of `sub`,
`none` standing for `-1`. -/
def Index : Str → Str → Option Nat
  | [], sub => if sub = [] then some 0 else none
  | c :: cs, sub =>
    if sub.isPrefixOf (c :: cs) then some 0 else (Index cs sub).map (· + 1)

/-- The function `strings.Contains`. -/
def Contains (s sub : Str) : Bool := (Index s sub).isSome

/-- The function `strings.Split` at its two call sites, whose separators are the
single characters `"\n"` and `","`. -/
def Split (s : Str) (sep : Char) : List Str := s.splitOn sep

/-- The function `strings.Join`. -/
def Join (parts : List Str) (sep : Str) : Str := sep.intercalate parts

/-- Left-to-right, non-overlapping replacement; `skip` counts the characters of a
match that are still to be passed over. -/
def replaceAux (old new : Str) : Nat → Str → Str
  | _, [] => []
  | skip + 1, _ :: cs => replaceAux old new skip cs
  | 0, c :: cs =>
    if old.isPrefixOf (c :: cs) then new ++ replaceAux old new (old.length - 1) cs
    else c :: replaceAux old new 0 cs

/-- The function `strings.ReplaceAll` for a non-empty `old` (both call sites). -/
def ReplaceAll (s old new : Str) : Str := replaceAux old new 0 s

/-- The function `strings.Repeat(" ", count)`; `none` is the panic on a negative
count. -/
def Repeat (count : Int) : Option Str :=
  if count < 0 then none else some (List.replicate count.toNat ' ')

/-- The verb `%d`. -/
def FormatInt : Int → Str
  | .ofNat m => Nat.toDigits 10 m
  | .negSucc m => '-' :: Nat.toDigits 10 (m + 1)

/-- The function `strconv.FormatBool`. -/
def FormatBool (b : Bool) : Str := if b then "true".toList else "false".toList

/-- Reading a run of decimal digits, most significant first. -/
def parseDigits : Str → Nat → Option Nat
  | [], acc => some acc
  | c :: cs, acc => if isAsciiDigit c then parseDigits cs (acc * 10 + (c.toNat - 48)) else none

/-- The function `strconv.ParseUint(s, 10, 64)` without its range check: the
value of a non-empty run of digits. -/
def parseMagnitude (s : Str) : Option Nat := if s = [] then none else parseDigits s 0

/-- The function `strconv.ParseInt(s, 10, 64)`; `none` when it returns an error
(syntax or range). -/
def ParseInt (s : Str) : Option Int :=
  match s with
  | [] => none
  | '+' :: t =>
    match parseMagnitude t with
    | some un => if un ≥ 2 ^ 63 then none else some (Int.ofNat un)
    | none => none
  | '-' :: t =>
    match parseMagnitude t with
    | some un => if un > 2 ^ 63 then none else some (-(Int.ofNat un))
    | none => none
  | c :: t =>
    match parseMagnitude (c :: t) with
    | some un => if un ≥ 2 ^ 63 then none else some (Int.ofNat un)
    | none => none

/-- The function `strconv.Atoi`: the same language as `ParseInt` in base 10. -/
def Atoi (s : Str) : Option Int := ParseInt s

/-! ## `internal/types` -/

/-- The error type `types.ToonError`. -/
structure ToonError where
  Message : String
  Line : Int
  Column : Int
deriving DecidableEq, Repr

/-- The constructor `types.NewToonError`. -/
def NewToonError (message : String) (line column : Int) : ToonError :=
  { Message := message, Line := line, Column := column }

/-- The options `types.EncodeOptions`. -/
structure EncodeOptions where
  Indent : Int
  Delimiter : Str
  KeyFolding : Str
  FlattenDepth : Int
deriving DecidableEq, Repr

/-- The options `types.DecodeOptions`. -/
structure DecodeOptions where
  Indent : Int
  Strict : Bool
  ExpandPaths : Str
deriving DecidableEq, Repr

/-- The constant `types.DelimiterComma`. -/
def DelimiterComma : Str := [',']

/-- The constant `types.DelimiterTab`. -/
def DelimiterTab : Str := ['\t']

/-- The constant `types.DelimiterPipe`. -/
def DelimiterPipe : Str := ['|']

/-- The function `types.DefaultEncodeOptions`. -/
def DefaultEncodeOptions : EncodeOptions :=
  { Indent := 2, Delimiter := DelimiterComma, KeyFolding := "off".toList, FlattenDepth := 1000 }

/-- The function `types.DefaultDecodeOptions`. -/
def DefaultDecodeOptions : DecodeOptions :=
  { Indent := 2, Strict := true, ExpandPaths := "off".toList }

/-- The value model: what `normalizeValue` hands to the encoder and what `Parse`
returns.  `int` is a Go integer (the parser produces `int64`), `obj` a
`map[string]interface{}` in the order `range` visits it, `arr` a
`[]interface{}`. -/
inductive Value where
  | null
  | bool (b : Bool)
  | int (n : Int)
  | float (f : GoFloat)
  | str (s : Str)
  | obj (fields : List (Str × Value))
  | arr (items : List Value)
deriving Repr

mutual
/-- Decidable equality of values. -/
def Value.decEq : (a b : Value) → Decidable (a = b)
  | .null, .null => isTrue rfl
  | .bool x, .bool y => decidable_of_iff (x = y) (by simp)
  | .int x, .int y => decidable_of_iff (x = y) (by simp)
  | .float x, .float y => decidable_of_iff (x = y) (by simp)
  | .str x, .str y => decidable_of_iff (x = y) (by simp)
  | .obj x, .obj y => @decidable_of_iff _ (x = y) (by simp) (Value.decEqFields x y)
  | .arr x, .arr y => @decidable_of_iff _ (x = y) (by simp) (Value.decEqItems x y)
  | .null, .bool _ | .null, .int _ | .null, .float _ | .null, .str _ | .null, .obj _
  | .null, .arr _ => isFalse nofun
  | .bool _, .null | .bool _, .int _ | .bool _, .float _ | .bool _, .str _ | .bool _, .obj _
  | .bool _, .arr _ => isFalse nofun
  | .int _, .null | .int _, .bool _ | .int _, .float _ | .int _, .str _ | .int _, .obj _
  | .int _, .arr _ => isFalse nofun
  | .float _, .null | .float _, .bool _ | .float _, .int _ | .float _, .str _ | .float _, .obj _
  | .float _, .arr _ => isFalse nofun
  | .str _, .null | .str _, .bool _ | .str _, .int _ | .str _, .float _ | .str _, .obj _
  | .str _, .arr _ => isFalse nofun
  | .obj _, .null | .obj _, .bool _ | .obj _, .int _ | .obj _, .float _ | .obj _, .str _
  | .obj _, .arr _ => isFalse nofun
  | .arr _, .null | .arr _, .bool _ | .arr _, .int _ | .arr _, .float _ | .arr _, .str _
  | .arr _, .obj _ => isFalse nofun
/-- Decidable equality of field lists. -/
def Value.decEqFields : (a b : List (Str × Value)) → Decidable (a = b)
  | [], [] => isTrue rfl
  | [], _ :: _ => isFalse nofun
  | _ :: _, [] => isFalse nofun
  | (k, v) :: xs, (k', v') :: ys =>
    @decidable_of_iff _ (k = k' ∧ v = v' ∧ xs = ys) (by simp [and_assoc])
      (@instDecidableAnd _ _ _ (@instDecidableAnd _ _ (Value.decEq v v') (Value.decEqFields xs ys)))
/-- Decidable equality of item lists. -/
def Value.decEqItems : (a b : List Value) → Decidable (a = b)
  | [], [] => isTrue rfl
  | [], _ :: _ => isFalse nofun
  | _ :: _, [] => isFalse nofun
  | x :: xs, y :: ys =>
    @decidable_of_iff _ (x = y ∧ xs = ys) (by simp)
      (@instDecidableAnd _ _ (Value.decEq x y) (Value.decEqItems xs ys))
end

instance : DecidableEq Value := Value.decEq

instance : Inhabited Value := ⟨.null⟩

/-- The outcome of a call: a result, a returned `ToonError`, a run-time panic, or
(in the embedding only) exhausted fuel. -/
inductive Res (α : Type) where
  | ok (a : α)
  | error (e : ToonError)
  | panic
  | outOfFuel
deriving DecidableEq, Repr

/-! ## `internal/utils` -/

/-- The function `utils.CountIndent`: the number of leading spaces. -/
def CountIndent : Str → Nat
  | ' ' :: cs => CountIndent cs + 1
  | _ => 0

/-- The loop of `utils.isNumeric`; `first` says that the byte index is `0`.  The
result is `none` for an early `return false`, otherwise the final pair
`(hasDigit, hasDot)`. -/
def isNumericLoop (lib : GoLib) : Str → Bool → Bool → Bool → Option (Bool × Bool)
  | [], _, hasDigit, hasDot => some (hasDigit, hasDot)
  | c :: cs, first, hasDigit, hasDot =>
    if IsDigit lib c then isNumericLoop lib cs false true hasDot
    else if c = '.' then
      if hasDot then none else isNumericLoop lib cs false hasDigit true
    else if c = '-' ∨ c = '+' then
      if ¬ first then none else isNumericLoop lib cs false hasDigit hasDot
    else if c = 'e' ∨ c = 'E' then isNumericLoop lib cs false hasDigit hasDot
    else none

/-- The function `utils.isNumeric`. -/
def isNumeric (lib : GoLib) (s : Str) : Bool :=
  if s = [] then false
  else
    match isNumericLoop lib s true false false with
    | some (hasDigit, _) => hasDigit
    | none => false

/-- The function `utils.NeedsQuoting`. -/
def NeedsQuoting (lib : GoLib) (s : Str) : Bool :=
  if s = [] then true
  else if s = "null".toList ∨ s = "true".toList ∨ s = "false".toList then true
  else if isNumeric lib s then true
  else
    s.any fun c =>
      (c = ':' ∨ c = ',' ∨ c = '"' ∨ c = '\n' ∨ c = '\r' ∨ c = '\t') ||
      (IsSpace c && (c = ' ' && (HasPrefix s [' '] || HasSuffix s [' '])))

/-! ## `encoder` -/

/-- The quoted form `fmt.Sprintf("\"%s\"", strings.ReplaceAll(s, "\"", "\\\""))`. -/
def quoteString (s : Str) : Str := '"' :: (ReplaceAll s ['"'] ['\\', '"'] ++ ['"'])

/-- The method `Encoder.encodeString`. -/
def encodeString (lib : GoLib) (s : Str) : Str :=
  if NeedsQuoting lib s then quoteString s else s

/-- The method `Encoder.isComplexValue`. -/
def isComplexValue : Value → Bool
  | .obj _ => true
  | .arr _ => true
  | _ => false

/-- The name `%T` prints for the dynamic type of a value. -/
def typeName : Value → String
  | .null => "<nil>"
  | .bool _ => "bool"
  | .int _ => "int64"
  | .float _ => "float64"
  | .str _ => "string"
  | .obj _ => "map[string]interface \x7b\x7d"
  | .arr _ => "[]interface \x7b\x7d"

/-- The method `Encoder.primitiveToString`. -/
def primitiveToString (lib : GoLib) (opts : EncodeOptions) : Value → Res Str
  | .null => .ok []
  | .bool b => .ok (FormatBool b)
  | .int n => .ok (FormatInt n)
  | .float f => .ok (lib.FormatFloat f)
  | .str val =>
    if Contains val opts.Delimiter || NeedsQuoting lib val then .ok (quoteString val) else .ok val
  | v => .error (NewToonError ("non-primitive value in tabular array: " ++ typeName v) 0 0)

/-- The keys of a map, in the order `range` visits them. -/
def mapKeys (obj : List (Str × Value)) : List Str := obj.map Prod.fst

/-- The map index expression `obj[key]`: `nil` for an absent key. -/
def mapIndex (obj : List (Str × Value)) (key : Str) : Value :=
  match obj.lookup key with
  | some v => v
  | none => .null

/-- The assignment `m[key] = v`: an existing entry is overwritten in place, a new
one is added at the end. -/
def mapSet : List (Str × Value) → Str → Value → List (Str × Value)
  | [], key, v => [(key, v)]
  | (k, w) :: rest, key, v => if k = key then (k, v) :: rest else (k, w) :: mapSet rest key v

/-- The body of the loop of `Encoder.isTabularArray` for the items after the
first one. -/
def isTabularRest (firstKeys : List Str) : List Value → Bool
  | [] => true
  | .obj obj :: rest =>
    let keys := mapKeys obj
    if keys.length ≠ firstKeys.length then false
    else if keys.any (fun k => ! firstKeys.contains k) then false
    else if obj.any (fun kv => isComplexValue kv.2) then false
    else isTabularRest firstKeys rest
  | _ :: _ => false

/-- The method `Encoder.isTabularArray`. -/
def isTabularArray : List Value → Bool
  | [] => false
  | .obj obj :: rest =>
    let firstKeys := mapKeys obj
    if obj.any (fun kv => isComplexValue kv.2) then false
    else if ! isTabularRest firstKeys rest then false
    else decide (firstKeys.length > 0)
  | _ :: _ => false

/-- The inner loop of `Encoder.encodeTabularArray`: the cell texts of one row. -/
def encodeRowValues (lib : GoLib) (opts : EncodeOptions) (obj : List (Str × Value)) :
    List Str → Res (List Str)
  | [] => .ok []
  | field :: rest =>
    match primitiveToString lib opts (mapIndex obj field) with
    | .ok valueStr =>
      match encodeRowValues lib opts obj rest with
      | .ok values => .ok (valueStr :: values)
      | .error e => .error e
      | .panic => .panic
      | .outOfFuel => .outOfFuel
    | .error e => .error e
    | .panic => .panic
    | .outOfFuel => .outOfFuel

/-- The outer loop of `Encoder.encodeTabularArray`: one row per item; the type
assertion `item.(map[string]interface{})` panics on another kind of item. -/
def encodeRows (lib : GoLib) (opts : EncodeOptions) (indent : Str) (fields : List Str) :
    List Value → Res (List Str)
  | [] => .ok []
  | .obj obj :: rest =>
    match encodeRowValues lib opts obj fields with
    | .ok values =>
      match encodeRows lib opts indent fields rest with
      | .ok lines => .ok ((indent ++ Join values opts.Delimiter) :: lines)
      | .error e => .error e
      | .panic => .panic
      | .outOfFuel => .outOfFuel
    | .error e => .error e
    | .panic => .panic
    | .outOfFuel => .outOfFuel
  | _ :: _ => .panic

/-- The header line `fmt.Sprintf("[%d]\x7b%s\x7d:", len(arr), strings.Join(fields, ","))`. -/
def tabularHeader (n : Nat) (fields : List Str) : Str :=
  '[' :: (FormatInt n ++ (']' :: '{' :: (Join fields [','] ++ ['}', ':'])))

/-- The method `Encoder.encodeTabularArray`. -/
def encodeTabularArray (lib : GoLib) (opts : EncodeOptions) (arr : List Value) (depth : Int) :
    Res (List Str) :=
  match arr with
  | [] => .ok ["[]".toList]
  | first :: _ =>
    match Repeat (wrapInt (depth * opts.Indent)) with
    | none => .panic
    | some indent =>
      match first with
      | .obj firstObj =>
        let fields := mapKeys firstObj
        let header := tabularHeader arr.length fields
        match encodeRows lib opts indent fields arr with
        | .ok rows => .ok (header :: rows)
        | .error e => .error e
        | .panic => .panic
        | .outOfFuel => .outOfFuel
      | _ => .panic

/-- The re-indentation loop shared by `encodeObject` and `encodeArray`: every
line of a nested value gets `strings.Repeat(" ", e.opts.Indent)` in front. -/
def indentLines (opts : EncodeOptions) : List Str → Res (List Str)
  | [] => .ok []
  | line :: rest =>
    match Repeat opts.Indent with
    | none => .panic
    | some pad =>
      match indentLines opts rest with
      | .ok lines => .ok ((pad ++ line) :: lines)
      | .error e => .error e
      | .panic => .panic
      | .outOfFuel => .outOfFuel

mutual
/-- The method `Encoder.encodeValue`.  Its `default` branch (a Go type outside
the value model) has no counterpart here. -/
def encodeValue (lib : GoLib) (opts : EncodeOptions) : Value → Int → Res (List Str)
  | .null, _ => .ok ["null".toList]
  | .bool val, _ => .ok [FormatBool val]
  | .int val, _ => .ok [FormatInt val]
  | .float val, _ => .ok [lib.FormatFloat val]
  | .str val, _ => .ok [encodeString lib val]
  | .obj obj, depth =>
    -- encodeObject
    match obj with
    | [] => .ok ["\x7b\x7d".toList]
    | _ :: _ =>
      match Repeat (wrapInt (depth * opts.Indent)) with
      | none => .panic
      | some indent => encodeObjectLoop lib opts indent obj depth
  | .arr arr, depth =>
    -- encodeArray
    match arr with
    | [] => .ok ["[]".toList]
    | _ :: _ =>
      if isTabularArray arr then encodeTabularArray lib opts arr depth
      else
        match Repeat (wrapInt (depth * opts.Indent)) with
        | none => .panic
        | some indent => encodeArrayLoop lib opts indent arr depth
/-- The loop `for key, value := range obj` of `Encoder.encodeObject`. -/
def encodeObjectLoop (lib : GoLib) (opts : EncodeOptions) (indent : Str) :
    List (Str × Value) → Int → Res (List Str)
  | [], _ => .ok []
  | (key, value) :: rest, depth =>
    match encodeValue lib opts value (wrapInt (depth + 1)) with
    | .ok valueLines =>
      let here : Res (List Str) :=
        match valueLines, isComplexValue value with
        | [single], false => .ok [indent ++ key ++ ": ".toList ++ single]
        | _, _ =>
          match indentLines opts valueLines with
          | .ok nested => .ok ((indent ++ key ++ [':']) :: nested)
          | .error e => .error e
          | .panic => .panic
          | .outOfFuel => .outOfFuel
      match here with
      | .ok lines =>
        match encodeObjectLoop lib opts indent rest depth with
        | .ok more => .ok (lines ++ more)
        | .error e => .error e
        | .panic => .panic
        | .outOfFuel => .outOfFuel
      | .error e => .error e
      | .panic => .panic
      | .outOfFuel => .outOfFuel
    | .error e => .error e
    | .panic => .panic
    | .outOfFuel => .outOfFuel
/-- The loop `for _, item := range arr` of `Encoder.encodeArray`. -/
def encodeArrayLoop (lib : GoLib) (opts : EncodeOptions) (indent : Str) :
    List Value → Int → Res (List Str)
  | [], _ => .ok []
  | item :: rest, depth =>
    match encodeValue lib opts item (wrapInt (depth + 1)) with
    | .ok itemLines =>
      let here : Res (List Str) :=
        match itemLines, isComplexValue item with
        | [single], false => .ok [indent ++ "- ".toList ++ single]
        | _, _ =>
          match indentLines opts itemLines with
          | .ok nested => .ok ((indent ++ ['-']) :: nested)
          | .error e => .error e
          | .panic => .panic
          | .outOfFuel => .outOfFuel
      match here with
      | .ok lines =>
        match encodeArrayLoop lib opts indent rest depth with
        | .ok more => .ok (lines ++ more)
        | .error e => .error e
        | .panic => .panic
        | .outOfFuel => .outOfFuel
      | .error e => .error e
      | .panic => .panic
      | .outOfFuel => .outOfFuel
    | .error e => .error e
    | .panic => .panic
    | .outOfFuel => .outOfFuel
end

/-- The method `Encoder.encodeObject`; `encodeValue` holds the same body at its
object case, where the recursion is structural. -/
def encodeObject (lib : GoLib) (opts : EncodeOptions) (obj : List (Str × Value)) (depth : Int) :
    Res (List Str) :=
  encodeValue lib opts (.obj obj) depth

/-- The method `Encoder.encodeArray`; `encodeValue` holds the same body at its array
case. -/
def encodeArray (lib : GoLib) (opts : EncodeOptions) (arr : List Value) (depth : Int) :
    Res (List Str) :=
  encodeValue lib opts (.arr arr) depth

/-- The method `Encoder.EncodeLines`, on a normalized value. -/
def EncodeLines (lib : GoLib) (opts : EncodeOptions) (v : Value) : Res (List Str) :=
  encodeValue lib opts v 0

/-- The method `Encoder.Encode`: the lines joined by a line feed. -/
def Encoder_Encode (lib : GoLib) (opts : EncodeOptions) (v : Value) : Res Str :=
  match EncodeLines lib opts v with
  | .ok lines => .ok (Join lines ['\n'])
  | .error e => .error e
  | .panic => .panic
  | .outOfFuel => .outOfFuel

/-! ## `parser` -/

/-- The parser state: `rest` is `p.lines[p.pos:]`, and `pos` is `p.pos`. -/
structure parser where
  rest : List Str
  pos : Nat
deriving DecidableEq, Repr

/-- The statement `p.pos++`. -/
def parser.advance (p : parser) : parser := { rest := p.rest.tail, pos := p.pos + 1 }

/-- The length of a Go string in bytes (UTF-8). -/
def byteLen (s : Str) : Nat := (s.map Char.utf8Size).sum

/-- The method `parser.parsePrimitive`; its error result is always `nil`. -/
def parsePrimitive (lib : GoLib) (value : Str) : Value :=
  let value := TrimSpace value
  if byteLen value ≥ 2 ∧ value.head? = some '"' ∧ value.getLast? = some '"' then
    .str (ReplaceAll (value.tail.dropLast) ['\\', '"'] ['"'])
  else if value = "null".toList then .null
  else if value = "true".toList then .bool true
  else if value = "false".toList then .bool false
  else
    match ParseInt value with
    | some intVal => .int intVal
    | none =>
      match lib.ParseFloat value with
      | some floatVal => .float floatVal
      | none => .str value

/-- The loop of `parser.parseDelimitedValues`: `inQuotes` and `current` are its
variables; `skip` says that this character is the second quote of a doubled
quote, which the loop steps over (`i++`). -/
def delimitedLoop : Str → Bool → Bool → Str → List Str
  | [], _, _, current => [TrimSpace current.reverse]
  | _ :: cs, true, inQuotes, current => delimitedLoop cs false inQuotes current
  | c :: cs, false, inQuotes, current =>
    if c = '"' then
      if inQuotes ∧ cs.head? = some '"' then delimitedLoop cs true inQuotes ('"' :: current)
      else delimitedLoop cs false (! inQuotes) current
    else if c = ',' then
      if ! inQuotes then TrimSpace current.reverse :: delimitedLoop cs false inQuotes []
      else delimitedLoop cs false inQuotes (c :: current)
    else delimitedLoop cs false inQuotes (c :: current)

/-- The method `parser.parseDelimitedValues`. -/
def parseDelimitedValues (line : Str) : List Str := delimitedLoop line false false []

/-- The regular expression `^\[(\d+)\]\{([^}]+)\}:$` of `tabularHeaderRegex`:
the two submatches, when the line matches. -/
def matchTabularHeader (line : Str) : Option (Str × Str) :=
  match line with
  | '[' :: rest =>
    let digits := rest.takeWhile isAsciiDigit
    match digits, rest.dropWhile isAsciiDigit with
    | _ :: _, ']' :: '{' :: rest2 =>
      let fieldsStr := rest2.takeWhile (fun c => c ≠ '}')
      match fieldsStr, rest2.dropWhile (fun c => c ≠ '}') with
      | _ :: _, ['}', ':'] => some (digits, fieldsStr)
      | _, _ => none
    | _, _ => none
  | _ => none

/-- The inner loop of `parser.parseTabularArray`: one object per row. -/
def parseRowObject (lib : GoLib) : List Str → List Str → List (Str × Value) → List (Str × Value)
  | field :: fields, value :: values, obj =>
    parseRowObject lib fields values (mapSet obj field (parsePrimitive lib value))
  | _, _, obj => obj

/-- The row loop of `parser.parseTabularArray`; `remaining` is `count - i`. -/
def parseTabularRows (lib : GoLib) (opts : DecodeOptions) (fields : List Str) (indent : Int) :
    Nat → List Str → Nat → List Value → Res (Value × parser)
  | 0, rest, pos, result => .ok (.arr result, { rest := rest, pos := pos })
  | _ + 1, [], pos, result => .ok (.arr result, { rest := [], pos := pos })
  | remaining + 1, line :: rest, pos, result =>
    let lineIndent := CountIndent line
    if (lineIndent : Int) ≠ wrapInt (indent + opts.Indent) then
      .ok (.arr result, { rest := line :: rest, pos := pos })
    else
      let trimmed := TrimSpace line
      let values := parseDelimitedValues trimmed
      if values.length ≠ fields.length then
        .error (NewToonError
          ("field count mismatch at line " ++ toString (pos + 1) ++ ": expected " ++
            toString fields.length ++ ", got " ++ toString values.length) (pos + 1) 0)
      else
        let obj := parseRowObject lib fields values []
        parseTabularRows lib opts fields indent remaining rest (pos + 1) (result ++ [.obj obj])

/-- The method `parser.parseTabularArray`; `submatches` holds the two submatches of
the header. -/
def parseTabularArray (lib : GoLib) (opts : DecodeOptions) (p : parser) (submatches : Str × Str)
    (indent : Int) : Res (Value × parser) :=
  match Atoi submatches.1 with
  | none => .error (NewToonError ("invalid array count: " ++ String.mk submatches.1) (p.pos + 1) 0)
  | some count =>
    let fields := (Split submatches.2 ',').map TrimSpace
    let p := p.advance
    parseTabularRows lib opts fields indent count.toNat p.rest p.pos []

mutual
/-- The method `parser.parseValue`. -/
def parseValue (lib : GoLib) (opts : DecodeOptions) :
    Nat → parser → Int → Res (Value × parser)
  | 0, _, _ => .outOfFuel
  | fuel + 1, p, indent =>
    match p.rest with
    | [] => .ok (.null, p)
    | _ :: _ => parseValueLoop lib opts fuel p indent []
/-- The loop `for p.pos < len(p.lines)` of `parser.parseValue`, with the
statements after it; `result` is the map built so far. -/
def parseValueLoop (lib : GoLib) (opts : DecodeOptions) :
    Nat → parser → Int → List (Str × Value) → Res (Value × parser)
  | 0, _, _, _ => .outOfFuel
  | fuel + 1, p, indent, result =>
    match p.rest with
    | [] => if result.length = 0 then .ok (.null, p) else .ok (.obj result, p)
    | line :: _ =>
      let lineIndent := CountIndent line
      if TrimSpace line = [] then parseValueLoop lib opts fuel p.advance indent result
      else if (lineIndent : Int) < indent then
        if result.length = 0 then .ok (.null, p) else .ok (.obj result, p)
      else if (lineIndent : Int) > indent then
        .error (NewToonError ("unexpected indentation at line " ++ toString (p.pos + 1))
          (p.pos + 1) lineIndent)
      else
        let trimmed := TrimSpace line
        match Index trimmed [':'] with
        | some colonIndex =>
          let key := TrimSpace (trimmed.take colonIndex)
          let value := TrimSpace (trimmed.drop (colonIndex + 1))
          if value = [] then
            match parseMultiLineValue lib opts fuel p.advance key indent with
            | .ok (parsedValue, p') =>
              parseValueLoop lib opts fuel p' indent (mapSet result key parsedValue)
            | .error e => .error e
            | .panic => .panic
            | .outOfFuel => .outOfFuel
          else
            parseValueLoop lib opts fuel p.advance indent
              (mapSet result key (parsePrimitive lib value))
        | none =>
          if HasPrefix trimmed ['-', ' '] then parseArrayItems lib opts fuel p indent []
          else .ok (parsePrimitive lib trimmed, p)
/-- The method `parser.parseMultiLineValue`. -/
def parseMultiLineValue (lib : GoLib) (opts : DecodeOptions) :
    Nat → parser → Str → Int → Res (Value × parser)
  | 0, _, _, _ => .outOfFuel
  | fuel + 1, p, _key, indent =>
    match p.rest with
    | [] => .ok (.null, p)
    | line :: _ =>
      let nextLine := TrimSpace line
      match matchTabularHeader nextLine with
      | some submatches => parseTabularArray lib opts p submatches (wrapInt (indent + opts.Indent))
      | none =>
        let nextLineIndent := CountIndent line
        if (nextLineIndent : Int) = wrapInt (indent + opts.Indent) ∧
            HasPrefix nextLine ['-', ' '] then
          parseArrayItems lib opts fuel p (wrapInt (indent + opts.Indent)) []
        else parseValue lib opts fuel p (wrapInt (indent + opts.Indent))
/-- The method `parser.parseArrayItems`; `items` is the slice built so far. -/
def parseArrayItems (lib : GoLib) (opts : DecodeOptions) :
    Nat → parser → Int → List Value → Res (Value × parser)
  | 0, _, _, _ => .outOfFuel
  | fuel + 1, p, indent, items =>
    match p.rest with
    | [] => .ok (.arr items, p)
    | line :: _ =>
      let lineIndent := CountIndent line
      if (lineIndent : Int) < indent then .ok (.arr items, p)
      else if (lineIndent : Int) = indent then
        let trimmed := TrimSpace line
        if HasPrefix trimmed ['-', ' '] then
          let itemValue := TrimSpace (trimmed.drop 2)
          if itemValue = [] then
            match parseValue lib opts fuel p.advance (wrapInt (indent + opts.Indent)) with
            | .ok (parsedItem, p') => parseArrayItems lib opts fuel p' indent (items ++ [parsedItem])
            | .error e => .error e
            | .panic => .panic
            | .outOfFuel => .outOfFuel
          else
            parseArrayItems lib opts fuel p.advance indent (items ++ [parsePrimitive lib itemValue])
        else .ok (.arr items, p)
      else .ok (.arr items, p)
end

/-- The function `parser.Parse`, with the options already defaulted. -/
def Parse (lib : GoLib) (input : Str) (opts : DecodeOptions) : Res Value :=
  let lines := Split (TrimSpace input) '\n'
  if lines.length = 0 then .ok (.obj [])
  else
    match parseValue lib opts (3 * lines.length + 4) { rest := lines, pos := 0 } 0 with
    | .ok (v, _) => .ok v
    | .error e => .error e
    | .panic => .panic
    | .outOfFuel => .outOfFuel

/-! ## `decoder` and the package functions -/

/-- The destination types of `Decode` that are modelled: a pointer to
`interface{}` and a pointer to `map[string]interface{}`. -/
inductive DstType where
  | Interface
  | MapStringInterface
deriving DecidableEq, Repr

/-- The method `Decoder.assignReflectValue` at the two destination types.  The
result is the new content of the destination (`null` for a nil interface or a
nil map).  A source `nil` sets the zero value; an `interface{}` destination
takes the source as it is; a map destination takes a source of its own type
(`AssignableTo`), and any other source reaches `assignMap`, which rejects it. -/
def assignReflectValue (src : Value) (dstType : DstType) : Res Value :=
  match src with
  | .null => .ok .null
  | _ =>
    match dstType with
    | .Interface => .ok src
    | .MapStringInterface =>
      match src with
      | .obj _ => .ok src
      | _ => .error (NewToonError ("cannot assign " ++ typeName src ++ " to map") 0 0)

/-- The method `Decoder.Decode`: parse, then assign to the destination. -/
def Decoder_Decode (lib : GoLib) (opts : DecodeOptions) (data : Str) (dstType : DstType) :
    Res Value :=
  match Parse lib data opts with
  | .ok parsed => assignReflectValue parsed dstType
  | .error e => .error e
  | .panic => .panic
  | .outOfFuel => .outOfFuel

/-- The function `toonify.Encode`. -/
def Encode (lib : GoLib) (v : Value) : Res Str := Encoder_Encode lib DefaultEncodeOptions v

/-- The function `toonify.Decode`. -/
def Decode (lib : GoLib) (data : Str) (dstType : DstType) : Res Value :=
  Decoder_Decode lib DefaultDecodeOptions data dstType

/-- The function `toonify.EncodeBytes`. -/
def EncodeBytes (lib : GoLib) (v : Value) : Res Str := Encoder_Encode lib DefaultEncodeOptions v

/-- The function `toonify.DecodeBytes`. -/
def DecodeBytes (lib : GoLib) (data : Str) (dstType : DstType) : Res Value :=
  Decoder_Decode lib DefaultDecodeOptions data dstType

/-- Encoding followed by decoding, as the tests do it: `Decode(Encode(v))`. -/
def roundTrip (lib : GoLib) (v : Value) (dstType : DstType) : Res Value :=
  match Encode lib v with
  | .ok text => Decode lib text dstType
  | .error e => .error e
  | .panic => .panic
  | .outOfFuel => .outOfFuel

/-- A library instance for evaluating the embedding on texts that hold no float
literal and no digit outside Latin-1. -/
def asciiLib : GoLib :=
  { ParseFloat := fun _ => none, FormatFloat := fun _ => [], IsDigitTable := fun _ => false }

/-- Encoding followed by decoding through the byte functions:
`DecodeBytes(EncodeBytes(v))`. -/
def roundTripBytes (lib : GoLib) (v : Value) (dstType : DstType) : Res Value :=
  match EncodeBytes lib v with
  | .ok data => DecodeBytes lib data dstType
  | .error e => .error e
  | .panic => .panic
  | .outOfFuel => .outOfFuel

/-! ## Vocabulary of the statements -/

/-- An ASCII letter. -/
def isLetter (c : Char) : Bool :=
  (65 ≤ c.toNat && c.toNat ≤ 90) || (97 ≤ c.toNat && c.toNat ≤ 122)

/-- A character of an identifier: an ASCII letter, a digit or the underscore. -/
def isIdentChar (c : Char) : Bool := isLetter c || isAsciiDigit c || c.toNat == 95

/-- A non-empty identifier. -/
def isIdentifier (s : Str) : Bool := !s.isEmpty && s.all isIdentChar

/-- An integer of type `int64`. -/
def isInt64 (n : Int) : Prop := -2 ^ 63 ≤ n ∧ n < 2 ^ 63

/-- A key line `key: text` behind `n` spaces. -/
def kvLine (n : Nat) (key text : Str) : Str := List.replicate n ' ' ++ (key ++ ':' :: ' ' :: text)

/-- Every character is white space. -/
def allSpace (a : Str) : Prop := ∀ c ∈ a, IsSpace c = true

/-- A non-empty text that neither starts nor ends with white space. -/
def Core (m : Str) : Prop :=
  (∃ c r, m = c :: r ∧ IsSpace c = false) ∧ (∃ r c, m = r ++ [c] ∧ IsSpace c = false)

/-- The text of a scalar, as `encodeValue` renders it. -/
def scalarText (lib : GoLib) : Value → Str
  | .null => "null".toList
  | .bool b => FormatBool b
  | .int n => FormatInt n
  | .float f => lib.FormatFloat f
  | .str s => encodeString lib s
  | .obj _ => []
  | .arr _ => []

/-- The text of a table cell, as `primitiveToString` renders it. -/
def cellText (lib : GoLib) (opts : EncodeOptions) : Value → Str
  | .null => []
  | .bool b => FormatBool b
  | .int n => FormatInt n
  | .float f => lib.FormatFloat f
  | .str val =>
    if Contains val opts.Delimiter || NeedsQuoting lib val then quoteString val else val
  | .obj _ => []
  | .arr _ => []

/-- The text of a table row before its indentation: the cells of the object `item`
for the given fields, joined by the delimiter. -/
def rowText (lib : GoLib) (opts : EncodeOptions) (fields : List Str) : Value → Str
  | .obj r => Join (fields.map fun f => cellText lib opts (mapIndex r f)) opts.Delimiter
  | _ => []

/-- Every item is an object without an object or an array among its values. -/
def flatRows (arr : List Value) : Prop :=
  ∀ item ∈ arr, ∃ r, item = .obj r ∧ r.any (fun kv => isComplexValue kv.2) = false

/-- Decimal digits of an integer, as the statements name them. -/
def decimalText (n : Int) : Str := (toString n).toList

/-- The double-quoted form of a string: a quote, the string with a backslash put before
each of its quotes, a quote. -/
def doubleQuoted (s : Str) : Str :=
  ['"'] ++ s.flatMap (fun c => if c = '"' then ['\\', '"'] else [c]) ++ ['"']

/-- The cell text of §4.2b for an integer or a string: decimal digits; the string
itself, or its double-quoted form when it contains the delimiter or the quoting
predicate flags it. -/
def specCellText (lib : GoLib) (delimiter : Str) : Value → Str
  | .int n => decimalText n
  | .str s => if delimiter <:+: s ∨ NeedsQuoting lib s = true then doubleQuoted s else s
  | _ => []

/-- The header of §4.2b, `[<length>]\x7bfield1,field2,...\x7d:`. -/
def specHeader (n : Nat) (fields : List Str) : Str :=
  "[".toList ++ decimalText n ++ "]\x7b".toList ++ [','].intercalate fields ++ "\x7d:".toList

/-- The row of §4.2b for an object: the cell texts of the fields, in the order of the
fields, joined by the delimiter. -/
def specRow (lib : GoLib) (delimiter : Str) (fields : List Str) : Value → Str
  | .obj r => delimiter.intercalate (fields.map fun f => specCellText lib delimiter (mapIndex r f))
  | _ => []

/-- Tabular eligibility (§4.2b) of the array `first :: rest` of maps: every element is
an object, every element has the key set of the first one, every value inside every
element is scalar, and there is at least one field. -/
def TabularEligible (first : List (Str × Value)) (rest : List Value) : Prop :=
  first ≠ [] ∧
  ∀ item ∈ Value.obj first :: rest, ∃ r, item = .obj r ∧ (mapKeys r).Nodup ∧
    (∀ k, k ∈ mapKeys r ↔ k ∈ mapKeys first) ∧ ∀ kv ∈ r, isComplexValue kv.2 = false

/-- Replacing every backslash-quote pair by a quote, reading from the left. -/
def unescapeQuotes : Str → Str
  | '\\' :: '"' :: r => '"' :: unescapeQuotes r
  | c :: r => c :: unescapeQuotes r
  | [] => []

/-- The scalar literal grammar of §4.1 (7), on a text that has been trimmed: the cases
in the order of the specification. -/
def scalarLiteral (lib : GoLib) (t : Str) : Value :=
  if t.length ≥ 2 ∧ t.head? = some '"' ∧ t.getLast? = some '"' then
    .str (unescapeQuotes ((t.drop 1).take (t.length - 2)))
  else if t = "null".toList then .null
  else if t = "true".toList then .bool true
  else if t = "false".toList then .bool false
  else
    match ParseInt t with
    | some n => .int n
    | none =>
      match lib.ParseFloat t with
      | some f => .float f
      | none => .str t

/-- A plain word: a non-empty string of ASCII letters. -/
def isPlainWord (s : Str) : Bool := !s.isEmpty && s.all isLetter

/-- A scalar cell: an `int64`, a boolean, or a plain word that `parsePrimitive` reads
back as the same string. -/
def GoodCell (lib : GoLib) (v : Value) : Prop :=
  (∃ n, isInt64 n ∧ v = .int n) ∨ (∃ b, v = .bool b) ∨
    (∃ w, v = .str w ∧ isPlainWord w = true ∧ parsePrimitive lib w = .str w)

/-- A table: a non-empty array (of a length that fits `int`) of objects that share one
non-empty set of identifier keys and hold scalar cells. -/
def GoodTable (lib : GoLib) (v : Value) : Prop :=
  ∃ first rest, v = .arr (.obj first :: rest) ∧ rest.length + 1 < 2 ^ 63 ∧
    TabularEligible first rest ∧
    ∀ r, Value.obj r ∈ Value.obj first :: rest → ∀ kv ∈ r,
      isIdentifier kv.1 = true ∧ GoodCell lib kv.2

/-- A text without white space at either end, without a quote and without a comma. -/
def CleanCell (t : Str) : Prop := Core t ∧ '"' ∉ t ∧ ',' ∉ t

/-- A scalar that survives a key line: it is rendered on one line as a text without
white space at either end, and `parsePrimitive` reads the text back as the scalar. -/
def GoodScalar (lib : GoLib) (v : Value) : Prop :=
  isComplexValue v = false ∧ Core (scalarText lib v) ∧ '\n' ∉ scalarText lib v ∧
    parsePrimitive lib (scalarText lib v) = v

/-- What the parser builds for a table row: the cells of the object in the order of
the header fields. -/
def readBackRow (fields : List Str) : Value → Value
  | .obj r => .obj (fields.map fun f => (f, mapIndex r f))
  | v => v

/-- What the parser builds for a value of a top-level object: a table comes back with
every row in the order of the header fields, a scalar as it is. -/
def readBack : Value → Value
  | .arr (.obj first :: rest) => .arr ((Value.obj first :: rest).map (readBackRow (mapKeys first)))
  | v => v

/-- A table row as the encoder writes it below a top-level key: four spaces, then the
cells. -/
def tableRowLine (lib : GoLib) (fields : List Str) (item : Value) : Str :=
  "    ".toList ++ rowText lib DefaultEncodeOptions fields item

/-- The lines of one field of a top-level object under the default options: a scalar
on its key line; a table as the key line, the header behind two spaces and the rows
behind four. -/
def fieldLines (lib : GoLib) (kv : Str × Value) : List Str :=
  match kv.2 with
  | .arr (.obj first :: rest) =>
    (kv.1 ++ [':']) ::
      ("  ".toList ++ tabularHeader (rest.length + 1) (mapKeys first)) ::
        (Value.obj first :: rest).map (tableRowLine lib (mapKeys first))
  | v => [kvLine 0 kv.1 (scalarText lib v)]

/-- A field of a top-level object that the round trip covers: an identifier key with a
scalar or a table. -/
def GoodField (lib : GoLib) (kv : Str × Value) : Prop :=
  isIdentifier kv.1 = true ∧ (GoodScalar lib kv.2 ∨ GoodTable lib kv.2)

mutual
/-- Equality of values up to the order of the keys of objects: arrays are compared
item by item in order, objects as sets of fields. -/
def SameValue : Value → Value → Prop
  | .obj a, .obj b => ∃ c, List.Perm b c ∧ SameFields a c
  | .obj _, _ => False
  | .arr a, .arr b => SameItems a b
  | .arr _, _ => False
  | a, b => a = b
/-- Field lists with the same keys in the same order and values equal up to key order. -/
def SameFields : List (Str × Value) → List (Str × Value) → Prop
  | [], [] => True
  | (k, v) :: r, (k', v') :: r' => k = k' ∧ SameValue v v' ∧ SameFields r r'
  | _, _ => False
/-- Item lists of the same length with items equal up to key order. -/
def SameItems : List Value → List Value → Prop
  | [], [] => True
  | v :: r, v' :: r' => SameValue v v' ∧ SameItems r r'
  | _, _ => False
end

/-! ## `decoder` on typed destinations

The decoder works through `reflect`.  A destination is a Go type (`GoType`) with its
current content (`GoVal`); a source is a `reflect.Value` over the value model (`Src`).
Every assignment function returns the content of the destination after the call
together with the outcome, so that what a failed call leaves behind is visible.

* `reflect.ValueOf(x)` has the kind of the dynamic type of `x` (`Src.concrete`), and is
  the invalid `Value` for `nil`.  `src.Index(i)` on a `[]interface{}` and
  `src.MapIndex(key)` on a `map[string]interface{}` have the element type
  `interface{}`: their kind is `reflect.Interface` (`Src.boxed`), whatever they hold.
  The keys of `src.MapKeys()` have kind `reflect.String`.
* An empty `arr` is the nil slice: the parser builds its slices with `append` on a
  nil slice and has no empty non-nil one.
* Types are compared by structure; a defined type behaves as its underlying type.
* Every destination the decoder reaches is settable: it starts from the element of a
  pointer and skips the struct fields that are not exported.
* The conversions between floats and integers and the Unicode case table are
  parameters (`GoConv`).
-/

namespace Decoder

/-- The conversions of the Go language and library that the decoder uses and that are
not written out: `int64(f)`, `uint64(f)`, `float64(i)`, the rounding of a `float64`
stored in a `float32`, and `unicode.ToLower` outside ASCII. -/
structure GoConv where
  floatToInt64 : GoFloat → Int
  floatToUint64 : GoFloat → Nat
  intToFloat64 : Int → GoFloat
  toFloat32 : GoFloat → GoFloat
  lowerTable : Char → Char

/-- The signed integer kinds. -/
inductive IntKind where
  | Int | Int8 | Int16 | Int32 | Int64
deriving DecidableEq, Repr

/-- The width of a signed integer kind (`int` is 64 bits wide). -/
def IntKind.bits : IntKind → Nat
  | .Int => 64
  | .Int8 => 8
  | .Int16 => 16
  | .Int32 => 32
  | .Int64 => 64

/-- The unsigned integer kinds that `assignReflectValue` handles. -/
inductive UintKind where
  | Uint | Uint8 | Uint16 | Uint32 | Uint64
deriving DecidableEq, Repr

/-- The width of an unsigned integer kind (`uint` is 64 bits wide). -/
def UintKind.bits : UintKind → Nat
  | .Uint => 64
  | .Uint8 => 8
  | .Uint16 => 16
  | .Uint32 => 32
  | .Uint64 => 64

/-- The floating-point kinds. -/
inductive FloatKind where
  | Float32 | Float64
deriving DecidableEq, Repr

/-- What `FindStructField` and `assignStruct` read of a `reflect.StructField`: the
name, the values of the `json` and `toon` keys of the tag (empty when absent), and
whether the field is exported (`CanSet`). -/
structure FieldInfo where
  Name : Str
  jsonTag : Str
  toonTag : Str
  exported : Bool
deriving DecidableEq, Repr

/-- A destination type, as `reflect.Type` shows it.  `Interface` is `interface{}`;
`Other` stands for the kinds `assignReflectValue` has no case for, with the text `%v`
prints for the type. -/
inductive GoType where
  | Interface
  | String
  | Bool
  | Int (k : IntKind)
  | Uint (k : UintKind)
  | Float (k : FloatKind)
  | Slice (elem : GoType)
  | Array (len : Nat) (elem : GoType)
  | Map (key elem : GoType)
  | Struct (fields : List (FieldInfo × GoType))
  | Ptr (elem : GoType)
  | Other (name : String)

/-- The content of a destination.  `dyn v` is an `interface{}` holding `v` (nil for
`null`); `slice none`, `map none` and `ptr none` are the nil slice, map and pointer;
a `struct` lists the contents of its fields in declaration order. -/
inductive GoVal where
  | dyn (v : Value)
  | str (s : Str)
  | bool (b : Bool)
  | int (n : Int)
  | uint (n : Nat)
  | float (f : GoFloat)
  | slice (items : Option (List GoVal))
  | array (items : List GoVal)
  | map (entries : Option (List (GoVal × GoVal)))
  | struct (fields : List GoVal)
  | ptr (target : Option GoVal)
  | other

mutual
/-- Equality of contents, as `==` on map keys (floats by bit pattern). -/
def GoVal.beq : GoVal → GoVal → Bool
  | .dyn a, .dyn b => decide (a = b)
  | .str a, .str b => decide (a = b)
  | .bool a, .bool b => decide (a = b)
  | .int a, .int b => decide (a = b)
  | .uint a, .uint b => decide (a = b)
  | .float a, .float b => decide (a = b)
  | .slice none, .slice none => true
  | .slice (some a), .slice (some b) => GoVal.beqList a b
  | .array a, .array b => GoVal.beqList a b
  | .map none, .map none => true
  | .map (some a), .map (some b) => GoVal.beqEntries a b
  | .struct a, .struct b => GoVal.beqList a b
  | .ptr none, .ptr none => true
  | .ptr (some a), .ptr (some b) => GoVal.beq a b
  | .other, .other => true
  | _, _ => false
/-- Equality of lists of contents. -/
def GoVal.beqList : List GoVal → List GoVal → Bool
  | [], [] => true
  | a :: as, b :: bs => GoVal.beq a b && GoVal.beqList as bs
  | _, _ => false
/-- Equality of lists of map entries. -/
def GoVal.beqEntries : List (GoVal × GoVal) → List (GoVal × GoVal) → Bool
  | [], [] => true
  | (a, x) :: as, (b, y) :: bs => GoVal.beq a b && GoVal.beq x y && GoVal.beqEntries as bs
  | _, _ => false
end

mutual
/-- The function `reflect.Zero`. -/
def Zero : GoType → GoVal
  | .Interface => .dyn .null
  | .String => .str []
  | .Bool => .bool false
  | .Int _ => .int 0
  | .Uint _ => .uint 0
  | .Float _ => .float { bits := 0 }
  | .Slice _ => .slice none
  | .Array len elem => .array (List.replicate len (Zero elem))
  | .Map _ _ => .map none
  | .Struct fields => .struct (ZeroFields fields)
  | .Ptr _ => .ptr none
  | .Other _ => .other
/-- The zero contents of the fields of a struct. -/
def ZeroFields : List (FieldInfo × GoType) → List GoVal
  | [] => []
  | (_, t) :: rest => Zero t :: ZeroFields rest
end

mutual
/-- The nesting depth of a type: the fuel `assignReflectValue` needs. -/
def GoType.depth : GoType → Nat
  | .Slice elem => elem.depth + 1
  | .Array _ elem => elem.depth + 1
  | .Map key elem => max key.depth elem.depth + 1
  | .Struct fields => GoType.depthFields fields + 1
  | .Ptr elem => elem.depth + 1
  | _ => 1
/-- The largest depth among the field types. -/
def GoType.depthFields : List (FieldInfo × GoType) → Nat
  | [] => 0
  | (_, t) :: rest => max t.depth (GoType.depthFields rest)
end

/-- A source `reflect.Value`. -/
inductive Src where
  | invalid
  | concrete (v : Value)
  | boxed (v : Value)

/-- The function `reflect.ValueOf` on a parsed value. -/
def ValueOf : Value → Src
  | .null => .invalid
  | v => .concrete v

/-- The value a source holds. -/
def Src.value : Src → Value
  | .invalid => .null
  | .concrete v => v
  | .boxed v => v

/-- The text `%v` prints for `src.Type()`. -/
def Src.typeName : Src → String
  | .boxed _ => "interface \x7b\x7d"
  | s => Toonify.typeName s.value

/-- The method `src.IsNil()`; `none` is its panic on a kind that has no nil. -/
def Src.IsNil : Src → Option Bool
  | .invalid => none
  | .boxed v => some (decide (v = .null))
  | .concrete (.obj _) => some false
  | .concrete (.arr items) => some items.isEmpty
  | .concrete _ => none

/-- The content `dst.Set(src)` stores when the type of the source is the type of the
destination. -/
def ofValue : Value → GoVal
  | .null => .dyn .null
  | .bool b => .bool b
  | .int n => .int n
  | .float f => .float f
  | .str s => .str s
  | .obj fields => .map (some (fields.map fun kv => (.str kv.1, .dyn kv.2)))
  | .arr [] => .slice none
  | .arr (x :: xs) => .slice (some ((x :: xs).map .dyn))

/-- The test `srcType.AssignableTo(dstType)` for a destination that is neither
`interface{}` nor a pointer. -/
def AssignableTo : Src → GoType → Bool
  | .concrete (.str _), .String => true
  | .concrete (.bool _), .Bool => true
  | .concrete (.int _), .Int .Int64 => true
  | .concrete (.float _), .Float .Float64 => true
  | .concrete (.obj _), .Map .String .Interface => true
  | .concrete (.arr _), .Slice .Interface => true
  | _, _ => false

/-- The function `strconv.ParseBool`. -/
def ParseBool (s : Str) : Option Bool :=
  if s = "1".toList ∨ s = "t".toList ∨ s = "T".toList ∨ s = "TRUE".toList ∨
      s = "true".toList ∨ s = "True".toList then some true
  else if s = "0".toList ∨ s = "f".toList ∨ s = "F".toList ∨ s = "FALSE".toList ∨
      s = "false".toList ∨ s = "False".toList then some false
  else none

/-- The function `strconv.ParseUint(s, 10, 64)`. -/
def ParseUint (s : Str) : Option Nat :=
  match parseMagnitude s with
  | some un => if un ≥ 2 ^ 64 then none else some un
  | none => none

/-- The value `SetInt` stores in a signed destination of the given width: the
conversion of an `int64` to the narrower type keeps the low bits. -/
def truncInt (bits : Nat) (i : Int) : Int := (i + 2 ^ (bits - 1)) % 2 ^ bits - 2 ^ (bits - 1)

/-- The value `SetUint` stores in an unsigned destination of the given width. -/
def truncUint (bits : Nat) (u : Nat) : Nat := u % 2 ^ bits

/-- The conversion `uint64(i)` of an `int64`. -/
def int64ToUint64 (i : Int) : Nat := (i % 2 ^ 64).toNat

/-- The result of an assignment: the content of the destination after the call and
the outcome. -/
abbrev Assigned := GoVal × Res Unit

/-- The method `Decoder.assignString`. -/
def assignString (lib : GoLib) (src : Src) (dst : GoVal) : Assigned :=
  match src with
  | .invalid => (dst, .panic)
  | .concrete (.str s) => (.str s, .ok ())
  | .concrete (.int n) => (.str (FormatInt n), .ok ())
  | .concrete (.float f) => (.str (lib.FormatFloat f), .ok ())
  | .concrete (.bool b) => (.str (FormatBool b), .ok ())
  | _ => (dst, .error (NewToonError ("cannot convert " ++ src.typeName ++ " to string") 0 0))

/-- The method `Decoder.assignBool`. -/
def assignBool (src : Src) (dst : GoVal) : Assigned :=
  match src with
  | .invalid => (dst, .panic)
  | .concrete (.bool b) => (.bool b, .ok ())
  | .concrete (.str s) =>
    match ParseBool s with
    | some b => (.bool b, .ok ())
    | none =>
      (dst, .error (NewToonError ("cannot parse bool from string: " ++ String.mk s) 0 0))
  | _ => (dst, .error (NewToonError ("cannot convert " ++ src.typeName ++ " to bool") 0 0))

/-- The method `Decoder.assignInt`, for a destination of kind `k`. -/
def assignInt (conv : GoConv) (k : IntKind) (src : Src) (dst : GoVal) : Assigned :=
  match src with
  | .invalid => (dst, .panic)
  | .concrete (.int n) => (.int (truncInt k.bits n), .ok ())
  | .concrete (.float f) => (.int (truncInt k.bits (conv.floatToInt64 f)), .ok ())
  | .concrete (.str s) =>
    match ParseInt s with
    | some i => (.int (truncInt k.bits i), .ok ())
    | none =>
      (dst, .error (NewToonError ("cannot parse int from string: " ++ String.mk s) 0 0))
  | _ => (dst, .error (NewToonError ("cannot convert " ++ src.typeName ++ " to int") 0 0))

/-- The method `Decoder.assignUint`, for a destination of kind `k`. -/
def assignUint (conv : GoConv) (k : UintKind) (src : Src) (dst : GoVal) : Assigned :=
  match src with
  | .invalid => (dst, .panic)
  | .concrete (.int n) => (.uint (truncUint k.bits (int64ToUint64 n)), .ok ())
  | .concrete (.float f) => (.uint (truncUint k.bits (conv.floatToUint64 f)), .ok ())
  | .concrete (.str s) =>
    match ParseUint s with
    | some u => (.uint (truncUint k.bits u), .ok ())
    | none =>
      (dst, .error (NewToonError ("cannot parse uint from string: " ++ String.mk s) 0 0))
  | _ => (dst, .error (NewToonError ("cannot convert " ++ src.typeName ++ " to uint") 0 0))

/-- The method `Decoder.assignFloat`, for a destination of kind `k`. -/
def assignFloat (lib : GoLib) (conv : GoConv) (k : FloatKind) (src : Src) (dst : GoVal) :
    Assigned :=
  let store := fun (f : GoFloat) =>
    match k with
    | .Float32 => GoVal.float (conv.toFloat32 f)
    | .Float64 => GoVal.float f
  match src with
  | .invalid => (dst, .panic)
  | .concrete (.float f) => (store f, .ok ())
  | .concrete (.int n) => (store (conv.intToFloat64 n), .ok ())
  | .concrete (.str s) =>
    match lib.ParseFloat s with
    | some f => (store f, .ok ())
    | none =>
      (dst, .error (NewToonError ("cannot parse float from string: " ++ String.mk s) 0 0))
  | _ => (dst, .error (NewToonError ("cannot convert " ++ src.typeName ++ " to float") 0 0))

/-- The loop of `Decoder.assignSlice`: the elements of the new slice that have been
assigned so far, or the outcome that stopped the loop.  `assign` is
`d.assignReflectValue`. -/
def assignSliceLoop (assign : Src → GoType → GoVal → Assigned) (elem : GoType) :
    List Value → Res (List GoVal)
  | [] => .ok []
  | item :: rest =>
    match assign (.boxed item) elem (Zero elem) with
    | (v, .ok _) =>
      match assignSliceLoop assign elem rest with
      | .ok vs => .ok (v :: vs)
      | .error e => .error e
      | .panic => .panic
      | .outOfFuel => .outOfFuel
    | (_, .error e) => .error e
    | (_, .panic) => .panic
    | (_, .outOfFuel) => .outOfFuel

/-- The method `Decoder.assignSlice`: the destination is set once, after the loop. -/
def assignSlice (assign : Src → GoType → GoVal → Assigned) (src : Src) (elem : GoType)
    (dst : GoVal) : Assigned :=
  match src with
  | .invalid => (dst, .panic)
  | .concrete (.arr items) =>
    match assignSliceLoop assign elem items with
    | .ok vs => (.slice (some vs), .ok ())
    | .error e => (dst, .error e)
    | .panic => (dst, .panic)
    | .outOfFuel => (dst, .outOfFuel)
  | _ => (dst, .error (NewToonError ("cannot assign " ++ src.typeName ++ " to slice") 0 0))

/-- The loop of `Decoder.assignArray`: the elements of the destination are assigned
in place, one after the other. -/
def assignArrayLoop (assign : Src → GoType → GoVal → Assigned) (elem : GoType) :
    List Value → List GoVal → List GoVal × Res Unit
  | item :: rest, d :: ds =>
    match assign (.boxed item) elem d with
    | (v, .ok _) =>
      let r := assignArrayLoop assign elem rest ds
      (v :: r.1, r.2)
    | (v, o) => (v :: ds, o)
  | _, ds => (ds, .ok ())

/-- The method `Decoder.assignArray`, for a destination of length `len`. -/
def assignArray (assign : Src → GoType → GoVal → Assigned) (src : Src) (len : Nat)
    (elem : GoType) (dst : GoVal) : Assigned :=
  match src with
  | .invalid => (dst, .panic)
  | .concrete (.arr items) =>
    if items.length ≠ len then
      (dst, .error (NewToonError ("array length mismatch: source " ++ toString items.length ++
        ", destination " ++ toString len) 0 0))
    else
      let cur := match dst with
        | .array ds => ds
        | _ => List.replicate len (Zero elem)
      let r := assignArrayLoop assign elem items cur
      (.array r.1, r.2)
  | _ => (dst, .error (NewToonError ("cannot assign " ++ src.typeName ++ " to array") 0 0))

/-- The method `dst.SetMapIndex(key, value)` on the entries of a map. -/
def SetMapIndex : List (GoVal × GoVal) → GoVal → GoVal → List (GoVal × GoVal)
  | [], key, v => [(key, v)]
  | (k, w) :: rest, key, v =>
    if GoVal.beq k key then (k, v) :: rest else (k, w) :: SetMapIndex rest key v

/-- The loop of `Decoder.assignMap` over the entries of the source, on the entries of
the destination map. -/
def assignMapLoop (assign : Src → GoType → GoVal → Assigned) (key elem : GoType) :
    List (Str × Value) → List (GoVal × GoVal) → List (GoVal × GoVal) × Res Unit
  | [], entries => (entries, .ok ())
  | (k, v) :: rest, entries =>
    match assign (.concrete (.str k)) key (Zero key) with
    | (dstKey, .ok _) =>
      match assign (.boxed v) elem (Zero elem) with
      | (dstValue, .ok _) =>
        assignMapLoop assign key elem rest (SetMapIndex entries dstKey dstValue)
      | (_, o) => (entries, o)
    | (_, o) => (entries, o)

/-- The method `Decoder.assignMap`: a nil destination receives a new map before the
loop starts. -/
def assignMap (assign : Src → GoType → GoVal → Assigned) (src : Src) (key elem : GoType)
    (dst : GoVal) : Assigned :=
  match src with
  | .invalid => (dst, .panic)
  | .concrete (.obj fields) =>
    let entries := match dst with
      | .map (some es) => es
      | _ => []
    let r := assignMapLoop assign key elem fields entries
    (.map (some r.1), r.2)
  | _ => (dst, .error (NewToonError ("cannot assign " ++ src.typeName ++ " to map") 0 0))

/-- The function `strings.ToLower`. -/
def ToLower (conv : GoConv) (s : Str) : Str :=
  s.map fun c =>
    if c.toNat < 128 then
      if 65 ≤ c.toNat ∧ c.toNat ≤ 90 then Char.ofNat (c.toNat + 32) else c
    else conv.lowerTable c

/-- The loop of `utils.FindStructField` from field `i` on, `fieldName` already in lower
case: the index and the type of the field found. -/
def findFieldLoop (conv : GoConv) (fieldName : Str) :
    List (FieldInfo × GoType) → Nat → Option (Nat × FieldInfo × GoType)
  | [], _ => none
  | (field, t) :: rest, i =>
    if ToLower conv field.Name = fieldName then some (i, field, t)
    else if field.jsonTag ≠ [] ∧
        ToLower conv ((Split field.jsonTag ',').headD []) = fieldName then some (i, field, t)
    else if field.toonTag ≠ [] ∧
        ToLower conv ((Split field.toonTag ',').headD []) = fieldName then some (i, field, t)
    else findFieldLoop conv fieldName rest (i + 1)

/-- The function `utils.FindStructField`. -/
def FindStructField (conv : GoConv) (fields : List (FieldInfo × GoType)) (fieldName : Str) :
    Option (Nat × FieldInfo × GoType) :=
  findFieldLoop conv (ToLower conv fieldName) fields 0

/-- The loop of `Decoder.assignStruct` over the entries of the source, on the contents
of the fields of the destination. -/
def assignStructLoop (conv : GoConv) (opts : DecodeOptions)
    (assign : Src → GoType → GoVal → Assigned) (fields : List (FieldInfo × GoType)) :
    List (Str × Value) → List GoVal → List GoVal × Res Unit
  | [], cur => (cur, .ok ())
  | (keyStr, v) :: rest, cur =>
    match FindStructField conv fields keyStr with
    | none =>
      if opts.Strict then
        (cur, .error (NewToonError ("unknown field: " ++ String.mk keyStr) 0 0))
      else assignStructLoop conv opts assign fields rest cur
    | some (i, field, t) =>
      if ! field.exported then assignStructLoop conv opts assign fields rest cur
      else
        match assign (.boxed v) t (cur.getD i (Zero t)) with
        | (w, .ok _) => assignStructLoop conv opts assign fields rest (cur.set i w)
        | (w, o) => (cur.set i w, o)

/-- The method `Decoder.assignStruct`. -/
def assignStruct (conv : GoConv) (opts : DecodeOptions)
    (assign : Src → GoType → GoVal → Assigned) (src : Src) (fields : List (FieldInfo × GoType))
    (dst : GoVal) : Assigned :=
  match src with
  | .invalid => (dst, .panic)
  | .concrete (.obj entries) =>
    let cur := match dst with
      | .struct fs => fs
      | _ => ZeroFields fields
    let r := assignStructLoop conv opts assign fields entries cur
    (.struct r.1, r.2)
  | _ => (dst, .error (NewToonError ("cannot assign " ++ src.typeName ++ " to struct") 0 0))

/-- The method `Decoder.assignReflectValue`, by recursion on a fuel counter that the
nesting depth of the destination type bounds. -/
def assignReflectValue (lib : GoLib) (conv : GoConv) (opts : DecodeOptions) :
    Nat → Src → GoType → GoVal → Assigned
  | 0, _, _, dst => (dst, .outOfFuel)
  | fuel + 1, src, dstType, dst =>
    match src with
    | .invalid => (Zero dstType, .ok ())
    | _ =>
      match dstType with
      | .Interface => (.dyn src.value, .ok ())
      | .Ptr elem =>
        match src.IsNil with
        | none => (dst, .panic)
        | some true => (.ptr none, .ok ())
        | some false =>
          let target := match dst with
            | .ptr (some t) => t
            | _ => Zero elem
          let r := assignReflectValue lib conv opts fuel src elem target
          (.ptr (some r.1), r.2)
      | _ =>
        if AssignableTo src dstType then (ofValue src.value, .ok ())
        else
          match dstType with
          | .String => assignString lib src dst
          | .Bool => assignBool src dst
          | .Int k => assignInt conv k src dst
          | .Uint k => assignUint conv k src dst
          | .Float k => assignFloat lib conv k src dst
          | .Slice elem => assignSlice (assignReflectValue lib conv opts fuel) src elem dst
          | .Array len elem =>
            assignArray (assignReflectValue lib conv opts fuel) src len elem dst
          | .Map key elem => assignMap (assignReflectValue lib conv opts fuel) src key elem dst
          | .Struct fields =>
            assignStruct conv opts (assignReflectValue lib conv opts fuel) src fields dst
          | .Other name =>
            (dst, .error (NewToonError ("unsupported destination type: " ++ name) 0 0))
          -- `Interface` and `Ptr` have returned above
          | _ => (dst, .panic)

/-- The argument `v` of `Decode`: something that is not a pointer, a nil pointer, or a
pointer to a variable of a type with its current content. -/
inductive Dest where
  | notPointer
  | nilPointer
  | pointer (dstType : GoType) (content : GoVal)

/-- The method `Decoder.assignValue`: the destination after the call and the outcome.
The element of a nil pointer is the invalid `Value`, which a `nil` source leaves alone
and on which `dst.Type()` panics. -/
def assignValue (lib : GoLib) (conv : GoConv) (opts : DecodeOptions) (src : Value)
    (dst : Dest) : Dest × Res Unit :=
  match dst with
  | .notPointer => (dst, .error (NewToonError "destination must be a pointer" 0 0))
  | .nilPointer =>
    match ValueOf src with
    | .invalid => (dst, .ok ())
    | _ => (dst, .panic)
  | .pointer dstType content =>
    let r := assignReflectValue lib conv opts (dstType.depth + 1) (ValueOf src) dstType content
    (.pointer dstType r.1, r.2)

/-- The method `Decoder.Decode` on a typed destination. -/
def Decode (lib : GoLib) (conv : GoConv) (opts : DecodeOptions) (data : Str) (dst : Dest) :
    Dest × Res Unit :=
  match Parse lib data opts with
  | .ok parsed => assignValue lib conv opts parsed dst
  | .error e => (dst, .error e)
  | .panic => (dst, .panic)
  | .outOfFuel => (dst, .outOfFuel)

/-- An instance of the conversions for evaluating the embedding where no float and no
letter outside ASCII occurs. -/
def asciiConv : GoConv :=
  { floatToInt64 := fun _ => 0, floatToUint64 := fun _ => 0,
    intToFloat64 := fun _ => { bits := 0 }, toFloat32 := fun f => f, lowerTable := fun c => c }

end Decoder

/-! ## Vocabulary of the later statements -/

/-- Encoding with the encoder's options followed by decoding with the decoder's
options: `NewDecoder(decOpts).Decode(NewEncoder(encOpts).Encode(v))`. -/
def encodeThenDecode (lib : GoLib) (encOpts : EncodeOptions) (decOpts : DecodeOptions)
    (v : Value) (dstType : DstType) : Res Value :=
  match Encoder_Encode lib encOpts v with
  | .ok text => Decoder_Decode lib decOpts text dstType
  | .error e => .error e
  | .panic => .panic
  | .outOfFuel => .outOfFuel

/-- The eligibility rule of the specification (4.2b), condition by condition: the
array is non-empty, every element is an object, every element has the key set of the
first element, every value inside every element is scalar, and the first element has
at least one key. -/
def SpecTabular (arr : List Value) : Prop :=
  arr ≠ [] ∧
  (∀ item ∈ arr, ∃ r, item = .obj r) ∧
  (∀ first r, arr.head? = some (.obj first) → .obj r ∈ arr →
    ∀ k, k ∈ mapKeys r ↔ k ∈ mapKeys first) ∧
  (∀ r, .obj r ∈ arr → ∀ kv ∈ r, isComplexValue kv.2 = false) ∧
  (∀ first, arr.head? = some (.obj first) → first ≠ [])

/-- The shape `isNumeric` tests, in words: only digits, dots, signs and the letters
`e` and `E`; at most one dot; a sign only as the first character; at least one digit. -/
def NumericPattern (lib : GoLib) (s : Str) : Prop :=
  (∀ c ∈ s, IsDigit lib c = true ∨ c = '.' ∨ c = '-' ∨ c = '+' ∨ c = 'e' ∨ c = 'E') ∧
  s.count '.' ≤ 1 ∧
  (∀ c ∈ s.tail, c ≠ '-' ∧ c ≠ '+') ∧
  ∃ c ∈ s, IsDigit lib c = true

/-- The quoting rule of the specification (4.2a), condition by condition; "parses
fully as a number" is the integer or floating-point parse of the scalar parser. -/
def SpecNeedsQuoting (lib : GoLib) (s : Str) : Prop :=
  s = [] ∨
  (s = "null".toList ∨ s = "true".toList ∨ s = "false".toList) ∨
  ((ParseInt s).isSome = true ∨ (lib.ParseFloat s).isSome = true) ∨
  (∃ c ∈ s, c = ':' ∨ c = ',' ∨ c = '"' ∨ c = '\n' ∨ c = '\r' ∨ c = '\t') ∨
  (s.head? = some ' ' ∨ s.getLast? = some ' ')

/-- The state of the loop of `isNumeric` in words: what the rest of the text must look
like for the loop to finish with `hasDigit` set. -/
def LoopPattern (lib : GoLib) (s : Str) (first hasDigit hasDot : Bool) : Prop :=
  (∀ c ∈ s, IsDigit lib c = true ∨ c = '.' ∨ c = '-' ∨ c = '+' ∨ c = 'e' ∨ c = 'E') ∧
  s.count '.' + (if hasDot then 1 else 0) ≤ 1 ∧
  (∀ c ∈ (if first then s.tail else s), c ≠ '-' ∧ c ≠ '+') ∧
  (hasDigit = true ∨ ∃ c ∈ s, IsDigit lib c = true)

/-! ## Vocabulary of the statements about lists, termination and encoder outcomes -/

/-- A line that `parseArrayItems` takes as an item at the given indentation. -/
def DashLine (indent : Int) (l : Str) : Prop :=
  (CountIndent l : Int) = indent ∧ HasPrefix (TrimSpace l) ['-', ' '] = true

mutual
/-- The nesting height of a value: 0 for a scalar, and one more than the height of
the tallest member for an object or an array. -/
def Value.height : Value → Nat
  | .obj fields => Value.heightFields fields + 1
  | .arr items => Value.heightItems items + 1
  | _ => 0
/-- The height of the tallest value of a field list. -/
def Value.heightFields : List (Str × Value) → Nat
  | [] => 0
  | (_, v) :: rest => max (Value.height v) (Value.heightFields rest)
/-- The height of the tallest item of a list. -/
def Value.heightItems : List Value → Nat
  | [] => 0
  | v :: rest => max (Value.height v) (Value.heightItems rest)
end

/-- An outcome that is a result or a panic: no error value and no exhausted fuel. -/
def Res.noError {α : Type} : Res α → Prop
  | .ok _ => True
  | .panic => True
  | .error _ => False
  | .outOfFuel => False

/-- An outcome that is a result. -/
def Res.succeeds {α : Type} : Res α → Prop
  | .ok _ => True
  | _ => False

/-- The destinations that the decoder fills in place: a pointer to a variable of kind
array, map, struct or pointer.  For every other destination a failed coercion has
written nothing. -/
def Decoder.Dest.filledInPlace : Decoder.Dest → Bool
  | .pointer (.Array _ _) _ => true
  | .pointer (.Map _ _) _ => true
  | .pointer (.Struct _) _ => true
  | .pointer (.Ptr _) _ => true
  | _ => false

/-! ## Characters and trimming -/

theorem IsSpace_false_of_range {c : Char} (h1 : 33 ≤ c.toNat) (h2 : c.toNat ≤ 126) :
    IsSpace c = false := by
  simp only [IsSpace, Bool.or_eq_false_iff, beq_eq_false_iff_ne, Bool.and_eq_false_iff,
    decide_eq_false_iff_not, ne_eq]
  omega

theorem identChar_range {c : Char} (h : isIdentChar c = true) :
    (48 ≤ c.toNat ∧ c.toNat ≤ 57) ∨ (65 ≤ c.toNat ∧ c.toNat ≤ 90) ∨ c.toNat = 95 ∨
      (97 ≤ c.toNat ∧ c.toNat ≤ 122) := by
  simp only [isIdentChar, isLetter, isAsciiDigit, Bool.or_eq_true, Bool.and_eq_true,
    decide_eq_true_eq, beq_iff_eq] at h
  omega

theorem identChar_not_space {c : Char} (h : isIdentChar c = true) : IsSpace c = false := by
  have := identChar_range h
  exact IsSpace_false_of_range (by omega) (by omega)

theorem identChar_ne {c d : Char} (h : isIdentChar c = true) (hd : isIdentChar d = false) :
    c ≠ d := by
  intro hcd
  rw [hcd, hd] at h
  exact absurd h (by decide)

theorem dropWhile_allSpace_append {a m : Str} (ha : allSpace a)
    (hm : ∃ c r, m = c :: r ∧ IsSpace c = false) : (a ++ m).dropWhile IsSpace = m := by
  induction a with
  | nil =>
    obtain ⟨c, r, rfl, hc⟩ := hm
    simp [List.dropWhile, hc]
  | cons x a ih =>
    have hx : IsSpace x = true := ha x (List.mem_cons_self _ _)
    simp only [List.cons_append, List.dropWhile, hx]
    exact ih (fun c hc => ha c (List.mem_cons_of_mem _ hc))

theorem rdropWhile_append_allSpace {m b : Str} (hb : allSpace b)
    (hm : ∃ r c, m = r ++ [c] ∧ IsSpace c = false) : (m ++ b).rdropWhile IsSpace = m := by
  induction b using List.reverseRecOn with
  | nil =>
    obtain ⟨r, c, rfl, hc⟩ := hm
    rw [List.append_nil, List.rdropWhile_concat_neg _ _ _ (by simp [hc])]
  | append_singleton b x ih =>
    have hx : IsSpace x = true := hb x (by simp)
    rw [← List.append_assoc, List.rdropWhile_concat_pos _ _ _ hx]
    exact ih (fun c hc => hb c (by simp [hc]))

theorem TrimSpace_core {a m b : Str} (ha : allSpace a) (hb : allSpace b) (hm : Core m) :
    TrimSpace (a ++ m ++ b) = m := by
  unfold TrimSpace
  rw [List.append_assoc, dropWhile_allSpace_append ha]
  · exact rdropWhile_append_allSpace hb hm.2
  · obtain ⟨c, r, hcr, hc⟩ := hm.1
    exact ⟨c, r ++ b, by rw [hcr]; rfl, hc⟩

theorem TrimSpace_of_core {m : Str} (hm : Core m) : TrimSpace m = m := by
  have := TrimSpace_core (a := []) (b := []) (fun _ h => by cases h) (fun _ h => by cases h) hm
  simpa using this

theorem core_ne_nil {m : Str} (hm : Core m) : m ≠ [] := by
  obtain ⟨c, r, rfl, _⟩ := hm.1
  simp

theorem trim_decomp (t : Str) (h : TrimSpace t ≠ []) :
    Core (TrimSpace t) ∧ ∃ a b, allSpace a ∧ allSpace b ∧ t = a ++ TrimSpace t ++ b := by
  have hd : t = t.takeWhile IsSpace ++ t.dropWhile IsSpace :=
    (List.takeWhile_append_dropWhile IsSpace t).symm
  set d := t.dropWhile IsSpace with hd_def
  have hm : d = d.rdropWhile IsSpace ++ d.rtakeWhile IsSpace := by
    have := List.takeWhile_append_dropWhile IsSpace d.reverse
    have h2 := congrArg List.reverse this
    rw [List.reverse_append, List.reverse_reverse] at h2
    simpa [List.rdropWhile, List.rtakeWhile] using h2.symm
  have hT : TrimSpace t = d.rdropWhile IsSpace := rfl
  have hlast : ∃ r c, TrimSpace t = r ++ [c] ∧ IsSpace c = false := by
    have h1 := List.rdropWhile_last_not IsSpace d (by rw [← hT]; exact h)
    refine ⟨(TrimSpace t).dropLast, (TrimSpace t).getLast h, ?_, ?_⟩
    · exact (List.dropLast_append_getLast h).symm
    · simpa [hT] using h1
  have hdne : d ≠ [] := by
    intro h0
    apply h
    rw [hT, h0]
    rfl
  have hhead : ∃ c r, TrimSpace t = c :: r ∧ IsSpace c = false := by
    have hpre : d.rdropWhile IsSpace <+: d := List.rdropWhile_prefix IsSpace d
    obtain ⟨c, r, hcr⟩ := List.exists_cons_of_ne_nil h
    refine ⟨c, r, hcr, ?_⟩
    have h1 := List.head_dropWhile_not IsSpace t hdne
    obtain ⟨s, hs⟩ := hpre
    rw [← hT, hcr] at hs
    have : d.head hdne = c := by
      simp [← hs]
    rw [← this]
    simpa using h1
  refine ⟨⟨hhead, hlast⟩, t.takeWhile IsSpace, d.rtakeWhile IsSpace, ?_, ?_, ?_⟩
  · intro c hc
    exact List.mem_takeWhile_imp hc
  · intro c hc
    exact List.mem_rtakeWhile_imp hc
  · rw [hT, List.append_assoc, ← hm]
    exact hd

theorem TrimSpace_idem (t : Str) : TrimSpace (TrimSpace t) = TrimSpace t := by
  by_cases h : TrimSpace t = []
  · rw [h]; rfl
  · exact TrimSpace_of_core (trim_decomp t h).1

theorem TrimSpace_allSpace_append {a t : Str} (ha : allSpace a) :
    TrimSpace (a ++ t) = TrimSpace t := by
  induction a with
  | nil => rfl
  | cons x a ih =>
    have hx : IsSpace x = true := ha x (List.mem_cons_self _ _)
    have : TrimSpace (x :: (a ++ t)) = TrimSpace (a ++ t) := by
      simp [TrimSpace, List.dropWhile, hx]
    rw [List.cons_append, this]
    exact ih (fun c hc => ha c (List.mem_cons_of_mem _ hc))

theorem CountIndent_replicate (n : Nat) {c : Char} (r : Str) (hc : c ≠ ' ') :
    CountIndent (List.replicate n ' ' ++ c :: r) = n := by
  induction n with
  | zero =>
    simp only [List.replicate_zero, List.nil_append]
    unfold CountIndent
    split
    · rename_i heq
      simp only [List.cons.injEq] at heq
      exact absurd heq.1 hc
    · rfl
  | succ n ih =>
    simp only [List.replicate_succ, List.cons_append]
    rw [CountIndent, ih]

theorem allSpace_replicate (n : Nat) : allSpace (List.replicate n ' ') := by
  intro c hc
  rw [List.eq_of_mem_replicate hc]
  decide
/-! ## Searching for the colon, and decimal integers -/

theorem Index_colon_none {s : Str} (h : ':' ∉ s) : Index s [':'] = none := by
  induction s with
  | nil => simp [Index]
  | cons c cs ih =>
    have hc : c ≠ ':' := fun e => h (by simp [e])
    have hcs : ':' ∉ cs := fun e => h (List.mem_cons_of_mem _ e)
    simp [Index, ih hcs, List.isPrefixOf, hc.symm]

theorem Index_colon_append {key : Str} (r : Str) (h : ':' ∉ key) :
    Index (key ++ ':' :: r) [':'] = some key.length := by
  induction key with
  | nil => simp [Index, List.isPrefixOf]
  | cons c cs ih =>
    have hc : c ≠ ':' := fun e => h (by simp [e])
    have hcs : ':' ∉ cs := fun e => h (List.mem_cons_of_mem _ e)
    simp [Index, ih hcs, List.isPrefixOf, hc.symm]

theorem digitChar_table :
    ∀ m < 10, isAsciiDigit (Nat.digitChar m) = true ∧ (Nat.digitChar m).toNat - 48 = m := by
  decide

theorem digitChar_spec {m : Nat} (hm : m < 10) :
    isAsciiDigit (Nat.digitChar m) = true ∧ (Nat.digitChar m).toNat - 48 = m :=
  digitChar_table m hm

theorem parseDigits_append (l1 l2 : Str) (acc : Nat) :
    parseDigits (l1 ++ l2) acc = (parseDigits l1 acc).bind (parseDigits l2) := by
  induction l1 generalizing acc with
  | nil => rfl
  | cons c cs ih =>
    simp only [List.cons_append, parseDigits]
    split
    · exact ih _
    · rfl

theorem toDigitsCore_spec : ∀ (fuel n : Nat) (ds : List Char), n < fuel →
    ∃ l, Nat.toDigitsCore 10 fuel n ds = l ++ ds ∧ l ≠ [] ∧
      (∀ c ∈ l, isAsciiDigit c = true) ∧
      ∀ acc, parseDigits l acc = some (acc * 10 ^ l.length + n) := by
  intro fuel
  induction fuel with
  | zero => intro n ds h; exact absurd h (Nat.not_lt_zero _)
  | succ fuel ih =>
    intro n ds hn
    have hd := digitChar_spec (Nat.mod_lt n (by decide : 10 > 0))
    rw [Nat.toDigitsCore]
    by_cases h10 : n / 10 = 0
    · simp only [h10, if_true]
      have hlt : n < 10 := by omega
      refine ⟨[Nat.digitChar (n % 10)], rfl, by simp, ?_, ?_⟩
      · intro c hc
        rw [List.mem_singleton] at hc
        rw [hc]; exact hd.1
      · intro acc
        simp only [parseDigits, hd.1, if_true, hd.2, List.length_singleton, pow_one]
        rw [Nat.mod_eq_of_lt hlt]
    · simp only [h10, if_false]
      obtain ⟨l, hl, hne, hdig, hval⟩ := ih (n / 10) (Nat.digitChar (n % 10) :: ds) (by omega)
      refine ⟨l ++ [Nat.digitChar (n % 10)], by rw [hl]; simp, by simp, ?_, ?_⟩
      · intro c hc
        rcases List.mem_append.mp hc with h | h
        · exact hdig c h
        · rw [List.mem_singleton] at h
          rw [h]; exact hd.1
      · intro acc
        rw [parseDigits_append, hval]
        simp only [Option.some_bind, parseDigits, hd.1, if_true, hd.2, List.length_append,
          List.length_singleton, pow_succ]
        congr 1
        have := Nat.div_add_mod n 10
        nlinarith [this]

theorem toDigits_spec (n : Nat) :
    Nat.toDigits 10 n ≠ [] ∧ (∀ c ∈ Nat.toDigits 10 n, isAsciiDigit c = true) ∧
      parseMagnitude (Nat.toDigits 10 n) = some n := by
  obtain ⟨l, hl, hne, hdig, hval⟩ := toDigitsCore_spec (n + 1) n [] (Nat.lt_succ_self n)
  rw [List.append_nil] at hl
  have h : Nat.toDigits 10 n = l := hl
  rw [h]
  refine ⟨hne, hdig, ?_⟩
  rw [parseMagnitude, if_neg hne, hval]
  simp

theorem asciiDigit_range {c : Char} (h : isAsciiDigit c = true) : 48 ≤ c.toNat ∧ c.toNat ≤ 57 := by
  simpa [isAsciiDigit] using h

theorem asciiDigit_ne {c d : Char} (h : isAsciiDigit c = true) (hd : isAsciiDigit d = false) :
    c ≠ d := by
  intro hcd
  rw [hcd, hd] at h
  exact absurd h (by decide)

theorem ParseInt_digit_head {c : Char} (t : Str) (hc : isAsciiDigit c = true) :
    ParseInt (c :: t) =
      match parseMagnitude (c :: t) with
      | some un => if un ≥ 2 ^ 63 then none else some (Int.ofNat un)
      | none => none := by
  have h1 : c ≠ '+' := asciiDigit_ne hc (by decide)
  have h2 : c ≠ '-' := asciiDigit_ne hc (by decide)
  unfold ParseInt
  split
  · rename_i heq; cases heq
  · rename_i heq; simp only [List.cons.injEq] at heq; exact absurd heq.1 h1
  · rename_i heq; simp only [List.cons.injEq] at heq; exact absurd heq.1 h2
  · rename_i heq
    simp only [List.cons.injEq] at heq
    obtain ⟨rfl, rfl⟩ := heq
    rfl

theorem ParseInt_FormatInt {n : Int} (h : isInt64 n) : ParseInt (FormatInt n) = some n := by
  obtain ⟨hlo, hhi⟩ := h
  cases n with
  | ofNat m =>
    obtain ⟨hne, hdig, hval⟩ := toDigits_spec m
    simp only [FormatInt]
    obtain ⟨c, t, hct⟩ := List.exists_cons_of_ne_nil hne
    have hc : isAsciiDigit c = true := hdig c (by rw [hct]; exact List.mem_cons_self _ _)
    rw [hct, ParseInt_digit_head t hc, ← hct, hval]
    have : ¬ m ≥ 2 ^ 63 := by
      have : (m : Int) < 2 ^ 63 := hhi
      omega
    simp only [this, if_false]
  | negSucc m =>
    obtain ⟨hne, hdig, hval⟩ := toDigits_spec (m + 1)
    simp only [FormatInt, ParseInt, hval]
    have : ¬ m + 1 > 2 ^ 63 := by
      have h1 : -(2 : Int) ^ 63 ≤ Int.negSucc m := hlo
      rw [Int.negSucc_eq] at h1
      omega
    simp only [this, if_false]
    rfl

/-- The shape of a decimal rendering: an optional minus sign and a non-empty run of digits. -/
theorem FormatInt_shape (n : Int) :
    ∃ sign l, FormatInt n = sign ++ l ∧ (sign = [] ∨ sign = ['-']) ∧ l ≠ [] ∧
      ∀ c ∈ l, isAsciiDigit c = true := by
  cases n with
  | ofNat m =>
    obtain ⟨hne, hdig, _⟩ := toDigits_spec m
    exact ⟨[], _, rfl, Or.inl rfl, hne, hdig⟩
  | negSucc m =>
    obtain ⟨hne, hdig, _⟩ := toDigits_spec (m + 1)
    exact ⟨['-'], _, rfl, Or.inr rfl, hne, hdig⟩

theorem FormatInt_mem {n : Int} {c : Char} (h : c ∈ FormatInt n) :
    isAsciiDigit c = true ∨ c = '-' := by
  obtain ⟨sign, l, hf, hs, _, hdig⟩ := FormatInt_shape n
  rw [hf] at h
  rcases List.mem_append.mp h with h | h
  · rcases hs with rfl | rfl
    · cases h
    · right; simpa using h
  · exact Or.inl (hdig c h)

theorem FormatInt_mem_range {n : Int} {c : Char} (h : c ∈ FormatInt n) :
    45 ≤ c.toNat ∧ c.toNat ≤ 57 := by
  rcases FormatInt_mem h with h | h
  · have := asciiDigit_range h
    omega
  · rw [h]; decide

theorem FormatInt_last (n : Int) : ∃ r c, FormatInt n = r ++ [c] ∧ isAsciiDigit c = true := by
  obtain ⟨sign, l, hf, _, hne, hdig⟩ := FormatInt_shape n
  refine ⟨sign ++ l.dropLast, l.getLast hne, ?_, hdig _ (List.getLast_mem hne)⟩
  rw [hf, List.append_assoc, List.dropLast_append_getLast]

theorem FormatInt_core (n : Int) : Core (FormatInt n) := by
  constructor
  · obtain ⟨sign, l, hf, hs, hne, hdig⟩ := FormatInt_shape n
    have hne' : FormatInt n ≠ [] := by
      rw [hf]; simp [hne]
    obtain ⟨c, r, hcr⟩ := List.exists_cons_of_ne_nil hne'
    refine ⟨c, r, hcr, ?_⟩
    have := FormatInt_mem_range (n := n) (c := c) (by rw [hcr]; exact List.mem_cons_self _ _)
    exact IsSpace_false_of_range (by omega) (by omega)
  · obtain ⟨r, c, hrc, hc⟩ := FormatInt_last n
    have := asciiDigit_range hc
    exact ⟨r, c, hrc, IsSpace_false_of_range (by omega) (by omega)⟩
/-! ## One step of the parser loop -/

theorem loop_nil (lib : GoLib) (opts : DecodeOptions) (fuel pos : Nat) (indent : Int)
    (result : List (Str × Value)) :
    parseValueLoop lib opts (fuel + 1) { rest := [], pos := pos } indent result =
      if result.length = 0 then .ok (.null, { rest := [], pos := pos })
      else .ok (.obj result, { rest := [], pos := pos }) := by
  rw [parseValueLoop]

theorem loop_line (lib : GoLib) (opts : DecodeOptions) (fuel pos : Nat) (indent : Int)
    (result : List (Str × Value)) (line : Str) (rest : List Str)
    (hblank : TrimSpace line ≠ []) (hind : (CountIndent line : Int) = indent) :
    parseValueLoop lib opts (fuel + 1) { rest := line :: rest, pos := pos } indent result =
      match Index (TrimSpace line) [':'] with
      | some colonIndex =>
        if TrimSpace ((TrimSpace line).drop (colonIndex + 1)) = [] then
          match parseMultiLineValue lib opts fuel { rest := rest, pos := pos + 1 }
              (TrimSpace ((TrimSpace line).take colonIndex)) indent with
          | .ok (parsedValue, p') =>
            parseValueLoop lib opts fuel p' indent
              (mapSet result (TrimSpace ((TrimSpace line).take colonIndex)) parsedValue)
          | .error e => .error e
          | .panic => .panic
          | .outOfFuel => .outOfFuel
        else
          parseValueLoop lib opts fuel { rest := rest, pos := pos + 1 } indent
            (mapSet result (TrimSpace ((TrimSpace line).take colonIndex))
              (parsePrimitive lib (TrimSpace ((TrimSpace line).drop (colonIndex + 1)))))
      | none =>
        if HasPrefix (TrimSpace line) ['-', ' '] then
          parseArrayItems lib opts fuel { rest := line :: rest, pos := pos } indent []
        else .ok (parsePrimitive lib (TrimSpace line), { rest := line :: rest, pos := pos }) := by
  rw [parseValueLoop]
  simp only [hblank, hind, lt_irrefl, gt_iff_lt, if_false, parser.advance, List.tail_cons]
  try rfl
theorem core_head_ne_space {t : Str} (h : Core t) : ∃ c r, t = c :: r ∧ c ≠ ' ' := by
  obtain ⟨c, r, hcr, hc⟩ := h.1
  refine ⟨c, r, hcr, ?_⟩
  rintro rfl
  exact absurd hc (by decide)

theorem CountIndent_core {t : Str} (h : Core t) : CountIndent t = 0 := by
  obtain ⟨c, r, hcr, hc⟩ := core_head_ne_space h
  rw [hcr]
  exact CountIndent_replicate 0 r hc

theorem Parse_single_line (lib : GoLib) (opts : DecodeOptions) {t : Str} (hcore : Core t)
    (hnl : '\n' ∉ t) (hcolon : ':' ∉ t) (hdash : HasPrefix t ['-', ' '] = false) :
    Parse lib t opts = .ok (parsePrimitive lib t) := by
  have hsplit : Split t '\n' = [t] := by
    have := @List.splitOn_intercalate _ [t] _ '\n' (by simpa using hnl) (by simp)
    simpa [Split, List.intercalate] using this
  have htrim := TrimSpace_of_core hcore
  have hne : TrimSpace t ≠ [] := by rw [htrim]; exact core_ne_nil hcore
  have hind : ((CountIndent t : Nat) : Int) = 0 := by rw [CountIndent_core hcore]; rfl
  unfold Parse
  simp only [htrim, hsplit, List.length_singleton]
  rw [if_neg (by decide)]
  show (match parseValue lib opts (6 + 1) _ 0 with
    | .ok (v, _) => Res.ok v
    | .error e => .error e
    | .panic => .panic
    | .outOfFuel => .outOfFuel) = _
  rw [parseValue]
  simp only []
  rw [show (6 : Nat) = 5 + 1 from rfl, loop_line lib opts 5 0 0 [] t [] hne hind]
  simp only [htrim, Index_colon_none hcolon, hdash]
  rfl

theorem HasPrefix_dash_false {t : Str} (h : ' ' ∉ t) : HasPrefix t ['-', ' '] = false := by
  match t with
  | [] => rfl
  | [_] => simp [HasPrefix, List.isPrefixOf]
  | a :: b :: r =>
    have hb : b ≠ ' ' := fun e => h (by simp [e])
    simp [HasPrefix, List.isPrefixOf, hb.symm]

theorem parsePrimitive_int (lib : GoLib) {t : Str} {n : Int} (hcore : Core t)
    (hrange : ∀ c ∈ t, 45 ≤ c.toNat ∧ c.toNat ≤ 57) (hp : ParseInt t = some n) :
    parsePrimitive lib t = .int n := by
  have hq : t.head? ≠ some '"' := by
    intro h
    have hm : '"' ∈ t := List.mem_of_mem_head? h
    have := hrange _ hm
    revert this; decide
  have h1 : t ≠ "null".toList := by
    intro h
    have := hrange 'n' (by rw [h]; decide)
    revert this; decide
  have h2 : t ≠ "true".toList := by
    intro h
    have := hrange 't' (by rw [h]; decide)
    revert this; decide
  have h3 : t ≠ "false".toList := by
    intro h
    have := hrange 'f' (by rw [h]; decide)
    revert this; decide
  unfold parsePrimitive
  simp only [TrimSpace_of_core hcore, hq, h1, h2, h3, hp, false_and, and_false, if_false]

theorem parsePrimitive_FormatInt (lib : GoLib) {n : Int} (h : isInt64 n) :
    parsePrimitive lib (FormatInt n) = .int n :=
  parsePrimitive_int lib (FormatInt_core n) (fun _ hc => FormatInt_mem_range hc)
    (ParseInt_FormatInt h)

theorem roundTrip_of_Parse (lib : GoLib) (v : Value) (text : Str) (w : Value)
    (henc : Encode lib v = .ok text) (hparse : Parse lib text DefaultDecodeOptions = .ok w)
    (dst : DstType) : roundTrip lib v dst = assignReflectValue w dst := by
  simp only [roundTrip, henc, Decode, Decoder_Decode, hparse]

theorem Join_singleton (t sep : Str) : Join [t] sep = t := by
  simp [Join, List.intercalate]

theorem identifier_spec {key : Str} (h : isIdentifier key = true) :
    (∃ c r, key = c :: r) ∧ ∀ c ∈ key, isIdentChar c = true := by
  simp only [isIdentifier, Bool.and_eq_true, Bool.not_eq_true', List.isEmpty_eq_false,
    List.all_eq_true] at h
  exact ⟨List.exists_cons_of_ne_nil (by simpa using h.1), h.2⟩

theorem identifier_not_mem {key : Str} (h : isIdentifier key = true) {d : Char}
    (hd : isIdentChar d = false) : d ∉ key := by
  intro hm
  exact identChar_ne ((identifier_spec h).2 d hm) hd rfl

theorem identifier_core {key : Str} (h : isIdentifier key = true) : Core key := by
  obtain ⟨⟨c, r, hcr⟩, hall⟩ := identifier_spec h
  refine ⟨⟨c, r, hcr, identChar_not_space (hall c (by rw [hcr]; simp))⟩, ?_⟩
  have hne : key ≠ [] := by rw [hcr]; simp
  exact ⟨key.dropLast, key.getLast hne, (List.dropLast_append_getLast hne).symm,
    identChar_not_space (hall _ (List.getLast_mem hne))⟩

theorem parsePrimitive_TrimSpace (lib : GoLib) (t : Str) :
    parsePrimitive lib (TrimSpace t) = parsePrimitive lib t := by
  unfold parsePrimitive
  simp only [TrimSpace_idem]

/-- What the parser sees of a key line: its indentation, its trimmed text, and the
two sides of the colon. -/
theorem kvLine_facts (n : Nat) {key text : Str} (hkey : isIdentifier key = true)
    (htext : TrimSpace text ≠ []) :
    CountIndent (kvLine n key text) = n ∧
    ∃ a, allSpace a ∧
      TrimSpace (kvLine n key text) = key ++ ':' :: ' ' :: (a ++ TrimSpace text) := by
  obtain ⟨hcoreT, a, b, ha, hb, hdecomp⟩ := trim_decomp text htext
  obtain ⟨⟨c, r, hcr⟩, hall⟩ := identifier_spec hkey
  have hc : isIdentChar c = true := hall c (by rw [hcr]; simp)
  constructor
  · have : c ≠ ' ' := identChar_ne hc (by decide)
    unfold kvLine
    rw [hcr, List.cons_append]
    exact CountIndent_replicate n _ this
  · refine ⟨a, ha, ?_⟩
    have hX : Core (key ++ ':' :: ' ' :: (a ++ TrimSpace text)) := by
      constructor
      · exact ⟨c, r ++ ':' :: ' ' :: (a ++ TrimSpace text), by rw [hcr]; rfl,
          identChar_not_space hc⟩
      · obtain ⟨r', c', hrc, hc'⟩ := hcoreT.2
        refine ⟨key ++ ':' :: ' ' :: (a ++ r'), c', ?_, hc'⟩
        rw [hrc]; simp
    have : kvLine n key text =
        List.replicate n ' ' ++ (key ++ ':' :: ' ' :: (a ++ TrimSpace text)) ++ b := by
      unfold kvLine
      conv_lhs => rw [hdecomp]
      simp
    rw [this]
    exact TrimSpace_core (allSpace_replicate n) hb hX

theorem loop_kvLine (lib : GoLib) (opts : DecodeOptions) (fuel pos n : Nat)
    (result : List (Str × Value)) (key text : Str) (rest : List Str)
    (hkey : isIdentifier key = true) (htext : TrimSpace text ≠ []) :
    parseValueLoop lib opts (fuel + 1) { rest := kvLine n key text :: rest, pos := pos } n result =
      parseValueLoop lib opts fuel { rest := rest, pos := pos + 1 } n
        (mapSet result key (parsePrimitive lib text)) := by
  obtain ⟨hind, a, ha, htrim⟩ := kvLine_facts n hkey htext
  have hcolon : ':' ∉ key := identifier_not_mem hkey (by decide)
  have hblank : TrimSpace (kvLine n key text) ≠ [] := by
    rw [htrim]
    obtain ⟨⟨c, r, hcr⟩, _⟩ := identifier_spec hkey
    rw [hcr]; simp
  rw [loop_line lib opts fuel pos n result _ rest hblank (by rw [hind])]
  rw [htrim, Index_colon_append _ hcolon]
  simp only [List.take_left', List.drop_succ_cons, List.drop_left',
    TrimSpace_of_core (identifier_core hkey)]
  have hval : TrimSpace (' ' :: (a ++ TrimSpace text)) = TrimSpace text := by
    have h1 : allSpace (' ' :: a) := by
      intro c hc
      rcases List.mem_cons.mp hc with rfl | h
      · decide
      · exact ha c h
    have := TrimSpace_allSpace_append (a := ' ' :: a) (t := TrimSpace text) h1
    rw [List.cons_append] at this
    rw [this, TrimSpace_idem]
  have hdrop : List.drop (key.length + 1) (key ++ ':' :: ' ' :: (a ++ TrimSpace text)) =
      ' ' :: (a ++ TrimSpace text) := by
    rw [show key.length + 1 = key.length + 1 from rfl, List.drop_append]
    rfl
  simp only [hdrop, hval, htext, if_false, parsePrimitive_TrimSpace]
  try rfl
/-! ## Texts of several lines -/

theorem Join_cons_cons (a b : Str) (r : List Str) (sep : Str) :
    Join (a :: b :: r) sep = a ++ sep ++ Join (b :: r) sep := by
  simp [Join, List.intercalate, List.intersperse]

theorem Join_append_singleton {init : List Str} (h : init ≠ []) (l sep : Str) :
    Join (init ++ [l]) sep = Join init sep ++ sep ++ l := by
  induction init with
  | nil => exact absurd rfl h
  | cons a r ih =>
    cases r with
    | nil => simp [Join_cons_cons, Join_singleton]
    | cons b r' =>
      rw [List.cons_append, List.cons_append, Join_cons_cons, ← List.cons_append,
        ih (by simp), Join_cons_cons]
      simp

theorem Split_Join {lines : List Str} (hne : lines ≠ []) (hnl : ∀ l ∈ lines, '\n' ∉ l) :
    Split (Join lines ['\n']) '\n' = lines :=
  @List.splitOn_intercalate _ lines _ '\n' hnl hne

/-- The text of a list of lines, trimmed: only the white space at the end of the last
line goes away when the first line starts with a character that is not white space. -/
theorem TrimSpace_Join {l0 : Str} {mid : List Str} {X b : Str}
    (hhead : ∃ c r, l0 = c :: r ∧ IsSpace c = false)
    (hX : ∃ r c, X = r ++ [c] ∧ IsSpace c = false) (hb : allSpace b) :
    TrimSpace (Join (l0 :: mid ++ [X ++ b]) ['\n']) = Join (l0 :: mid ++ [X]) ['\n'] := by
  have e1 : Join (l0 :: mid ++ [X ++ b]) ['\n'] = [] ++ Join (l0 :: mid ++ [X]) ['\n'] ++ b := by
    rw [Join_append_singleton (by simp), Join_append_singleton (by simp)]
    simp
  rw [e1]
  apply TrimSpace_core (fun _ h => by cases h) hb
  constructor
  · obtain ⟨c, r, hcr, hc⟩ := hhead
    cases mid with
    | nil =>
      refine ⟨c, r ++ ['\n'] ++ X, ?_, hc⟩
      rw [List.cons_append, List.nil_append, Join_cons_cons, Join_singleton, hcr]
      simp
    | cons m1 mid' =>
      refine ⟨c, r ++ ['\n'] ++ Join (m1 :: mid' ++ [X]) ['\n'], ?_, hc⟩
      rw [List.cons_append, List.cons_append, Join_cons_cons, hcr]
      simp
  · obtain ⟨r, c, hrc, hc⟩ := hX
    refine ⟨Join (l0 :: mid) ['\n'] ++ ['\n'] ++ r, c, ?_, hc⟩
    rw [Join_append_singleton (by simp), hrc]
    simp

theorem TrimSpace_Join_single {X b : Str} (hX : Core X) (hb : allSpace b) :
    TrimSpace (Join [X ++ b] ['\n']) = Join [X] ['\n'] := by
  rw [Join_singleton, Join_singleton]
  have := TrimSpace_core (a := []) (fun _ h => by cases h) hb hX
  simpa using this

/-! ## Assignments to the map under construction -/

theorem mapSet_fresh {acc : List (Str × Value)} {k : Str} (v : Value)
    (h : k ∉ acc.map Prod.fst) : mapSet acc k v = acc ++ [(k, v)] := by
  induction acc with
  | nil => rfl
  | cons e acc ih =>
    obtain ⟨k', w⟩ := e
    have h1 : k' ≠ k := fun e => h (by simp [e])
    have h2 : k ∉ acc.map Prod.fst := fun e => h (by simp [e])
    simp [mapSet, h1, ih h2]

theorem foldl_mapSet_fresh (entries : List (Str × Value)) :
    ∀ acc : List (Str × Value), (entries.map Prod.fst).Nodup →
      (∀ k ∈ entries.map Prod.fst, k ∉ acc.map Prod.fst) →
      entries.foldl (fun acc e => mapSet acc e.1 e.2) acc = acc ++ entries := by
  induction entries with
  | nil => intro acc _ _; simp
  | cons e entries ih =>
    intro acc hnd hdis
    obtain ⟨k, v⟩ := e
    simp only [List.map_cons, List.nodup_cons] at hnd
    rw [List.foldl_cons, mapSet_fresh v (hdis k (by simp)), ih _ hnd.2]
    · simp
    · intro k' hk'
      simp only [List.map_append, List.map_cons, List.map_nil, List.mem_append,
        List.mem_singleton, not_or]
      refine ⟨hdis k' (by simp [hk']), ?_⟩
      rintro rfl
      exact hnd.1 hk'

theorem loop_kvLines (lib : GoLib) (opts : DecodeOptions) (n : Nat) (rest : List Str) :
    ∀ (block : List (Str × Str)) (fuel pos : Nat) (result : List (Str × Value)),
      (∀ kv ∈ block, isIdentifier kv.1 = true ∧ TrimSpace kv.2 ≠ []) →
      parseValueLoop lib opts (fuel + block.length)
          { rest := block.map (fun kv => kvLine n kv.1 kv.2) ++ rest, pos := pos } n result =
        parseValueLoop lib opts fuel { rest := rest, pos := pos + block.length } n
          ((block.map fun kv => (kv.1, parsePrimitive lib kv.2)).foldl
            (fun acc e => mapSet acc e.1 e.2) result) := by
  intro block
  induction block with
  | nil => intro fuel pos result _; rfl
  | cons kv block ih =>
    intro fuel pos result h
    obtain ⟨hk, ht⟩ := h kv (List.mem_cons_self _ _)
    rw [List.length_cons, ← Nat.add_assoc, List.map_cons, List.cons_append,
      loop_kvLine lib opts _ pos n result kv.1 kv.2 _ hk ht,
      ih fuel (pos + 1) _ (fun kv' h' => h kv' (List.mem_cons_of_mem _ h'))]
    simp only [List.map_cons, List.foldl_cons]
    congr 2
    omega
theorem matchTabularHeader_none {s : Str} (h : s.head? ≠ some '[') :
    matchTabularHeader s = none := by
  unfold matchTabularHeader
  split
  · exact absurd rfl h
  · rfl

theorem wrapInt_of_range {x : Int} (h1 : -2 ^ 63 ≤ x) (h2 : x < 2 ^ 63) : wrapInt x = x := by
  unfold wrapInt
  omega

/-- The part of `Parse` after the text has been cut into lines. -/
theorem Parse_of_lines (lib : GoLib) (opts : DecodeOptions) {input : Str} {lines : List Str}
    (hne : lines ≠ []) (hnl : ∀ l ∈ lines, '\n' ∉ l)
    (htrim : TrimSpace input = Join lines ['\n']) :
    Parse lib input opts =
      match parseValue lib opts (3 * lines.length + 4) { rest := lines, pos := 0 } 0 with
      | .ok (v, _) => .ok v
      | .error e => .error e
      | .panic => .panic
      | .outOfFuel => .outOfFuel := by
  unfold Parse
  simp only [htrim, Split_Join hne hnl]
  rw [if_neg (by simpa using hne)]
  try rfl

theorem kvLine_no_newline {n : Nat} {key text : Str} (hkey : isIdentifier key = true)
    (ht : '\n' ∉ text) : '\n' ∉ kvLine n key text := by
  unfold kvLine
  simp only [List.mem_append, List.mem_cons, not_or]
  refine ⟨?_, identifier_not_mem hkey (by decide), by decide, by decide, ht⟩
  intro h
  have := List.eq_of_mem_replicate h
  revert this; decide

/-- A key line whose value part is empty hands over to `parseMultiLineValue`. -/
theorem loop_keyOnly (lib : GoLib) (opts : DecodeOptions) (fuel pos : Nat)
    (result : List (Str × Value)) (key : Str) (rest : List Str)
    (hkey : isIdentifier key = true) :
    parseValueLoop lib opts (fuel + 1) { rest := (key ++ [':']) :: rest, pos := pos } 0 result =
      match parseMultiLineValue lib opts fuel { rest := rest, pos := pos + 1 } key 0 with
      | .ok (parsedValue, p') => parseValueLoop lib opts fuel p' 0 (mapSet result key parsedValue)
      | .error e => .error e
      | .panic => .panic
      | .outOfFuel => .outOfFuel := by
  have hcoreK := identifier_core hkey
  have hcore : Core (key ++ [':']) := by
    obtain ⟨c, r, hcr, hc⟩ := hcoreK.1
    exact ⟨⟨c, r ++ [':'], by rw [hcr]; rfl, hc⟩, ⟨key, ':', rfl, by decide⟩⟩
  have htrim := TrimSpace_of_core hcore
  have hcolon : ':' ∉ key := identifier_not_mem hkey (by decide)
  rw [loop_line lib opts fuel pos 0 result _ rest (by rw [htrim]; exact core_ne_nil hcore)
    (by rw [CountIndent_core hcore]; rfl)]
  rw [htrim, Index_colon_append _ hcolon]
  have hdrop : List.drop (key.length + 1) (key ++ [':']) = [] := by simp
  have htake : List.take key.length (key ++ [':']) = key := by simp
  have hnil : TrimSpace ([] : Str) = [] := rfl
  simp only [hdrop, htake, hnil, TrimSpace_of_core hcoreK, if_true]
  try rfl

/-- Below a key line, a block of key lines one step deeper is read by a nested
`parseValue` call. -/
theorem multiLine_kvBlock (lib : GoLib) (opts : DecodeOptions) (fuel pos : Nat) (key : Str)
    (block : List (Str × Str)) (hI : 0 ≤ opts.Indent ∧ opts.Indent < 2 ^ 63)
    (hne : block ≠ [])
    (hblock : ∀ kv ∈ block, isIdentifier kv.1 = true ∧ TrimSpace kv.2 ≠ [])
    (hnodup : (block.map Prod.fst).Nodup) :
    parseMultiLineValue lib opts (fuel + block.length + 3)
        { rest := block.map (fun kv => kvLine opts.Indent.toNat kv.1 kv.2), pos := pos } key 0 =
      .ok (.obj (block.map fun kv => (kv.1, parsePrimitive lib kv.2)),
        { rest := [], pos := pos + block.length }) := by
  obtain ⟨kv0, block1, rfl⟩ := List.exists_cons_of_ne_nil hne
  have hn : ((opts.Indent.toNat : Nat) : Int) = opts.Indent := Int.toNat_of_nonneg hI.1
  have hw : wrapInt (0 + opts.Indent) = opts.Indent := by
    rw [zero_add]; exact wrapInt_of_range (by omega) hI.2
  obtain ⟨hk0, ht0⟩ := hblock kv0 (List.mem_cons_self _ _)
  obtain ⟨hind, a, ha, htrim⟩ := kvLine_facts opts.Indent.toNat hk0 ht0
  obtain ⟨⟨c, r, hcr⟩, hall⟩ := identifier_spec hk0
  have hc : isIdentChar c = true := hall c (by rw [hcr]; simp)
  rw [parseMultiLineValue]
  simp only [List.map_cons, htrim, hw]
  have hhead : (kv0.1 ++ ':' :: ' ' :: (a ++ TrimSpace kv0.2)).head? = some c := by
    rw [hcr]; rfl
  rw [matchTabularHeader_none (by rw [hhead]; simpa using identChar_ne hc (by decide))]
  have hdash : HasPrefix (kv0.1 ++ ':' :: ' ' :: (a ++ TrimSpace kv0.2)) ['-', ' '] = false := by
    rw [hcr]
    simp [HasPrefix, List.isPrefixOf, (identChar_ne hc (by decide : isIdentChar '-' = false)).symm]
  simp only [hdash, and_false, if_false, Bool.false_eq_true]
  rw [parseValue]
  simp only []
  have hloop := loop_kvLines lib opts opts.Indent.toNat [] (kv0 :: block1) (fuel + 1) pos []
    hblock
  rw [hn, List.append_nil] at hloop
  have hfuel : fuel + (kv0 :: block1).length + 1 = fuel + 1 + (kv0 :: block1).length := by omega
  rw [hfuel, List.map_cons] at *
  rw [hloop, loop_nil, foldl_mapSet_fresh _ [] (by simpa [Function.comp_def] using hnodup)
    (by simp)]
  simp
theorem parseValue_nested_block (lib : GoLib) (opts : DecodeOptions) (k : Str)
    (block : List (Str × Str)) (hI : 0 ≤ opts.Indent ∧ opts.Indent < 2 ^ 63)
    (hk : isIdentifier k = true) (hne : block ≠ [])
    (hblock : ∀ kv ∈ block, isIdentifier kv.1 = true ∧ TrimSpace kv.2 ≠ [])
    (hnodup : (block.map Prod.fst).Nodup) :
    parseValue lib opts (3 * (block.length + 1) + 4)
        { rest := (k ++ [':']) :: block.map (fun kv => kvLine opts.Indent.toNat kv.1 kv.2),
          pos := 0 } 0 =
      .ok (.obj [(k, .obj (block.map fun kv => (kv.1, parsePrimitive lib kv.2)))],
        { rest := [], pos := 0 + 1 + block.length }) := by
  rw [show 3 * (block.length + 1) + 4 = (3 * block.length + 5) + 1 + 1 by omega, parseValue]
  simp only []
  rw [loop_keyOnly lib opts _ 0 [] k _ hk,
    show 3 * block.length + 5 = (2 * block.length + 2) + block.length + 3 by omega,
    multiLine_kvBlock lib opts _ (0 + 1) k block hI hne hblock hnodup]
  simp only []
  rw [show 2 * block.length + 2 + block.length + 3 = (3 * block.length + 4) + 1 by omega,
    loop_nil]
  simp [mapSet]

theorem kvLine_append (n : Nat) (key t b : Str) : kvLine n key (t ++ b) = kvLine n key t ++ b := by
  simp [kvLine]

theorem kvLine_last {n : Nat} {key t : Str} (ht : ∃ r c, t = r ++ [c] ∧ IsSpace c = false) :
    ∃ r c, kvLine n key t = r ++ [c] ∧ IsSpace c = false := by
  obtain ⟨r, c, hrc, hc⟩ := ht
  exact ⟨List.replicate n ' ' ++ (key ++ ':' :: ' ' :: r), c, by rw [hrc]; simp [kvLine], hc⟩
/-! ## The encoder on tables -/

theorem primitiveToString_eq (lib : GoLib) (opts : EncodeOptions) {v : Value}
    (h : isComplexValue v = false) : primitiveToString lib opts v = .ok (cellText lib opts v) := by
  cases v with
  | null => rfl
  | bool b => rfl
  | int n => rfl
  | float f => rfl
  | str s =>
    simp only [primitiveToString, cellText]
    split <;> rfl
  | obj o => simp [isComplexValue] at h
  | arr a => simp [isComplexValue] at h

theorem mapIndex_not_complex {r : List (Str × Value)}
    (h : r.any (fun kv => isComplexValue kv.2) = false) (f : Str) :
    isComplexValue (mapIndex r f) = false := by
  unfold mapIndex
  cases hl : r.lookup f with
  | none => rfl
  | some v =>
    simp only []
    have hmem : (f, v) ∈ r := by
      induction r with
      | nil => simp at hl
      | cons e r ih =>
        obtain ⟨k, w⟩ := e
        simp only [List.lookup] at hl
        by_cases hk : f = k
        · subst hk
          simp at hl
          subst hl
          simp
        · have : (f == k) = false := by simpa using hk
          rw [this] at hl
          simp only [List.any_cons, Bool.or_eq_false_iff] at h
          exact List.mem_cons_of_mem _ (ih h.2 hl)
    have := List.any_eq_false.mp h (f, v) hmem
    simpa using this

theorem encodeRowValues_eq (lib : GoLib) (opts : EncodeOptions) {r : List (Str × Value)}
    (h : r.any (fun kv => isComplexValue kv.2) = false) (fields : List Str) :
    encodeRowValues lib opts r fields =
      .ok (fields.map fun f => cellText lib opts (mapIndex r f)) := by
  induction fields with
  | nil => rfl
  | cons f fields ih =>
    simp only [encodeRowValues, primitiveToString_eq lib opts (mapIndex_not_complex h f), ih,
      List.map_cons]

theorem encodeRows_eq (lib : GoLib) (opts : EncodeOptions) (indent : Str) (fields : List Str)
    {arr : List Value} (h : flatRows arr) :
    encodeRows lib opts indent fields arr =
      .ok (arr.map fun item => indent ++ rowText lib opts fields item) := by
  induction arr with
  | nil => rfl
  | cons item arr ih =>
    obtain ⟨r, rfl, hr⟩ := h item (List.mem_cons_self _ _)
    simp only [encodeRows, encodeRowValues_eq lib opts hr,
      ih (fun i hi => h i (List.mem_cons_of_mem _ hi)), List.map_cons, rowText]

theorem isTabularRest_flat {firstKeys : List Str} {rest : List Value}
    (h : isTabularRest firstKeys rest = true) :
    ∀ item ∈ rest, ∃ r, item = .obj r ∧ r.any (fun kv => isComplexValue kv.2) = false ∧
      (mapKeys r).length = firstKeys.length ∧ ∀ k ∈ mapKeys r, k ∈ firstKeys := by
  induction rest with
  | nil => intro item hi; cases hi
  | cons x rest ih =>
    cases x with
    | obj o =>
      simp only [isTabularRest] at h
      split at h
      · cases h
      · rename_i h1
        split at h
        · cases h
        · rename_i h2
          split at h
          · cases h
          · rename_i h3
            intro item hi
            rcases List.mem_cons.mp hi with rfl | hi
            · refine ⟨o, rfl, by simpa using h3, by simpa using h1, ?_⟩
              intro k hk
              have := h2
              simp only [List.any_eq_true, not_exists, not_and, Bool.not_eq_true',
                Bool.not_eq_true, Bool.not_eq_false'] at this
              have := this k hk
              simpa using this
            · exact ih h item hi
    | null => simp [isTabularRest] at h
    | bool b => simp [isTabularRest] at h
    | int n => simp [isTabularRest] at h
    | float f => simp [isTabularRest] at h
    | str s => simp [isTabularRest] at h
    | arr a => simp [isTabularRest] at h

/-- What `isTabularArray` establishes. -/
theorem isTabularArray_spec {arr : List Value} (h : isTabularArray arr = true) :
    ∃ first rest, arr = .obj first :: rest ∧ first ≠ [] ∧
      first.any (fun kv => isComplexValue kv.2) = false ∧
      ∀ item ∈ rest, ∃ r, item = .obj r ∧ r.any (fun kv => isComplexValue kv.2) = false ∧
        (mapKeys r).length = (mapKeys first).length ∧ ∀ k ∈ mapKeys r, k ∈ mapKeys first := by
  cases arr with
  | nil => simp [isTabularArray] at h
  | cons x rest =>
    cases x with
    | obj o =>
      simp only [isTabularArray] at h
      split at h
      · cases h
      · rename_i h1
        split at h
        · cases h
        · rename_i h2
          refine ⟨o, rest, rfl, ?_, by simpa using h1, isTabularRest_flat (by simpa using h2)⟩
          intro h0
          subst h0
          simp [mapKeys] at h
    | null => simp [isTabularArray] at h
    | bool b => simp [isTabularArray] at h
    | int n => simp [isTabularArray] at h
    | float f => simp [isTabularArray] at h
    | str s => simp [isTabularArray] at h
    | arr a => simp [isTabularArray] at h

theorem isTabularArray_flat {arr : List Value} (h : isTabularArray arr = true) : flatRows arr := by
  obtain ⟨first, rest, rfl, _, hf, hrest⟩ := isTabularArray_spec h
  intro item hi
  rcases List.mem_cons.mp hi with rfl | hi
  · exact ⟨first, rfl, hf⟩
  · obtain ⟨r, hr, hc, _⟩ := hrest item hi
    exact ⟨r, hr, hc⟩

/-- The lines of a table: the header, then one row per item. -/
theorem encodeTabularArray_eq (lib : GoLib) (opts : EncodeOptions) {first : List (Str × Value)}
    {rest : List Value} (depth : Int) {indent : Str}
    (hflat : flatRows (.obj first :: rest))
    (hindent : Repeat (wrapInt (depth * opts.Indent)) = some indent) :
    encodeTabularArray lib opts (.obj first :: rest) depth =
      .ok (tabularHeader (rest.length + 1) (mapKeys first) ::
        (Value.obj first :: rest).map fun item =>
          indent ++ rowText lib opts (mapKeys first) item) := by
  simp only [encodeTabularArray, hindent, encodeRows_eq lib opts indent (mapKeys first) hflat,
    List.length_cons]
theorem Contains_spec (s sub : Str) : Contains s sub = true ↔ sub <:+: s := by
  unfold Contains
  induction s with
  | nil =>
    simp only [Index]
    split
    · rename_i h; simp [h]
    · rename_i h; simp [h]
  | cons c cs ih =>
    simp only [Index]
    rw [List.infix_cons_iff]
    split
    · rename_i h
      simp only [Option.isSome_some, true_iff]
      exact Or.inl (List.isPrefixOf_iff_prefix.mp h)
    · rename_i h
      have hp : ¬ sub <+: c :: cs := fun hp => h (List.isPrefixOf_iff_prefix.mpr hp)
      simp only [Option.isSome_map', hp, false_or]
      exact ih

theorem decimalText_eq (n : Int) : decimalText n = FormatInt n := by
  cases n with
  | ofNat m => rfl
  | negSucc m => rfl

theorem quoteString_eq (s : Str) : quoteString s = doubleQuoted s := by
  have h : ∀ s : Str, replaceAux ['"'] ['\\', '"'] 0 s =
      s.flatMap (fun c => if c = '"' then ['\\', '"'] else [c]) := by
    intro s
    induction s with
    | nil => rfl
    | cons c cs ih =>
      by_cases hc : c = '"'
      · subst hc
        simp [replaceAux, List.isPrefixOf, ih]
      · have : ('"' == c) = false := by simpa using fun h => hc h.symm
        simp [replaceAux, List.isPrefixOf, ih, hc, this]
  simp [quoteString, doubleQuoted, ReplaceAll, h]

theorem cellText_eq_spec (lib : GoLib) (opts : EncodeOptions) {v : Value}
    (hv : (∃ n, v = .int n) ∨ (∃ s, v = .str s)) :
    cellText lib opts v = specCellText lib opts.Delimiter v := by
  rcases hv with ⟨n, rfl⟩ | ⟨s, rfl⟩
  · simp [cellText, specCellText, decimalText_eq]
  · simp only [cellText, specCellText, Bool.or_eq_true, Contains_spec, quoteString_eq]

theorem tabularHeader_eq_spec (n : Nat) (fields : List Str) :
    tabularHeader n fields = specHeader n fields := by
  simp [tabularHeader, specHeader, decimalText_eq, Join]
theorem eligible_flat {first : List (Str × Value)} {rest : List Value}
    (h : TabularEligible first rest) : flatRows (.obj first :: rest) := by
  intro item hi
  obtain ⟨r, hr, _, _, hc⟩ := h.2 item hi
  refine ⟨r, hr, ?_⟩
  rw [List.any_eq_false]
  intro kv hkv
  simpa using hc kv hkv

theorem eligible_isTabular {first : List (Str × Value)} {rest : List Value}
    (h : TabularEligible first rest) : isTabularArray (.obj first :: rest) = true := by
  obtain ⟨hne, hall⟩ := h
  obtain ⟨r0, hr0, hnd0, _, hc0⟩ := hall (.obj first) (List.mem_cons_self _ _)
  cases hr0
  have hrest : isTabularRest (mapKeys first) rest = true := by
    have hall' : ∀ item ∈ rest, ∃ r, item = .obj r ∧ (mapKeys r).Nodup ∧
        (∀ k, k ∈ mapKeys r ↔ k ∈ mapKeys first) ∧ ∀ kv ∈ r, isComplexValue kv.2 = false :=
      fun item hi => hall item (List.mem_cons_of_mem _ hi)
    clear hall
    induction rest with
    | nil => rfl
    | cons item rest ih =>
      obtain ⟨r, rfl, hnd, hset, hc⟩ := hall' _ (List.mem_cons_self _ _)
      have hperm : (mapKeys r).Perm (mapKeys first) :=
        (List.perm_ext_iff_of_nodup hnd hnd0).mpr hset
      simp only [isTabularRest]
      rw [if_neg (by simpa using hperm.length_eq)]
      rw [if_neg]
      · rw [if_neg]
        · exact ih (fun i hi => hall' i (List.mem_cons_of_mem _ hi))
        · simp only [Bool.not_eq_true, List.any_eq_false]
          intro kv hkv
          simpa using hc kv hkv
      · simp only [Bool.not_eq_true, List.any_eq_false]
        intro k hk
        simpa using (hset k).mp hk
  simp only [isTabularArray]
  rw [if_neg, if_neg]
  · have : 0 < (mapKeys first).length := by
      cases first with
      | nil => exact absurd rfl hne
      | cons a b => simp [mapKeys]
    simpa using this
  · simp [hrest]
  · simp only [Bool.not_eq_true, List.any_eq_false]
    intro kv hkv
    simpa using hc0 kv hkv

theorem mapIndex_mem {r : List (Str × Value)} {f : Str} (h : f ∈ mapKeys r) :
    (f, mapIndex r f) ∈ r := by
  induction r with
  | nil => simp [mapKeys] at h
  | cons e r ih =>
    obtain ⟨k, w⟩ := e
    by_cases hk : f = k
    · subst hk
      simp [mapIndex, List.lookup]
    · have hb : (f == k) = false := by simpa using hk
      have h' : f ∈ mapKeys r := by
        simp only [mapKeys, List.map_cons, List.mem_cons] at h
        rcases h with h | h
        · exact absurd h hk
        · exact h
      have := ih h'
      simp only [mapIndex, List.lookup, hb] at this ⊢
      exact List.mem_cons_of_mem _ this

theorem Repeat_zero : Repeat 0 = some [] := by
  simp [Repeat]

theorem wrapInt_zero : wrapInt 0 = 0 := by
  decide

/-- The lines of a top-level table, in the vocabulary of `encodeTabularArray`. -/
theorem EncodeLines_table (lib : GoLib) (opts : EncodeOptions) {first : List (Str × Value)}
    {rest : List Value} (h : TabularEligible first rest) :
    EncodeLines lib opts (.arr (.obj first :: rest)) =
      .ok (tabularHeader (rest.length + 1) (mapKeys first) ::
        (Value.obj first :: rest).map fun item => rowText lib opts (mapKeys first) item) := by
  have hind : Repeat (wrapInt (0 * opts.Indent)) = some [] := by
    rw [zero_mul, wrapInt_zero, Repeat_zero]
  simp only [EncodeLines, encodeValue, eligible_isTabular h, if_true,
    encodeTabularArray_eq lib opts 0 (eligible_flat h) hind, List.nil_append]
/-! ## The scalar grammar -/

theorem replace_unescape : ∀ s : Str, replaceAux ['\\', '"'] ['"'] 0 s = unescapeQuotes s
  | [] => rfl
  | [c] => by
    by_cases hc : c = '\\'
    · subst hc; rfl
    · have : ('\\' == c) = false := by simpa using fun h => hc h.symm
      simp [replaceAux, List.isPrefixOf, this]
      unfold unescapeQuotes
      split
      · rename_i h; cases h
      · rename_i h; simp at h; simp [h, unescapeQuotes]
      · rename_i h; cases h
  | c :: d :: r => by
    by_cases hc : c = '\\' ∧ d = '"'
    · obtain ⟨rfl, rfl⟩ := hc
      have := replace_unescape r
      simp [replaceAux, List.isPrefixOf, unescapeQuotes, this]
    · have ih := replace_unescape (d :: r)
      have hp : List.isPrefixOf ['\\', '"'] (c :: d :: r) = false := by
        simp only [List.isPrefixOf, Bool.and_true, Bool.and_eq_false_iff, beq_eq_false_iff_ne]
        rw [not_and_or] at hc
        rcases hc with h | h
        · exact Or.inl (fun e => h e.symm)
        · exact Or.inr (fun e => h e.symm)
      rw [replaceAux, if_neg (by simp [hp]), ih]
      conv_rhs => unfold unescapeQuotes
      split
      · rename_i h
        simp only [List.cons.injEq] at h
        exact absurd ⟨h.1, h.2.1⟩ hc
      · rename_i h
        simp only [List.cons.injEq] at h
        obtain ⟨rfl, rfl⟩ := h
        rfl
      · rename_i h; cases h

theorem byteLen_ge_length (s : Str) : s.length ≤ byteLen s := by
  induction s with
  | nil => simp [byteLen]
  | cons c cs ih =>
    have := Char.utf8Size_pos c
    simp only [byteLen, List.map_cons, List.sum_cons, List.length_cons] at ih ⊢
    omega

theorem quoted_cond_iff (t : Str) :
    (byteLen t ≥ 2 ∧ t.head? = some '"' ∧ t.getLast? = some '"') ↔
      (t.length ≥ 2 ∧ t.head? = some '"' ∧ t.getLast? = some '"') := by
  constructor
  · rintro ⟨h1, h2, h3⟩
    refine ⟨?_, h2, h3⟩
    match t, h1, h2 with
    | [c], h1, h2 =>
      simp only [List.head?_cons, Option.some.injEq] at h2
      subst h2
      exact absurd h1 (by decide)
    | _ :: _ :: _, _, _ => simp
  · rintro ⟨h1, h2, h3⟩
    exact ⟨le_trans h1 (byteLen_ge_length t), h2, h3⟩

theorem tail_dropLast_eq (t : Str) : t.tail.dropLast = (t.drop 1).take (t.length - 2) := by
  cases t with
  | nil => rfl
  | cons c r =>
    simp only [List.tail_cons, List.drop_succ_cons, List.drop_zero, List.length_cons]
    rw [List.dropLast_eq_take]
    congr 1
/-! ## Scalar cells -/

theorem letter_range {c : Char} (h : isLetter c = true) :
    (65 ≤ c.toNat ∧ c.toNat ≤ 90) ∨ (97 ≤ c.toNat ∧ c.toNat ≤ 122) := by
  simpa [isLetter] using h

theorem letter_ne {c d : Char} (h : isLetter c = true) (hd : isLetter d = false) : c ≠ d := by
  intro hcd
  rw [hcd, hd] at h
  exact absurd h (by decide)

theorem letter_not_space {c : Char} (h : isLetter c = true) : IsSpace c = false := by
  have := letter_range h
  exact IsSpace_false_of_range (by omega) (by omega)

theorem plainWord_spec {w : Str} (h : isPlainWord w = true) :
    w ≠ [] ∧ ∀ c ∈ w, isLetter c = true := by
  simp only [isPlainWord, Bool.and_eq_true, Bool.not_eq_true', List.isEmpty_eq_false,
    List.all_eq_true] at h
  exact ⟨by simpa using h.1, h.2⟩

theorem plainWord_core {w : Str} (h : isPlainWord w = true) : Core w := by
  obtain ⟨hne, hall⟩ := plainWord_spec h
  obtain ⟨c, r, hcr⟩ := List.exists_cons_of_ne_nil hne
  exact ⟨⟨c, r, hcr, letter_not_space (hall c (by rw [hcr]; simp))⟩,
    ⟨w.dropLast, w.getLast hne, (List.dropLast_append_getLast hne).symm,
      letter_not_space (hall _ (List.getLast_mem hne))⟩⟩

theorem isNumericLoop_letters (lib : GoLib) :
    ∀ (s : Str) (first hasDot : Bool), (∀ c ∈ s, isLetter c = true) →
      isNumericLoop lib s first false hasDot = none ∨
        ∃ d, isNumericLoop lib s first false hasDot = some (false, d) := by
  intro s
  induction s with
  | nil => intro first hasDot _; exact Or.inr ⟨hasDot, rfl⟩
  | cons c cs ih =>
    intro first hasDot h
    have hc : isLetter c = true := h c (List.mem_cons_self _ _)
    have hr := letter_range hc
    have hdig : IsDigit lib c = false := by
      unfold IsDigit
      rw [if_pos (by omega)]
      simp only [isAsciiDigit, Bool.and_eq_false_iff, decide_eq_false_iff_not]
      omega
    have h1 : c ≠ '.' := letter_ne hc (by decide)
    have h2 : c ≠ '-' := letter_ne hc (by decide)
    have h3 : c ≠ '+' := letter_ne hc (by decide)
    simp only [isNumericLoop, hdig, h1, h2, h3, or_self, if_false, Bool.false_eq_true]
    split
    · exact ih false hasDot (fun c' hc' => h c' (List.mem_cons_of_mem _ hc'))
    · exact Or.inl rfl

theorem parsePrimitive_null (lib : GoLib) : parsePrimitive lib "null".toList = .null := rfl

theorem parsePrimitive_true (lib : GoLib) : parsePrimitive lib "true".toList = .bool true := rfl

theorem parsePrimitive_false (lib : GoLib) :
    parsePrimitive lib "false".toList = .bool false := rfl

theorem plainWord_not_quoted (lib : GoLib) {w : Str} (h : isPlainWord w = true)
    (hp : parsePrimitive lib w = .str w) : NeedsQuoting lib w = false := by
  obtain ⟨hne, hall⟩ := plainWord_spec h
  have h1 : w ≠ "null".toList := by
    intro e; rw [e, parsePrimitive_null] at hp; cases hp
  have h2 : w ≠ "true".toList := by
    intro e; rw [e, parsePrimitive_true] at hp; cases hp
  have h3 : w ≠ "false".toList := by
    intro e; rw [e, parsePrimitive_false] at hp; cases hp
  have hnum : isNumeric lib w = false := by
    unfold isNumeric
    rw [if_neg hne]
    rcases isNumericLoop_letters lib w true false hall with h | ⟨d, h⟩ <;> rw [h]
  unfold NeedsQuoting
  rw [if_neg hne, if_neg (by rintro (e | e | e); exacts [h1 e, h2 e, h3 e]),
    if_neg (by simp [hnum])]
  rw [List.any_eq_false]
  intro c hc
  have hl := hall c hc
  have e1 : c ≠ ':' := letter_ne hl (by decide)
  have e2 : c ≠ ',' := letter_ne hl (by decide)
  have e3 : c ≠ '"' := letter_ne hl (by decide)
  have e4 : c ≠ '\n' := letter_ne hl (by decide)
  have e5 : c ≠ '\r' := letter_ne hl (by decide)
  have e6 : c ≠ '\t' := letter_ne hl (by decide)
  simp [e1, e2, e3, e4, e5, e6, letter_not_space hl]
theorem FormatBool_core (b : Bool) : Core (FormatBool b) := by
  cases b
  · exact ⟨⟨'f', "alse".toList, rfl, by decide⟩, ⟨"fals".toList, 'e', rfl, by decide⟩⟩
  · exact ⟨⟨'t', "rue".toList, rfl, by decide⟩, ⟨"tru".toList, 'e', rfl, by decide⟩⟩

theorem FormatBool_letters (b : Bool) : ∀ c ∈ FormatBool b, isLetter c = true := by
  cases b <;> decide

theorem parsePrimitive_FormatBool (lib : GoLib) (b : Bool) :
    parsePrimitive lib (FormatBool b) = .bool b := by
  cases b
  · exact parsePrimitive_false lib
  · exact parsePrimitive_true lib

/-- The facts about a scalar cell that the round trip uses. -/
theorem goodCell_facts (lib : GoLib) {v : Value} (h : GoodCell lib v) :
    isComplexValue v = false ∧ scalarText lib v = cellText lib DefaultEncodeOptions v ∧
      CleanCell (cellText lib DefaultEncodeOptions v) ∧
      '\n' ∉ cellText lib DefaultEncodeOptions v ∧
      parsePrimitive lib (cellText lib DefaultEncodeOptions v) = v := by
  rcases h with ⟨n, hn, rfl⟩ | ⟨b, rfl⟩ | ⟨w, rfl, hw, hp⟩
  · have hr : ∀ c ∈ FormatInt n, 45 ≤ c.toNat ∧ c.toNat ≤ 57 := fun _ hc =>
      FormatInt_mem_range hc
    refine ⟨rfl, rfl, ⟨FormatInt_core n, ?_, ?_⟩, ?_, parsePrimitive_FormatInt lib hn⟩
    · intro hm; have := hr _ hm; revert this; decide
    · intro hm; have := hr _ hm; revert this; decide
    · intro hm; have := hr _ hm; revert this; decide
  · have hl := FormatBool_letters b
    refine ⟨rfl, rfl, ⟨FormatBool_core b, ?_, ?_⟩, ?_, parsePrimitive_FormatBool lib b⟩
    · intro hm; exact letter_ne (hl _ hm) (by decide) rfl
    · intro hm; exact letter_ne (hl _ hm) (by decide) rfl
    · intro hm; exact letter_ne (hl _ hm) (by decide) rfl
  · obtain ⟨hne, hall⟩ := plainWord_spec hw
    have hq := plainWord_not_quoted lib hw hp
    have hcomma : ',' ∉ w := fun hm => letter_ne (hall _ hm) (by decide) rfl
    have hcont : Contains w DefaultEncodeOptions.Delimiter = false := by
      rw [Bool.eq_false_iff]
      intro hc
      have := (Contains_spec w _).mp hc
      exact hcomma (this.subset (by decide))
    have hcell : cellText lib DefaultEncodeOptions (.str w) = w := by
      simp [cellText, hcont, hq]
    have hsc : scalarText lib (.str w) = w := by
      simp [scalarText, encodeString, hq]
    rw [hcell, hsc]
    refine ⟨rfl, rfl, ⟨plainWord_core hw, ?_, hcomma⟩, ?_, hp⟩
    · intro hm; exact letter_ne (hall _ hm) (by decide) rfl
    · intro hm; exact letter_ne (hall _ hm) (by decide) rfl

theorem goodCell_scalar (lib : GoLib) {v : Value} (h : GoodCell lib v) : GoodScalar lib v := by
  obtain ⟨h1, h2, h3, h4, h5⟩ := goodCell_facts lib h
  exact ⟨h1, by rw [h2]; exact h3.1, by rw [h2]; exact h4, by rw [h2]; exact h5⟩

/-! ## Reading a table row -/

theorem delimitedLoop_clean (c : Str) (hq : '"' ∉ c) (hc : ',' ∉ c) :
    ∀ (rest cur : Str) (inQuotes : Bool),
      delimitedLoop (c ++ rest) false inQuotes cur =
        delimitedLoop rest false inQuotes (c.reverse ++ cur) := by
  induction c with
  | nil => intro rest cur inQuotes; rfl
  | cons x c ih =>
    intro rest cur inQuotes
    have hx1 : x ≠ '"' := fun e => hq (by simp [e])
    have hx2 : x ≠ ',' := fun e => hc (by simp [e])
    rw [List.cons_append, delimitedLoop, if_neg hx1, if_neg hx2,
      ih (fun h => hq (List.mem_cons_of_mem _ h)) (fun h => hc (List.mem_cons_of_mem _ h))]
    simp

theorem parseDelimitedValues_Join :
    ∀ cells : List Str, cells ≠ [] → (∀ c ∈ cells, CleanCell c) →
      parseDelimitedValues (Join cells [',']) = cells := by
  intro cells
  unfold parseDelimitedValues
  induction cells with
  | nil => intro h; exact absurd rfl h
  | cons c cells ih =>
    intro _ hall
    obtain ⟨hcore, hq, hc⟩ := hall c (List.mem_cons_self _ _)
    cases cells with
    | nil =>
      rw [Join_singleton]
      have := delimitedLoop_clean c hq hc [] [] false
      rw [List.append_nil] at this
      rw [this, delimitedLoop]
      simp [TrimSpace_of_core hcore]
    | cons d cells =>
      rw [Join_cons_cons, List.append_assoc, delimitedLoop_clean c hq hc]
      simp only [List.singleton_append, List.append_nil]
      rw [delimitedLoop, if_neg (by decide), if_pos rfl, if_pos (by simp)]
      rw [ih (by simp) (fun c' h' => hall c' (List.mem_cons_of_mem _ h'))]
      simp [TrimSpace_of_core hcore]
theorem parseRowObject_fresh (lib : GoLib) :
    ∀ (fields : List Str) (g : Str → Str) (acc : List (Str × Value)), fields.Nodup →
      (∀ f ∈ fields, f ∉ acc.map Prod.fst) →
      parseRowObject lib fields (fields.map g) acc =
        acc ++ fields.map fun f => (f, parsePrimitive lib (g f)) := by
  intro fields g
  induction fields with
  | nil => intro acc _ _; simp [parseRowObject]
  | cons f fields ih =>
    intro acc hnd hdis
    rw [List.nodup_cons] at hnd
    rw [List.map_cons, parseRowObject, mapSet_fresh _ (hdis f (List.mem_cons_self _ _)),
      ih _ hnd.2]
    · simp
    · intro f' hf'
      simp only [List.map_append, List.map_cons, List.map_nil, List.mem_append,
        List.mem_singleton, not_or]
      refine ⟨hdis f' (List.mem_cons_of_mem _ hf'), ?_⟩
      rintro rfl
      exact hnd.1 hf'

theorem Join_core {cells : List Str} {sep : Str} (hne : cells ≠ [])
    (hall : ∀ c ∈ cells, Core c) : Core (Join cells sep) := by
  induction cells with
  | nil => exact absurd rfl hne
  | cons c cells ih =>
    have hc := hall c (List.mem_cons_self _ _)
    cases cells with
    | nil => rw [Join_singleton]; exact hc
    | cons d cells =>
      have ih' := ih (by simp) (fun c' h' => hall c' (List.mem_cons_of_mem _ h'))
      rw [Join_cons_cons]
      obtain ⟨x, r, hxr, hx⟩ := hc.1
      obtain ⟨r', y, hry, hy⟩ := ih'.2
      refine ⟨⟨x, r ++ sep ++ Join (d :: cells) sep, by rw [hxr]; simp, hx⟩,
        ⟨c ++ sep ++ r', y, by rw [hry]; simp, hy⟩⟩

/-- One table row, as the parser reads it. -/
theorem tableRow_facts (lib : GoLib) {fields : List Str} {r : List (Str × Value)}
    (hne : fields ≠ []) (hnd : fields.Nodup)
    (hcells : ∀ f ∈ fields, GoodCell lib (mapIndex r f)) :
    CountIndent (tableRowLine lib fields (.obj r)) = 4 ∧
      TrimSpace (tableRowLine lib fields (.obj r)) =
        rowText lib DefaultEncodeOptions fields (.obj r) ∧
      parseDelimitedValues (rowText lib DefaultEncodeOptions fields (.obj r)) =
        fields.map (fun f => cellText lib DefaultEncodeOptions (mapIndex r f)) ∧
      parseRowObject lib fields
          (fields.map fun f => cellText lib DefaultEncodeOptions (mapIndex r f)) [] =
        fields.map fun f => (f, mapIndex r f) := by
  have hclean : ∀ c ∈ fields.map (fun f => cellText lib DefaultEncodeOptions (mapIndex r f)),
      CleanCell c := by
    intro c hc
    obtain ⟨f, hf, rfl⟩ := List.mem_map.mp hc
    exact (goodCell_facts lib (hcells f hf)).2.2.1
  have hcore : Core (rowText lib DefaultEncodeOptions fields (.obj r)) :=
    Join_core (by simpa using hne) (fun c hc => (hclean c hc).1)
  refine ⟨?_, ?_, ?_, ?_⟩
  · obtain ⟨c, rr, hcr, hc⟩ := core_head_ne_space hcore
    unfold tableRowLine
    rw [hcr]
    exact CountIndent_replicate 4 rr hc
  · have := TrimSpace_core (a := "    ".toList) (b := []) (allSpace_replicate 4)
      (fun _ h => by cases h) hcore
    simpa [tableRowLine] using this
  · exact parseDelimitedValues_Join _ (by simpa using hne) hclean
  · rw [parseRowObject_fresh lib fields _ [] hnd (by simp), List.nil_append]
    apply List.map_congr_left
    intro f hf
    rw [(goodCell_facts lib (hcells f hf)).2.2.2.2]

theorem parseTabularRows_table (lib : GoLib) {fields : List Str} (hne : fields ≠ [])
    (hnd : fields.Nodup) (rest : List Str) :
    ∀ (items : List Value) (pos : Nat) (result : List Value),
      (∀ item ∈ items, ∃ r, item = .obj r ∧ ∀ f ∈ fields, GoodCell lib (mapIndex r f)) →
      parseTabularRows lib DefaultDecodeOptions fields 2 items.length
          (items.map (tableRowLine lib fields) ++ rest) pos result =
        .ok (.arr (result ++ items.map (readBackRow fields)),
          { rest := rest, pos := pos + items.length }) := by
  intro items
  induction items with
  | nil =>
    intro pos result _
    cases rest <;> simp [parseTabularRows]
  | cons item items ih =>
    intro pos result hall
    obtain ⟨r, rfl, hcells⟩ := hall item (List.mem_cons_self _ _)
    obtain ⟨h1, h2, h3, h4⟩ := tableRow_facts lib hne hnd hcells
    rw [List.length_cons, List.map_cons, List.cons_append, parseTabularRows]
    simp only [h1, h2, h3, h4, List.length_map]
    have hw : wrapInt (2 + DefaultDecodeOptions.Indent) = 4 := by decide
    rw [hw, if_neg (by decide), if_neg (by simp),
      ih (pos + 1) _ (fun i hi => hall i (List.mem_cons_of_mem _ hi))]
    simp only [List.map_cons, readBackRow, List.append_assoc, List.singleton_append]
    congr 3
    omega
/-! ## Reading a table header -/

theorem takeWhile_append_stop {p : Char → Bool} {l : Str} {y : Char} (r : Str)
    (hl : ∀ x ∈ l, p x = true) (hy : p y = false) :
    (l ++ y :: r).takeWhile p = l ∧ (l ++ y :: r).dropWhile p = y :: r := by
  induction l with
  | nil => simp [List.takeWhile, List.dropWhile, hy]
  | cons x l ih =>
    have hx := hl x (List.mem_cons_self _ _)
    have := ih (fun x' h' => hl x' (List.mem_cons_of_mem _ h'))
    simp [List.takeWhile, List.dropWhile, hx, this]

theorem Join_fields_facts {fields : List Str} (hne : fields ≠ [])
    (hid : ∀ f ∈ fields, isIdentifier f = true) :
    Join fields [','] ≠ [] ∧ (∀ c ∈ Join fields [','], c ≠ '}') ∧
      (Split (Join fields [',']) ',').map TrimSpace = fields := by
  refine ⟨?_, ?_, ?_⟩
  · exact core_ne_nil (Join_core hne (fun f hf => identifier_core (hid f hf)))
  · intro c hc
    have : ∀ fs : List Str, (∀ f ∈ fs, isIdentifier f = true) → ∀ c ∈ Join fs [','],
        isIdentChar c = true ∨ c = ',' := by
      intro fs
      induction fs with
      | nil => intro _ c hc; simp [Join, List.intercalate] at hc
      | cons f fs ih =>
        intro hfs c hc
        cases fs with
        | nil =>
          rw [Join_singleton] at hc
          exact Or.inl ((identifier_spec (hfs f (by simp))).2 c hc)
        | cons g fs =>
          rw [Join_cons_cons] at hc
          simp only [List.mem_append, List.mem_singleton] at hc
          rcases hc with (h | h) | h
          · exact Or.inl ((identifier_spec (hfs f (by simp))).2 c h)
          · exact Or.inr h
          · exact ih (fun f' h' => hfs f' (List.mem_cons_of_mem _ h')) c h
    rcases this fields hid c hc with h | h
    · exact identChar_ne h (by decide)
    · rw [h]; decide
  · have hs : Split (Join fields [',']) ',' = fields :=
      @List.splitOn_intercalate _ fields _ ','
        (fun f hf => identifier_not_mem (hid f hf) (by decide)) hne
    rw [hs]
    conv_rhs => rw [← List.map_id fields]
    apply List.map_congr_left
    intro f hf
    exact TrimSpace_of_core (identifier_core (hid f hf))

theorem tabularHeader_core (n : Nat) (fields : List Str) : Core (tabularHeader n fields) := by
  refine ⟨⟨'[', _, rfl, by decide⟩, ⟨'[' :: (FormatInt n ++ (']' :: '{' :: (Join fields [','] ++
    ['}']))), ':', ?_, by decide⟩⟩
  simp [tabularHeader]

theorem matchTabularHeader_header (n : Nat) {fields : List Str} (hne : fields ≠ [])
    (hid : ∀ f ∈ fields, isIdentifier f = true) :
    matchTabularHeader (tabularHeader n fields) = some (FormatInt n, Join fields [',']) := by
  obtain ⟨hj, hjc, _⟩ := Join_fields_facts hne hid
  obtain ⟨hdne, hdig, _⟩ := toDigits_spec n
  have hF : FormatInt (n : Int) = Nat.toDigits 10 n := rfl
  obtain ⟨d0, ds, hd⟩ := List.exists_cons_of_ne_nil hdne
  obtain ⟨j0, js, hjs⟩ := List.exists_cons_of_ne_nil hj
  have h1 := takeWhile_append_stop (p := isAsciiDigit) (l := Nat.toDigits 10 n) (y := ']')
    ('{' :: (Join fields [','] ++ ['}', ':'])) hdig (by decide)
  have h2 := takeWhile_append_stop (p := fun c => decide (c ≠ '}')) (l := Join fields [','])
    (y := '}') [':'] (fun c hc => by simpa using hjc c hc) (by decide)
  simp only [matchTabularHeader, tabularHeader, hF, h1.1, h1.2]
  rw [hd]
  simp only []
  have h2a : List.takeWhile (fun c => decide (c ≠ '}')) (Join fields [','] ++ ['}', ':']) =
      Join fields [','] := h2.1
  have h2b : List.dropWhile (fun c => decide (c ≠ '}')) (Join fields [','] ++ ['}', ':']) =
      ['}', ':'] := h2.2
  rw [h2a, h2b, hjs]
  try rfl

theorem multiLine_table (lib : GoLib) (fuel pos : Nat) (key : Str) {fields : List Str}
    (hne : fields ≠ []) (hnd : fields.Nodup) (hid : ∀ f ∈ fields, isIdentifier f = true)
    (items : List Value) (hlen : items.length < 2 ^ 63)
    (hitems : ∀ item ∈ items, ∃ r, item = .obj r ∧ ∀ f ∈ fields, GoodCell lib (mapIndex r f))
    (rest : List Str) :
    parseMultiLineValue lib DefaultDecodeOptions (fuel + 1)
        { rest := ("  ".toList ++ tabularHeader items.length fields) ::
            (items.map (tableRowLine lib fields) ++ rest), pos := pos } key 0 =
      .ok (.arr (items.map (readBackRow fields)),
        { rest := rest, pos := pos + 1 + items.length }) := by
  have htrim : TrimSpace ("  ".toList ++ tabularHeader items.length fields) =
      tabularHeader items.length fields := by
    have := TrimSpace_core (a := "  ".toList) (b := []) (allSpace_replicate 2)
      (fun _ h => by cases h) (tabularHeader_core items.length fields)
    simpa using this
  have hat : Atoi (FormatInt (items.length : Int)) = some (items.length : Int) :=
    ParseInt_FormatInt ⟨by omega, by exact_mod_cast hlen⟩
  rw [parseMultiLineValue]
  simp only [htrim, matchTabularHeader_header items.length hne hid, parseTabularArray, hat,
    (Join_fields_facts hne hid).2.2, parser.advance, List.tail_cons, Int.toNat_ofNat]
  have hw : wrapInt (0 + DefaultDecodeOptions.Indent) = 2 := by decide
  rw [hw, parseTabularRows_table lib hne hnd rest items (pos + 1) [] hitems]
  simp
/-! ## A top-level object, field by field -/

theorem encodeValue_scalar (lib : GoLib) (opts : EncodeOptions) {v : Value}
    (h : isComplexValue v = false) (depth : Int) :
    encodeValue lib opts v depth = .ok [scalarText lib v] := by
  cases v with
  | null => rfl
  | bool b => rfl
  | int n => rfl
  | float f => rfl
  | str s => rfl
  | obj o => simp [isComplexValue] at h
  | arr a => simp [isComplexValue] at h

theorem fieldLines_scalar (lib : GoLib) (key : Str) {v : Value}
    (h : isComplexValue v = false) :
    fieldLines lib (key, v) = [kvLine 0 key (scalarText lib v)] := by
  cases v with
  | null => rfl
  | bool b => rfl
  | int n => rfl
  | float f => rfl
  | str s => rfl
  | obj o => simp [isComplexValue] at h
  | arr a => simp [isComplexValue] at h

theorem readBack_scalar {v : Value} (h : isComplexValue v = false) : readBack v = v := by
  cases v with
  | null => rfl
  | bool b => rfl
  | int n => rfl
  | float f => rfl
  | str s => rfl
  | obj o => simp [isComplexValue] at h
  | arr a => simp [isComplexValue] at h

theorem indentLines_default (lines : List Str) :
    indentLines DefaultEncodeOptions lines = .ok (lines.map fun l => "  ".toList ++ l) := by
  induction lines with
  | nil => rfl
  | cons l lines ih =>
    have : Repeat DefaultEncodeOptions.Indent = some "  ".toList := by decide
    simp only [indentLines, this, ih, List.map_cons]

/-- What a table provides. -/
theorem goodTable_facts (lib : GoLib) {first : List (Str × Value)} {rest : List Value}
    (h : GoodTable lib (.arr (.obj first :: rest))) :
    rest.length + 1 < 2 ^ 63 ∧ TabularEligible first rest ∧ mapKeys first ≠ [] ∧
      (mapKeys first).Nodup ∧ (∀ f ∈ mapKeys first, isIdentifier f = true) ∧
      ∀ item ∈ Value.obj first :: rest, ∃ r, item = .obj r ∧
        (mapKeys r).Perm (mapKeys first) ∧ (∀ kv ∈ r, GoodCell lib kv.2) ∧
        ∀ f ∈ mapKeys first, GoodCell lib (mapIndex r f) := by
  obtain ⟨first', rest', heq, hlen, helig, hcells⟩ := h
  simp only [Value.arr.injEq, List.cons.injEq, Value.obj.injEq] at heq
  obtain ⟨rfl, rfl⟩ := heq
  obtain ⟨r0, hr0, hnd0, _, _⟩ := helig.2 (.obj first) (List.mem_cons_self _ _)
  cases hr0
  refine ⟨hlen, helig, ?_, hnd0, ?_, ?_⟩
  · have := helig.1
    cases first with
    | nil => exact absurd rfl this
    | cons a b => simp [mapKeys]
  · intro f hf
    obtain ⟨kv, hkv, rfl⟩ := List.mem_map.mp hf
    exact (hcells first (List.mem_cons_self _ _) kv hkv).1
  · intro item hi
    obtain ⟨r, rfl, hnd, hset, _⟩ := helig.2 item hi
    refine ⟨r, rfl, (List.perm_ext_iff_of_nodup hnd hnd0).mpr hset,
      fun kv hkv => (hcells r hi kv hkv).2, ?_⟩
    intro f hf
    exact (hcells r hi _ (mapIndex_mem ((hset f).mpr hf))).2

theorem encodeObjectLoop_fields (lib : GoLib) :
    ∀ x : List (Str × Value), (∀ kv ∈ x, GoodField lib kv) →
      encodeObjectLoop lib DefaultEncodeOptions [] x 0 = .ok (x.flatMap (fieldLines lib)) := by
  intro x
  induction x with
  | nil => intro _; rfl
  | cons kv x ih =>
    intro h
    obtain ⟨key, v⟩ := kv
    obtain ⟨_, hv⟩ := h (key, v) (List.mem_cons_self _ _)
    have ih' := ih (fun kv' h' => h kv' (List.mem_cons_of_mem _ h'))
    have hd : wrapInt (0 + 1) = 1 := by decide
    rcases hv with hs | ht
    · have hc := hs.1
      simp only [encodeObjectLoop, hd, encodeValue_scalar lib _ hc, hc, ih',
        List.flatMap_cons, fieldLines_scalar lib key hc]
      simp [kvLine]
    · obtain ⟨first, rest, rfl, _⟩ := id ht
      obtain ⟨_, helig, _⟩ := goodTable_facts lib ht
      have hind : Repeat (wrapInt (1 * DefaultEncodeOptions.Indent)) = some "  ".toList := by
        decide
      simp only [encodeObjectLoop, hd, encodeValue, eligible_isTabular helig, if_true,
        encodeTabularArray_eq lib DefaultEncodeOptions 1 (eligible_flat helig) hind,
        isComplexValue, indentLines_default, ih', List.flatMap_cons, fieldLines]
      simp [tableRowLine]
theorem core_last {t : Str} (h : Core t) : ∃ r c, t = r ++ [c] ∧ IsSpace c = false := h.2

theorem rowText_facts (lib : GoLib) {fields : List Str} {r : List (Str × Value)}
    (hne : fields ≠ []) (hcells : ∀ f ∈ fields, GoodCell lib (mapIndex r f)) :
    Core (rowText lib DefaultEncodeOptions fields (.obj r)) ∧
      '\n' ∉ rowText lib DefaultEncodeOptions fields (.obj r) := by
  constructor
  · apply Join_core (by simpa using hne)
    intro c hc
    obtain ⟨f, hf, rfl⟩ := List.mem_map.mp hc
    exact (goodCell_facts lib (hcells f hf)).2.2.1.1
  · have : ∀ cells : List Str, (∀ c ∈ cells, '\n' ∉ c) → '\n' ∉ Join cells [','] := by
      intro cells
      induction cells with
      | nil => intro _ h; simp [Join, List.intercalate] at h
      | cons c cells ih =>
        intro hall
        cases cells with
        | nil => rw [Join_singleton]; exact hall c (by simp)
        | cons d cells =>
          rw [Join_cons_cons]
          simp only [List.mem_append, List.mem_singleton, not_or]
          exact ⟨⟨hall c (by simp), by decide⟩,
            ih (fun c' h' => hall c' (List.mem_cons_of_mem _ h'))⟩
    apply this
    intro c hc
    obtain ⟨f, hf, rfl⟩ := List.mem_map.mp hc
    exact (goodCell_facts lib (hcells f hf)).2.2.2.1

theorem tabularHeader_no_newline (n : Nat) {fields : List Str}
    (hid : ∀ f ∈ fields, isIdentifier f = true) : '\n' ∉ tabularHeader n fields := by
  have hj : ∀ fs : List Str, (∀ f ∈ fs, isIdentifier f = true) → '\n' ∉ Join fs [','] := by
    intro fs
    induction fs with
    | nil => intro _ h; simp [Join, List.intercalate] at h
    | cons f fs ih =>
      intro hall
      cases fs with
      | nil => rw [Join_singleton]; exact identifier_not_mem (hall f (by simp)) (by decide)
      | cons g fs =>
        rw [Join_cons_cons]
        simp only [List.mem_append, List.mem_singleton, not_or]
        exact ⟨⟨identifier_not_mem (hall f (by simp)) (by decide), by decide⟩,
          ih (fun f' h' => hall f' (List.mem_cons_of_mem _ h'))⟩
  have hd : '\n' ∉ FormatInt (n : Int) := by
    intro h
    have := FormatInt_mem_range h
    revert this; decide
  simp only [tabularHeader, List.mem_cons, List.mem_append, not_or]
  exact ⟨by decide, hd, by decide, by decide, hj fields hid, by decide, by decide,
    List.not_mem_nil _⟩

/-- The lines of a field: there is one, the first starts with the first character of
the key, and every line is free of line feeds and ends with a character that is not
white space. -/
theorem fieldLines_facts (lib : GoLib) {kv : Str × Value} (h : GoodField lib kv) :
    (∃ c r tl, fieldLines lib kv = (c :: r) :: tl ∧ IsSpace c = false) ∧
      ∀ l ∈ fieldLines lib kv, '\n' ∉ l ∧ ∃ r c, l = r ++ [c] ∧ IsSpace c = false := by
  obtain ⟨key, v⟩ := kv
  obtain ⟨hkey, hv⟩ := h
  obtain ⟨k0, kr, hk, hk0⟩ := (identifier_core hkey).1
  replace hk : key = k0 :: kr := hk
  replace hkey : isIdentifier key = true := hkey
  rcases hv with hs | ht
  · obtain ⟨hc, hcore, hnl, _⟩ := hs
    rw [fieldLines_scalar lib key hc]
    constructor
    · exact ⟨k0, kr ++ ':' :: ' ' :: scalarText lib v, [], by simp [kvLine, hk], hk0⟩
    · intro l hl
      rw [List.mem_singleton] at hl
      subst hl
      exact ⟨kvLine_no_newline hkey hnl, kvLine_last hcore.2⟩
  · obtain ⟨first, rest, rfl, _⟩ := id ht
    obtain ⟨_, _, hfne, _, hfid, hitems⟩ := goodTable_facts lib ht
    simp only [fieldLines]
    constructor
    · exact ⟨k0, kr ++ [':'], _, by rw [hk]; rfl, hk0⟩
    · intro l hl
      rcases List.mem_cons.mp hl with rfl | hl
      · refine ⟨?_, key, ':', rfl, by decide⟩
        simp only [List.mem_append, List.mem_singleton, not_or]
        exact ⟨identifier_not_mem hkey (by decide), by decide⟩
      · rcases List.mem_cons.mp hl with rfl | hl
        · constructor
          · simp only [List.mem_append, not_or]
            exact ⟨by decide, tabularHeader_no_newline _ hfid⟩
          · obtain ⟨r, c, hrc, hc⟩ := (tabularHeader_core (rest.length + 1) (mapKeys first)).2
            exact ⟨"  ".toList ++ r, c, by rw [hrc]; simp, hc⟩
        · obtain ⟨item, hitem, rfl⟩ := List.mem_map.mp hl
          obtain ⟨r, rfl, _, _, hcells⟩ := hitems item hitem
          obtain ⟨hcore, hnl⟩ := rowText_facts lib hfne hcells
          constructor
          · simp only [tableRowLine, List.mem_append, not_or]
            exact ⟨by decide, hnl⟩
          · obtain ⟨r', c, hrc, hc⟩ := hcore.2
            exact ⟨"    ".toList ++ r', c, by rw [tableRowLine, hrc]; simp, hc⟩

theorem TrimSpace_Join_lines {L : List Str}
    (hhead : ∃ c r tl, L = (c :: r) :: tl ∧ IsSpace c = false)
    (hlast : ∀ l ∈ L, ∃ r c, l = r ++ [c] ∧ IsSpace c = false) :
    TrimSpace (Join L ['\n']) = Join L ['\n'] := by
  obtain ⟨c, r, tl, rfl, hc⟩ := hhead
  cases tl with
  | nil =>
    have := TrimSpace_Join_single (X := c :: r) (b := [])
      ⟨⟨c, r, rfl, hc⟩, hlast _ (by simp)⟩ (fun _ h => by cases h)
    simpa using this
  | cons l1 tl =>
    have hne : l1 :: tl ≠ [] := by simp
    have hsplit : (c :: r) :: l1 :: tl =
        (c :: r) :: (l1 :: tl).dropLast ++ [(l1 :: tl).getLast hne ++ []] := by
      rw [List.append_nil, List.cons_append, List.dropLast_append_getLast]
    have := @TrimSpace_Join (c :: r) (l1 :: tl).dropLast ((l1 :: tl).getLast hne) [] ⟨c, r, rfl, hc⟩
      (hlast _ (List.mem_cons_of_mem _ (List.getLast_mem hne))) (fun _ h => by cases h)
    rw [← hsplit] at this
    rw [this]
    congr 1
    rw [List.cons_append, List.dropLast_append_getLast]
theorem parse_fields (lib : GoLib) (rest : List Str) :
    ∀ (x : List (Str × Value)) (fuel pos : Nat) (result : List (Str × Value)),
      (∀ kv ∈ x, GoodField lib kv) →
      parseValueLoop lib DefaultDecodeOptions (fuel + x.length + 1)
          { rest := x.flatMap (fieldLines lib) ++ rest, pos := pos } 0 result =
        parseValueLoop lib DefaultDecodeOptions (fuel + 1)
          { rest := rest, pos := pos + (x.flatMap (fieldLines lib)).length } 0
          ((x.map fun kv => (kv.1, readBack kv.2)).foldl (fun acc e => mapSet acc e.1 e.2)
            result) := by
  intro x
  induction x with
  | nil => intro fuel pos result _; rfl
  | cons kv x ih =>
    intro fuel pos result h
    obtain ⟨key, v⟩ := kv
    obtain ⟨hkey, hv⟩ := h (key, v) (List.mem_cons_self _ _)
    replace hkey : isIdentifier key = true := hkey
    have ih' := fun fuel pos result =>
      ih fuel pos result (fun kv' h' => h kv' (List.mem_cons_of_mem _ h'))
    have hfuel : fuel + ((key, v) :: x).length + 1 = (fuel + x.length + 1) + 1 := by
      simp only [List.length_cons]; omega
    rw [hfuel, List.flatMap_cons, List.map_cons, List.foldl_cons]
    rcases hv with hs | ht
    · obtain ⟨hc, hcore, _, hp⟩ := hs
      replace hc : isComplexValue v = false := hc
      replace hp : parsePrimitive lib (scalarText lib v) = v := hp
      have hstep := loop_kvLine lib DefaultDecodeOptions (fuel + x.length + 1) pos 0 result key
        (scalarText lib v) (x.flatMap (fieldLines lib) ++ rest) hkey
        (by rw [TrimSpace_of_core hcore]; exact core_ne_nil hcore)
      rw [Nat.cast_zero] at hstep
      rw [fieldLines_scalar lib key hc, List.singleton_append, List.cons_append, hstep, ih', hp]
      simp only [readBack_scalar hc, List.length_cons, List.length_append, List.length_nil]
      congr 2
      omega
    · obtain ⟨first, rest', rfl, _⟩ := id ht
      obtain ⟨hlen, _, hfne, hfnd, hfid, hitems⟩ := goodTable_facts lib ht
      have hitems' : ∀ item ∈ Value.obj first :: rest', ∃ r, item = .obj r ∧
          ∀ f ∈ mapKeys first, GoodCell lib (mapIndex r f) := by
        intro item hi
        obtain ⟨r, hr, _, _, hc⟩ := hitems item hi
        exact ⟨r, hr, hc⟩
      have hml := multiLine_table lib (fuel + x.length) (pos + 1) key hfne hfnd hfid
        (Value.obj first :: rest') (by simpa using hlen) hitems'
        (x.flatMap (fieldLines lib) ++ rest)
      simp only [List.length_cons] at hml
      simp only [fieldLines, List.cons_append, List.append_assoc]
      rw [loop_keyOnly lib DefaultDecodeOptions (fuel + x.length + 1) pos result key _ hkey,
        hml]
      simp only []
      rw [ih']
      simp only [readBack, List.length_cons, List.length_append, List.length_map]
      congr 2
      omega

/-- The round trip of a top-level object whose fields are scalars and tables: the
parser returns the object with every table row in the order of its header. -/
theorem roundTrip_object (lib : GoLib) (x : List (Str × Value)) (hne : x ≠ [])
    (hnodup : (x.map Prod.fst).Nodup) (hfields : ∀ kv ∈ x, GoodField lib kv) (dst : DstType) :
    roundTrip lib (.obj x) dst =
      assignReflectValue (.obj (x.map fun kv => (kv.1, readBack kv.2))) dst := by
  obtain ⟨kv0, x', hx⟩ := List.exists_cons_of_ne_nil hne
  have henc : Encode lib (.obj x) = .ok (Join (x.flatMap (fieldLines lib)) ['\n']) := by
    have hind : Repeat (wrapInt (0 * DefaultEncodeOptions.Indent)) = some [] := by decide
    simp only [Encode, Encoder_Encode, EncodeLines]
    rw [hx, encodeValue]
    simp only [hind]
    rw [← hx, encodeObjectLoop_fields lib x hfields]
  have hfacts := fun kv hkv => fieldLines_facts lib (hfields kv hkv)
  have hhead : ∃ c r tl, x.flatMap (fieldLines lib) = (c :: r) :: tl ∧ IsSpace c = false := by
    obtain ⟨c, r, tl, htl, hc⟩ := (hfacts kv0 (by rw [hx]; simp)).1
    exact ⟨c, r, tl ++ x'.flatMap (fieldLines lib), by rw [hx, List.flatMap_cons, htl]; rfl, hc⟩
  have hall : ∀ l ∈ x.flatMap (fieldLines lib),
      '\n' ∉ l ∧ ∃ r c, l = r ++ [c] ∧ IsSpace c = false := by
    intro l hl
    obtain ⟨kv, hkv, hl'⟩ := List.mem_flatMap.mp hl
    exact (hfacts kv hkv).2 l hl'
  have hLne : x.flatMap (fieldLines lib) ≠ [] := by
    obtain ⟨c, r, tl, h, _⟩ := hhead
    rw [h]; simp
  have hlen : x.length ≤ (x.flatMap (fieldLines lib)).length := by
    have : ∀ y : List (Str × Value), (∀ kv ∈ y, GoodField lib kv) →
        y.length ≤ (y.flatMap (fieldLines lib)).length := by
      intro y
      induction y with
      | nil => intro _; simp
      | cons kv y ih =>
        intro hy
        obtain ⟨c, r, tl, h, _⟩ := (fieldLines_facts lib (hy kv (List.mem_cons_self _ _))).1
        have := ih (fun kv' h' => hy kv' (List.mem_cons_of_mem _ h'))
        simp only [List.flatMap_cons, List.length_append, List.length_cons, h]
        omega
    exact this x hfields
  have hparse : Parse lib (Join (x.flatMap (fieldLines lib)) ['\n']) DefaultDecodeOptions =
      .ok (.obj (x.map fun kv => (kv.1, readBack kv.2))) := by
    rw [Parse_of_lines lib DefaultDecodeOptions hLne (fun l hl => (hall l hl).1)
      (TrimSpace_Join_lines hhead (fun l hl => (hall l hl).2))]
    obtain ⟨fuel, hfuel⟩ : ∃ fuel, 3 * (x.flatMap (fieldLines lib)).length + 4 =
        (fuel + x.length + 1) + 1 := ⟨3 * (x.flatMap (fieldLines lib)).length + 2 - x.length,
          by omega⟩
    rw [hfuel, parseValue]
    obtain ⟨c, r, tl, htl, _⟩ := hhead
    have hrest : (x.flatMap (fieldLines lib)) = (c :: r) :: tl := htl
    simp only [hrest]
    rw [← hrest]
    have hp := parse_fields lib [] x fuel 0 [] hfields
    rw [List.append_nil] at hp
    rw [hp, loop_nil, foldl_mapSet_fresh _ [] (by simpa [Function.comp_def] using hnodup)
      (by simp)]
    simp [hx]
  exact roundTrip_of_Parse lib _ _ _ henc hparse dst

theorem parsePrimitive_eq_scalarLiteral (lib : GoLib) (value : Str) :
    parsePrimitive lib value = scalarLiteral lib (TrimSpace value) := by
  unfold parsePrimitive scalarLiteral
  simp only [quoted_cond_iff, tail_dropLast_eq, ReplaceAll, replace_unescape]
/-! ## Strings as values of a key line -/

theorem NeedsQuoting_of_quote_mem (lib : GoLib) {s : Str} (h : '"' ∈ s) :
    NeedsQuoting lib s = true := by
  unfold NeedsQuoting
  split
  · rfl
  · split
    · rfl
    · split
      · rfl
      · rw [List.any_eq_true]
        exact ⟨'"', h, by simp⟩

theorem TrimSpace_subset {s : Str} {c : Char} (h : c ∈ TrimSpace s) : c ∈ s := by
  unfold TrimSpace at h
  have h1 := (List.rdropWhile_prefix IsSpace (s.dropWhile IsSpace)).subset h
  exact (List.dropWhile_suffix IsSpace).subset h1

theorem quoteString_facts (s : Str) (hnl : '\n' ∉ s) :
    Core (quoteString s) ∧ '\n' ∉ quoteString s := by
  constructor
  · exact ⟨⟨'"', _, rfl, by decide⟩,
      ⟨'"' :: ReplaceAll s ['"'] ['\\', '"'], '"', rfl, by decide⟩⟩
  · rw [quoteString_eq]
    simp only [doubleQuoted, List.mem_append, List.mem_singleton, List.mem_flatMap, not_or,
      not_exists, not_and]
    refine ⟨⟨by decide, ?_⟩, by decide⟩
    intro x hx
    by_cases hq : x = '"'
    · simp [hq]
    · simp only [hq, if_false, List.mem_singleton]
      rintro rfl
      exact hnl hx

/-- A string without line feed whose encoding `parsePrimitive` reads back is rendered
as a text that a key line carries faithfully. -/
theorem goodScalar_str (lib : GoLib) {s : Str} (hnl : '\n' ∉ s)
    (hp : parsePrimitive lib (encodeString lib s) = .str s) : GoodScalar lib (.str s) := by
  refine ⟨rfl, ?_, ?_, hp⟩
  · show Core (encodeString lib s)
    unfold encodeString
    by_cases hq : NeedsQuoting lib s = true
    · rw [if_pos hq]; exact (quoteString_facts s hnl).1
    · rw [if_neg hq]
      have hq' : NeedsQuoting lib s = false := by simpa using hq
      have hp' : parsePrimitive lib s = .str s := by
        simpa [encodeString, hq'] using hp
      have hne : s ≠ [] := by
        rintro rfl
        simp [NeedsQuoting] at hq'
      have htrim : TrimSpace s = s := by
        rw [parsePrimitive_eq_scalarLiteral] at hp'
        unfold scalarLiteral at hp'
        split at hp'
        · rename_i hc
          have : '"' ∈ TrimSpace s := List.mem_of_mem_head? hc.2.1
          rw [NeedsQuoting_of_quote_mem lib (TrimSpace_subset this)] at hq'
          cases hq'
        · split at hp'
          · cases hp'
          · split at hp'
            · cases hp'
            · split at hp'
              · cases hp'
              · split at hp'
                · cases hp'
                · split at hp'
                  · cases hp'
                  · simpa using hp'
      have := (trim_decomp s (by rw [htrim]; exact hne)).1
      rwa [htrim] at this
  · show '\n' ∉ encodeString lib s
    unfold encodeString
    split
    · exact (quoteString_facts s hnl).2
    · exact hnl

theorem goodScalar_null (lib : GoLib) : GoodScalar lib .null :=
  ⟨rfl, ⟨⟨'n', "ull".toList, rfl, by decide⟩, ⟨"nul".toList, 'l', rfl, by decide⟩⟩,
    (by decide : '\n' ∉ "null".toList), parsePrimitive_null lib⟩

/-! ## Equality up to key order -/

theorem SameValue_refl_scalar {v : Value} (h : isComplexValue v = false) : SameValue v v := by
  cases v with
  | null => simp [SameValue]
  | bool b => simp [SameValue]
  | int n => simp [SameValue]
  | float f => simp [SameValue]
  | str s => simp [SameValue]
  | obj o => simp [isComplexValue] at h
  | arr a => simp [isComplexValue] at h

theorem SameFields_refl_flat :
    ∀ r : List (Str × Value), (∀ kv ∈ r, isComplexValue kv.2 = false) → SameFields r r := by
  intro r
  induction r with
  | nil => intro _; simp [SameFields]
  | cons kv r ih =>
    intro h
    obtain ⟨k, v⟩ := kv
    simp only [SameFields, true_and]
    exact ⟨SameValue_refl_scalar (h (k, v) (List.mem_cons_self _ _)),
      ih (fun kv' h' => h kv' (List.mem_cons_of_mem _ h'))⟩

theorem map_mapIndex_self :
    ∀ r : List (Str × Value), (mapKeys r).Nodup →
      (mapKeys r).map (fun f => (f, mapIndex r f)) = r := by
  intro r
  induction r with
  | nil => intro _; rfl
  | cons kv r ih =>
    intro hnd
    obtain ⟨k, v⟩ := kv
    simp only [mapKeys, List.map_cons, List.nodup_cons] at hnd
    simp only [mapKeys, List.map_cons, List.map_map]
    have h0 : mapIndex ((k, v) :: r) k = v := by simp [mapIndex, List.lookup]
    rw [h0]
    congr 1
    have := ih hnd.2
    simp only [mapKeys, List.map_map] at this
    conv_rhs => rw [← this]
    apply List.map_congr_left
    intro kv' hkv'
    have hne : kv'.1 ≠ k := by
      rintro rfl
      exact hnd.1 (List.mem_map_of_mem _ hkv')
    have hb : (kv'.1 == k) = false := by simpa using hne
    simp [mapIndex, List.lookup, hb]

theorem SameValue_readBackRow {fields : List Str} {r : List (Str × Value)}
    (hperm : (mapKeys r).Perm fields) (hnd : fields.Nodup)
    (hflat : ∀ kv ∈ r, isComplexValue kv.2 = false) :
    SameValue (.obj r) (readBackRow fields (.obj r)) := by
  simp only [readBackRow, SameValue]
  refine ⟨r, ?_, SameFields_refl_flat r hflat⟩
  have h1 := map_mapIndex_self r (hperm.nodup_iff.mpr hnd)
  have h2 := hperm.symm.map (fun f => (f, mapIndex r f))
  rwa [h1] at h2

theorem SameValue_readBack (lib : GoLib) {v : Value}
    (h : GoodCell lib v ∨ GoodTable lib v) : SameValue v (readBack v) := by
  rcases h with hc | ht
  · have := (goodCell_facts lib hc).1
    rw [readBack_scalar this]
    exact SameValue_refl_scalar this
  · obtain ⟨first, rest, rfl, _⟩ := id ht
    obtain ⟨_, _, _, hfnd, _, hitems⟩ := goodTable_facts lib ht
    simp only [readBack, SameValue]
    have : ∀ items : List Value,
        (∀ item ∈ items, ∃ r, item = .obj r ∧ (mapKeys r).Perm (mapKeys first) ∧
          (∀ kv ∈ r, GoodCell lib kv.2) ∧ ∀ f ∈ mapKeys first, GoodCell lib (mapIndex r f)) →
        SameItems items (items.map (readBackRow (mapKeys first))) := by
      intro items
      induction items with
      | nil => intro _; simp [SameItems]
      | cons item items ih =>
        intro hall
        obtain ⟨r, rfl, hperm, hcells, _⟩ := hall item (List.mem_cons_self _ _)
        simp only [List.map_cons, SameItems]
        exact ⟨SameValue_readBackRow hperm hfnd
          (fun kv hkv => (goodCell_facts lib (hcells kv hkv)).1),
          ih (fun i hi => hall i (List.mem_cons_of_mem _ hi))⟩
    exact this _ hitems
/-! ## Lines of a trimmed text, and ragged rows -/

/-- The first line of a trimmed text starts with a character that is not white
space, unless the line is empty. -/
theorem first_line_head {input l1 : Str} {rest : List Str}
    (hlines : Split (TrimSpace input) '\n' = l1 :: rest) (hne : l1 ≠ []) :
    ∃ c r, l1 = c :: r ∧ IsSpace c = false := by
  by_cases h : TrimSpace input = []
  · rw [h] at hlines
    have : l1 = [] := by
      have h2 : Split [] '\n' = [[]] := rfl
      rw [h2] at hlines
      exact (List.cons.inj hlines).1.symm
    exact absurd this hne
  · obtain ⟨⟨c, r, hcr, hc⟩, _⟩ := (trim_decomp input h).1
    have hcn : (c == '\n') = false := by
      cases hcn : c == '\n'
      · rfl
      · have : c = '\n' := by simpa using hcn
        rw [this] at hc
        exact absurd hc (by decide)
    rw [hcr] at hlines
    unfold Split at hlines
    rw [List.splitOn, List.splitOnP_cons] at hlines
    simp only [hcn] at hlines
    cases hs : List.splitOnP (fun x => x == '\n') r with
    | nil => exact absurd hs (List.splitOnP_ne_nil _ _)
    | cons a t =>
      rw [hs] at hlines
      simp only [Bool.false_eq_true, if_false, List.modifyHead_cons] at hlines
      exact ⟨c, a, (List.cons.inj hlines).1.symm, hc⟩

theorem keys_same_set {l1 l2 : List Str} (hnd : l1.Nodup) (hsub : ∀ k ∈ l1, k ∈ l2)
    (hlen : l1.length = l2.length) : ∀ k, k ∈ l1 ↔ k ∈ l2 := by
  have hsp : l1.Subperm l2 := List.subperm_of_subset hnd hsub
  have hp : l1.Perm l2 := hsp.perm_of_length_le (by omega)
  exact fun k => hp.mem_iff

theorem specTabular_eligible {arr : List Value}
    (huniq : ∀ r, .obj r ∈ arr → (mapKeys r).Nodup) (h : SpecTabular arr) :
    ∃ first rest, arr = .obj first :: rest ∧ TabularEligible first rest := by
  obtain ⟨hne, hobj, hkeys, hflat, hfirst⟩ := h
  cases arr with
  | nil => exact absurd rfl hne
  | cons x rest =>
    obtain ⟨first, rfl⟩ := hobj x (List.mem_cons_self _ _)
    refine ⟨first, rest, rfl, hfirst first rfl, ?_⟩
    intro item hi
    obtain ⟨r, rfl⟩ := hobj item hi
    exact ⟨r, rfl, huniq r hi, hkeys first r rfl hi, hflat r hi⟩

theorem isTabular_specTabular {arr : List Value}
    (huniq : ∀ r, .obj r ∈ arr → (mapKeys r).Nodup) (h : isTabularArray arr = true) :
    SpecTabular arr := by
  obtain ⟨first, rest, rfl, hne, hc, hrest⟩ := isTabularArray_spec h
  have key : ∀ item ∈ Value.obj first :: rest, ∃ r, item = .obj r ∧
      (∀ k, k ∈ mapKeys r ↔ k ∈ mapKeys first) ∧ ∀ kv ∈ r, isComplexValue kv.2 = false := by
    intro item hi
    rcases List.mem_cons.mp hi with rfl | hi'
    · refine ⟨first, rfl, fun k => Iff.rfl, ?_⟩
      intro kv hkv
      have := List.any_eq_false.mp hc kv hkv
      simpa using this
    · obtain ⟨r, rfl, hcr, hlen, hsub⟩ := hrest item hi'
      refine ⟨r, rfl, keys_same_set (huniq r hi) hsub hlen, ?_⟩
      intro kv hkv
      have := List.any_eq_false.mp hcr kv hkv
      simpa using this
  refine ⟨by simp, ?_, ?_, ?_, ?_⟩
  · intro item hi
    obtain ⟨r, hr, _⟩ := key item hi
    exact ⟨r, hr⟩
  · intro f r hf hr
    simp only [List.head?_cons, Option.some.injEq, Value.obj.injEq] at hf
    subst hf
    obtain ⟨r', hr', hk, _⟩ := key _ hr
    cases hr'
    exact hk
  · intro r hr
    obtain ⟨r', hr', _, hc'⟩ := key _ hr
    cases hr'
    exact hc'
  · intro f hf
    simp only [List.head?_cons, Option.some.injEq, Value.obj.injEq] at hf
    subst hf
    exact hne

/-! ## The quoting predicate -/

theorem IsDigit_ascii_false (lib : GoLib) {c : Char} (h1 : c.toNat ≤ 0xFF)
    (h2 : isAsciiDigit c = false) : IsDigit lib c = false := by
  simp [IsDigit, h1, h2]

theorem LoopPattern_cons (lib : GoLib) (c : Char) (cs : Str) (first hasDigit hasDot : Bool) :
    LoopPattern lib (c :: cs) first hasDigit hasDot ↔
      (IsDigit lib c = true ∨ c = '.' ∨ c = '-' ∨ c = '+' ∨ c = 'e' ∨ c = 'E') ∧
      (first = false → c ≠ '-' ∧ c ≠ '+') ∧
      LoopPattern lib cs false (hasDigit || IsDigit lib c) (hasDot || decide (c = '.')) ∧
      ¬ (hasDot = true ∧ c = '.') := by
  unfold LoopPattern
  have hcount : (c :: cs).count '.' = cs.count '.' + (if c = '.' then 1 else 0) := by
    by_cases h : c = '.'
    · subst h; simp
    · rw [List.count_cons_of_ne (Ne.symm h), if_neg h]; rfl
  have hex : (∃ x ∈ c :: cs, IsDigit lib x = true) ↔
      (IsDigit lib c = true ∨ ∃ x ∈ cs, IsDigit lib x = true) := by
    simp
  have hdig : ((hasDigit || IsDigit lib c) = true ∨ ∃ x ∈ cs, IsDigit lib x = true) ↔
      (hasDigit = true ∨ ∃ x ∈ c :: cs, IsDigit lib x = true) := by
    rw [hex, Bool.or_eq_true, or_assoc]
  have hcnt : (cs.count '.' + (if (hasDot || decide (c = '.')) = true then 1 else 0) ≤ 1 ∧
      ¬ (hasDot = true ∧ c = '.')) ↔
      (c :: cs).count '.' + (if hasDot = true then 1 else 0) ≤ 1 := by
    rw [hcount]
    by_cases h : c = '.'
    · cases hasDot
      · simp [h]
      · simp [h]
    · cases hasDot
      · simp [h]
      · simp [h]
  rw [← hdig, ← hcnt, List.forall_mem_cons]
  simp only [Bool.false_eq_true, if_false]
  constructor
  · rintro ⟨⟨a, b⟩, ⟨c1, c2⟩, d, e⟩
    refine ⟨a, ?_, ⟨b, c1, ?_, e⟩, c2⟩
    · intro hf
      subst hf
      exact d c (List.mem_cons_self _ _)
    · intro x hx
      cases first
      · exact d x (List.mem_cons_of_mem _ hx)
      · exact d x hx
  · rintro ⟨a, f, ⟨b, c1, d, e⟩, c2⟩
    refine ⟨⟨a, b⟩, ⟨c1, c2⟩, ?_, e⟩
    intro x hx
    cases first
    · rcases List.mem_cons.mp hx with rfl | hx
      · exact f rfl
      · exact d x hx
    · exact d x hx

theorem isNumericLoop_spec (lib : GoLib) :
    ∀ (s : Str) (first hasDigit hasDot : Bool),
      (∃ r, isNumericLoop lib s first hasDigit hasDot = some r ∧ r.1 = true) ↔
        LoopPattern lib s first hasDigit hasDot := by
  intro s
  induction s with
  | nil =>
    intro first hasDigit hasDot
    unfold LoopPattern
    simp only [isNumericLoop, Option.some.injEq, exists_eq_left', List.not_mem_nil,
      false_implies, implies_true, List.count_nil, zero_add, List.tail_nil, ite_self,
      false_and, exists_false, or_false, true_and]
    cases hasDot <;> simp
  | cons c cs ih =>
    intro first hasDigit hasDot
    have hdot : IsDigit lib '.' = false := IsDigit_ascii_false lib (by decide) (by decide)
    have hminus : IsDigit lib '-' = false := IsDigit_ascii_false lib (by decide) (by decide)
    have hplus : IsDigit lib '+' = false := IsDigit_ascii_false lib (by decide) (by decide)
    have hnone : ∀ P : Prop, ¬ P →
        ((∃ r : Bool × Bool, (none : Option (Bool × Bool)) = some r ∧ r.1 = true) ↔ P) := by
      intro P hP
      constructor
      · rintro ⟨r, h, _⟩
        cases h
      · intro h
        exact absurd h hP
    rw [isNumericLoop, LoopPattern_cons]
    by_cases hd : IsDigit lib c = true
    · have hc1 : c ≠ '.' := by rintro rfl; rw [hdot] at hd; cases hd
      have hc2 : c ≠ '-' := by rintro rfl; rw [hminus] at hd; cases hd
      have hc3 : c ≠ '+' := by rintro rfl; rw [hplus] at hd; cases hd
      rw [if_pos hd, ih false true hasDot]
      have e1 : (hasDigit || IsDigit lib c) = true := by rw [hd]; simp
      have e2 : (hasDot || decide (c = '.')) = hasDot := by simp [hc1]
      rw [e1, e2]
      constructor
      · intro h
        exact ⟨Or.inl hd, fun _ => ⟨hc2, hc3⟩, h, fun h' => hc1 h'.2⟩
      · rintro ⟨_, _, h, _⟩
        exact h
    · rw [if_neg hd]
      have e1 : (hasDigit || IsDigit lib c) = hasDigit := by
        have : IsDigit lib c = false := by simpa using hd
        rw [this]; simp
      rw [e1]
      by_cases h1 : c = '.'
      · rw [if_pos h1]
        cases hasDot with
        | true =>
          rw [if_pos rfl]
          apply hnone
          rintro ⟨_, _, _, h⟩
          exact h ⟨rfl, h1⟩
        | false =>
          rw [if_neg Bool.false_ne_true, ih false hasDigit true]
          have e2 : (false || decide (c = '.')) = true := by simp [h1]
          rw [e2]
          constructor
          · intro h
            refine ⟨Or.inr (Or.inl h1), fun _ => ?_, h, fun h' => Bool.false_ne_true h'.1⟩
            rw [h1]
            exact ⟨by decide, by decide⟩
          · rintro ⟨_, _, h, _⟩
            exact h
      · rw [if_neg h1]
        have e2 : (hasDot || decide (c = '.')) = hasDot := by simp [h1]
        rw [e2]
        by_cases h2 : c = '-' ∨ c = '+'
        · rw [if_pos h2]
          cases first with
          | false =>
            rw [if_pos (by simp)]
            apply hnone
            rintro ⟨_, h, _⟩
            obtain ⟨h3, h4⟩ := h rfl
            rcases h2 with h2 | h2
            · exact h3 h2
            · exact h4 h2
          | true =>
            rw [if_neg (by simp), ih false hasDigit hasDot]
            constructor
            · intro h
              refine ⟨?_, fun h' => Bool.noConfusion h', h, fun h' => h1 h'.2⟩
              rcases h2 with h2 | h2
              · exact Or.inr (Or.inr (Or.inl h2))
              · exact Or.inr (Or.inr (Or.inr (Or.inl h2)))
            · rintro ⟨_, _, h, _⟩
              exact h
        · rw [if_neg h2]
          have h2' : c ≠ '-' ∧ c ≠ '+' :=
            ⟨fun h => h2 (Or.inl h), fun h => h2 (Or.inr h)⟩
          by_cases h3 : c = 'e' ∨ c = 'E'
          · rw [if_pos h3, ih false hasDigit hasDot]
            constructor
            · intro h
              refine ⟨?_, fun _ => h2', h, fun h' => h1 h'.2⟩
              rcases h3 with h3 | h3
              · exact Or.inr (Or.inr (Or.inr (Or.inr (Or.inl h3))))
              · exact Or.inr (Or.inr (Or.inr (Or.inr (Or.inr h3))))
            · rintro ⟨_, _, h, _⟩
              exact h
          · rw [if_neg h3]
            apply hnone
            rintro ⟨h, _⟩
            rcases h with h | h | h | h | h | h
            · exact hd h
            · exact h1 h
            · exact h2 (Or.inl h)
            · exact h2 (Or.inr h)
            · exact h3 (Or.inl h)
            · exact h3 (Or.inr h)

theorem isNumeric_spec (lib : GoLib) (s : Str) :
    isNumeric lib s = true ↔ NumericPattern lib s := by
  have h := isNumericLoop_spec lib s true false false
  unfold LoopPattern at h
  simp only [Bool.false_eq_true, if_false, if_true, Nat.add_zero, false_or] at h
  unfold NumericPattern
  rw [← h]
  unfold isNumeric
  by_cases hs : s = []
  · subst hs
    simp [isNumericLoop]
  · rw [if_neg hs]
    cases hl : isNumericLoop lib s true false false with
    | none => simp
    | some r =>
      obtain ⟨a, b⟩ := r
      simp

theorem HasPrefix_space (s : Str) : HasPrefix s [' '] = true ↔ s.head? = some ' ' := by
  cases s with
  | nil => simp [HasPrefix, List.isPrefixOf]
  | cons c cs =>
    simp only [HasPrefix, List.isPrefixOf, List.head?_cons, Bool.and_true, beq_iff_eq,
      Option.some.injEq]
    exact eq_comm

theorem HasSuffix_space (s : Str) : HasSuffix s [' '] = true ↔ s.getLast? = some ' ' := by
  unfold HasSuffix
  rw [List.isSuffixOf_iff_suffix]
  constructor
  · rintro ⟨t, rfl⟩
    simp
  · intro h
    obtain ⟨t, rfl⟩ := List.getLast?_eq_some_iff.mp h
    exact ⟨t, rfl⟩

theorem parseDigits_digits : ∀ (s : Str) (acc v : Nat), parseDigits s acc = some v →
    ∀ c ∈ s, isAsciiDigit c = true := by
  intro s
  induction s with
  | nil => intro _ _ _ c hc; cases hc
  | cons d ds ih =>
    intro acc v h c hc
    rw [parseDigits] at h
    by_cases hd : isAsciiDigit d = true
    · rw [if_pos hd] at h
      rcases List.mem_cons.mp hc with rfl | hc
      · exact hd
      · exact ih _ _ h c hc
    · rw [if_neg hd] at h
      cases h

theorem parseMagnitude_digits {s : Str} {v : Nat} (h : parseMagnitude s = some v) :
    s ≠ [] ∧ ∀ c ∈ s, isAsciiDigit c = true := by
  unfold parseMagnitude at h
  by_cases hs : s = []
  · rw [if_pos hs] at h; cases h
  · rw [if_neg hs] at h
    exact ⟨hs, parseDigits_digits s 0 v h⟩

theorem IsDigit_of_ascii (lib : GoLib) {c : Char} (h : isAsciiDigit c = true) :
    IsDigit lib c = true := by
  have := asciiDigit_range h
  unfold IsDigit
  rw [if_pos (by omega)]
  exact h

/-- The texts `ParseInt` accepts: an optional sign and a non-empty run of digits. -/
theorem ParseInt_shape {s : Str} {n : Int} (h : ParseInt s = some n) :
    ∃ sign digits, s = sign ++ digits ∧ (sign = [] ∨ sign = ['+'] ∨ sign = ['-']) ∧
      digits ≠ [] ∧ ∀ c ∈ digits, isAsciiDigit c = true := by
  unfold ParseInt at h
  split at h
  · cases h
  · rename_i t
    cases hm : parseMagnitude t with
    | none => rw [hm] at h; cases h
    | some un =>
      obtain ⟨h1, h2⟩ := parseMagnitude_digits hm
      exact ⟨['+'], t, rfl, Or.inr (Or.inl rfl), h1, h2⟩
  · rename_i t
    cases hm : parseMagnitude t with
    | none => rw [hm] at h; cases h
    | some un =>
      obtain ⟨h1, h2⟩ := parseMagnitude_digits hm
      exact ⟨['-'], t, rfl, Or.inr (Or.inr rfl), h1, h2⟩
  · rename_i c t _ _
    cases hm : parseMagnitude (c :: t) with
    | none => rw [hm] at h; cases h
    | some un =>
      obtain ⟨h1, h2⟩ := parseMagnitude_digits hm
      exact ⟨[], c :: t, rfl, Or.inl rfl, h1, h2⟩

theorem ParseInt_numeric (lib : GoLib) {s : Str} {n : Int} (h : ParseInt s = some n) :
    NumericPattern lib s := by
  obtain ⟨sign, digits, rfl, hsign, hne, hdig⟩ := ParseInt_shape h
  have hd : ∀ c ∈ digits, IsDigit lib c = true := fun c hc => IsDigit_of_ascii lib (hdig c hc)
  have hnodot : '.' ∉ digits := fun hc => absurd (hdig _ hc) (by decide)
  have hnosign : ∀ c ∈ digits, c ≠ '-' ∧ c ≠ '+' := by
    intro c hc
    constructor
    · rintro rfl; exact absurd (hdig _ hc) (by decide)
    · rintro rfl; exact absurd (hdig _ hc) (by decide)
  obtain ⟨d, ds, rfl⟩ := List.exists_cons_of_ne_nil hne
  have hex : ∃ c ∈ sign ++ d :: ds, IsDigit lib c = true :=
    ⟨d, by simp, hd d (List.mem_cons_self _ _)⟩
  rcases hsign with rfl | rfl | rfl
  · refine ⟨fun c hc => Or.inl (hd c hc), ?_, ?_, hex⟩
    · rw [List.nil_append, List.count_eq_zero_of_not_mem hnodot]
      omega
    · intro c hc
      exact hnosign c (List.mem_cons_of_mem _ hc)
  · refine ⟨?_, ?_, ?_, hex⟩
    · intro c hc
      rcases List.mem_cons.mp hc with rfl | hc
      · exact Or.inr (Or.inr (Or.inr (Or.inl rfl)))
      · exact Or.inl (hd c hc)
    · have h0 : List.count '.' ['+'] = 0 := by decide
      rw [List.count_append, h0, List.count_eq_zero_of_not_mem hnodot]
      omega
    · intro c hc
      exact hnosign c hc
  · refine ⟨?_, ?_, ?_, hex⟩
    · intro c hc
      rcases List.mem_cons.mp hc with rfl | hc
      · exact Or.inr (Or.inr (Or.inl rfl))
      · exact Or.inl (hd c hc)
    · have h0 : List.count '.' ['-'] = 0 := by decide
      rw [List.count_append, h0, List.count_eq_zero_of_not_mem hnodot]
      omega
    · intro c hc
      exact hnosign c hc

/-! ## Integer destinations -/

theorem truncInt_spec (k : Decoder.IntKind) (n : Int) :
    Decoder.truncInt k.bits n = n ↔ -2 ^ (k.bits - 1) ≤ n ∧ n < 2 ^ (k.bits - 1) := by
  unfold Decoder.truncInt
  cases k <;> simp only [Decoder.IntKind.bits] <;> norm_num <;> omega

theorem truncUint_spec (k : Decoder.UintKind) (n : Int) (h : isInt64 n) :
    ((Decoder.truncUint k.bits (Decoder.int64ToUint64 n) : Nat) : Int) = n ↔
      0 ≤ n ∧ n < 2 ^ k.bits := by
  unfold Decoder.truncUint Decoder.int64ToUint64
  obtain ⟨h1, h2⟩ := h
  have h3 : (0 : Int) ≤ n % 2 ^ 64 := Int.emod_nonneg _ (by norm_num)
  rw [Int.natCast_mod, Int.toNat_of_nonneg h3]
  cases k <;> simp only [Decoder.UintKind.bits] <;> norm_num <;> omega

theorem assign_int_kind (lib : GoLib) (conv : Decoder.GoConv) (opts : DecodeOptions)
    (n : Int) (h : isInt64 n) (k : Decoder.IntKind) (content : Decoder.GoVal) :
    Decoder.assignValue lib conv opts (.int n) (.pointer (.Int k) content) =
      (.pointer (.Int k) (.int (Decoder.truncInt k.bits n)), .ok ()) := by
  have h64 : Decoder.truncInt 64 n = n := by
    have := (truncInt_spec .Int64 n).mpr (by
      simp only [Decoder.IntKind.bits]; exact h)
    exact this
  cases k <;>
    simp only [Decoder.assignValue, Decoder.ValueOf, Decoder.GoType.depth,
      Decoder.assignReflectValue, Decoder.AssignableTo, Decoder.assignInt, Decoder.ofValue,
      Decoder.Src.value, Decoder.IntKind.bits, h64, if_true, if_false, Bool.false_eq_true]

theorem assign_uint_kind (lib : GoLib) (conv : Decoder.GoConv) (opts : DecodeOptions)
    (n : Int) (k : Decoder.UintKind) (content : Decoder.GoVal) :
    Decoder.assignValue lib conv opts (.int n) (.pointer (.Uint k) content) =
      (.pointer (.Uint k) (.uint (Decoder.truncUint k.bits (Decoder.int64ToUint64 n))),
        .ok ()) := by
  cases k <;>
    simp only [Decoder.assignValue, Decoder.ValueOf, Decoder.GoType.depth,
      Decoder.assignReflectValue, Decoder.AssignableTo, Decoder.assignUint,
      Decoder.UintKind.bits, if_false, Bool.false_eq_true]

/-- Decoding a parsed integer into a signed integer destination stores the integer
reduced to the width of the kind. -/
theorem Decode_int_truncates (lib : GoLib) (conv : Decoder.GoConv) (opts : DecodeOptions)
    (data : Str) (n : Int) (content : Decoder.GoVal) (hn : isInt64 n)
    (hparse : Parse lib data opts = .ok (.int n)) (k : Decoder.IntKind) :
    Decoder.Decode lib conv opts data (.pointer (.Int k) content) =
      (.pointer (.Int k) (.int (Decoder.truncInt k.bits n)), .ok ()) := by
  unfold Decoder.Decode
  rw [hparse]
  exact assign_int_kind lib conv opts n hn k content

/-- Decoding a parsed integer into an unsigned integer destination stores the integer
modulo the width of the kind. -/
theorem Decode_uint_truncates (lib : GoLib) (conv : Decoder.GoConv) (opts : DecodeOptions)
    (data : Str) (n : Int) (content : Decoder.GoVal)
    (hparse : Parse lib data opts = .ok (.int n)) (k : Decoder.UintKind) :
    Decoder.Decode lib conv opts data (.pointer (.Uint k) content) =
      (.pointer (.Uint k) (.uint (Decoder.truncUint k.bits (Decoder.int64ToUint64 n))),
        .ok ()) := by
  unfold Decoder.Decode
  rw [hparse]
  exact assign_uint_kind lib conv opts n k content

/-- On a pointer to `interface{}` the decoder on typed destinations stores what the
two-destination form of `Decode` returns. -/
theorem Decode_interface_agrees (lib : GoLib) (conv : Decoder.GoConv) (opts : DecodeOptions)
    (data : Str) (content : Decoder.GoVal) (v : Value)
    (h : Decoder_Decode lib opts data .Interface = .ok v) :
    Decoder.Decode lib conv opts data (.pointer .Interface content) =
      (.pointer .Interface (.dyn v), .ok ()) := by
  unfold Decoder_Decode at h
  unfold Decoder.Decode
  cases hp : Parse lib data opts with
  | ok parsed =>
    rw [hp] at h
    simp only [] at h ⊢
    cases parsed <;>
      simp only [assignReflectValue, Res.ok.injEq] at h <;>
      subst h <;> rfl
  | error e => rw [hp] at h; cases h
  | panic => rw [hp] at h; cases h
  | outOfFuel => rw [hp] at h; cases h
/-! ## The empty text, the first line, and runs of list items -/

theorem TrimSpace_allSpace {s : Str} (h : allSpace s) : TrimSpace s = [] := by
  unfold TrimSpace
  have : s.dropWhile IsSpace = [] := by
    rw [List.dropWhile_eq_nil_iff]
    exact h
  rw [this]
  rfl

theorem Split_ne_nil (s : Str) (sep : Char) : Split s sep ≠ [] := by
  unfold Split
  rw [List.splitOn]
  exact List.splitOnP_ne_nil _ _

theorem parsePrimitive_not_obj (lib : GoLib) (t : Str) (m : List (Str × Value)) :
    parsePrimitive lib t ≠ .obj m := by
  unfold parsePrimitive
  simp only []
  split
  · simp
  · split
    · simp
    · split
      · simp
      · split
        · simp
        · split
          · simp
          · split <;> simp

theorem parseArrayItems_arr (lib : GoLib) (opts : DecodeOptions) :
    ∀ (fuel : Nat) (p : parser) (indent : Int) (items : List Value) (v : Value) (p' : parser),
      parseArrayItems lib opts fuel p indent items = .ok (v, p') → ∃ l, v = .arr l := by
  intro fuel
  induction fuel with
  | zero =>
    intro p indent items v p' h
    rw [parseArrayItems] at h
    cases h
  | succ fuel ih =>
    intro p indent items v p' h
    rw [parseArrayItems] at h
    split at h
    · cases h; exact ⟨_, rfl⟩
    · simp only [] at h
      split at h
      · cases h; exact ⟨_, rfl⟩
      · split at h
        · split at h
          · split at h
            · split at h
              · exact ih _ _ _ _ _ h
              · cases h
              · cases h
              · cases h
            · exact ih _ _ _ _ _ h
          · cases h; exact ⟨_, rfl⟩
        · cases h; exact ⟨_, rfl⟩

theorem parseValueLoop_not_empty (lib : GoLib) (opts : DecodeOptions) :
    ∀ (fuel : Nat) (p : parser) (indent : Int) (result : List (Str × Value)) (v : Value)
      (p' : parser),
      parseValueLoop lib opts fuel p indent result = .ok (v, p') → v ≠ .obj [] := by
  intro fuel
  induction fuel with
  | zero =>
    intro p indent result v p' h
    rw [parseValueLoop] at h
    cases h
  | succ fuel ih =>
    intro p indent result v p' h
    rw [parseValueLoop] at h
    have hexit : ∀ q : parser, (if result.length = 0 then (Res.ok (Value.null, q) : Res (Value × parser))
        else .ok (.obj result, q)) = .ok (v, p') → v ≠ .obj [] := by
      intro q hq
      split at hq
      · cases hq; simp
      · rename_i hr
        cases hq
        intro he
        apply hr
        cases he
        rfl
    split at h
    · exact hexit _ h
    · simp only [] at h
      split at h
      · exact ih _ _ _ _ _ h
      · split at h
        · exact hexit _ h
        · split at h
          · cases h
          · split at h
            · split at h
              · split at h
                · exact ih _ _ _ _ _ h
                · cases h
                · cases h
                · cases h
              · exact ih _ _ _ _ _ h
            · split at h
              · obtain ⟨l, hl⟩ := parseArrayItems_arr lib opts _ _ _ _ _ _ h
                rw [hl]; simp
              · cases h
                exact parsePrimitive_not_obj lib _ _

/-- Trailing white space is dropped from the last part only, when that part holds a
character that is not white space. -/
theorem rdropWhile_append_right (x : Str) {r : Str} (h : ∃ c ∈ r, IsSpace c = false) :
    (x ++ r).rdropWhile IsSpace = x ++ r.rdropWhile IsSpace := by
  induction r using List.reverseRecOn with
  | nil =>
    obtain ⟨c, hc, _⟩ := h
    cases hc
  | append_singleton r y ih =>
    by_cases hy : IsSpace y = true
    · rw [← List.append_assoc, List.rdropWhile_concat_pos _ _ _ hy,
        List.rdropWhile_concat_pos _ _ _ hy]
      apply ih
      obtain ⟨c, hc, hcs⟩ := h
      rcases List.mem_append.mp hc with hc | hc
      · exact ⟨c, hc, hcs⟩
      · simp only [List.mem_singleton] at hc
        rw [hc, hy] at hcs
        cases hcs
    · rw [← List.append_assoc, List.rdropWhile_concat_neg _ _ _ hy,
        List.rdropWhile_concat_neg _ _ _ hy, List.append_assoc]

theorem TrimSpace_nil_allSpace {s : Str} (h : TrimSpace s = []) : allSpace s := by
  intro c hc
  by_contra hcs
  have hcs' : IsSpace c = false := by simpa using hcs
  have hd : s.dropWhile IsSpace ≠ [] := by
    intro h0
    rw [List.dropWhile_eq_nil_iff] at h0
    rw [h0 c hc] at hcs'
    cases hcs'
  have hhead := List.head_dropWhile_not IsSpace s hd
  obtain ⟨d, r, hdr⟩ := List.exists_cons_of_ne_nil hd
  have hex : ∃ c ∈ s.dropWhile IsSpace, IsSpace c = false := by
    refine ⟨d, by rw [hdr]; exact List.mem_cons_self _ _, ?_⟩
    simp only [hdr, List.head_cons] at hhead
    simpa using hhead
  have := rdropWhile_append_right [] hex
  simp only [List.nil_append] at this
  unfold TrimSpace at h
  obtain ⟨e, he, hes⟩ := hex
  have hne : (s.dropWhile IsSpace).rdropWhile IsSpace ≠ [] := by
    intro h1
    have hall : ∀ x ∈ s.dropWhile IsSpace, IsSpace x = true := by
      rw [List.rdropWhile_eq_nil_iff] at h1
      exact h1
    rw [hall e he] at hes
    cases hes
  exact hne h

/-- The first line of the text `s`, a line feed, `r`, as `Parse` cuts it: its trimmed
form is the trimmed form of `s`, and it starts in column 0. -/
theorem first_line_of_text {s : Str} (r : Str) (hnl : '\n' ∉ s) (hne : TrimSpace s ≠ []) :
    ∃ l1 rest, Split (TrimSpace (s ++ '\n' :: r)) '\n' = l1 :: rest ∧
      TrimSpace l1 = TrimSpace s ∧ CountIndent l1 = 0 := by
  obtain ⟨hcore, a, b, ha, hb, hdec⟩ := trim_decomp s hne
  have hnlc : ∀ x ∈ TrimSpace s ++ b, ¬ ((x == '\n') = true) := by
    intro x hx
    have hxs : x ∈ s := by
      rw [hdec]
      rcases List.mem_append.mp hx with h | h
      · exact List.mem_append_left _ (List.mem_append_right _ h)
      · exact List.mem_append_right _ h
    intro he
    have : x = '\n' := by simpa using he
    exact hnl (this ▸ hxs)
  have hinput : s ++ '\n' :: r = a ++ (TrimSpace s ++ (b ++ '\n' :: r)) := by
    conv_lhs => rw [hdec]
    simp
  have hdrop : (s ++ '\n' :: r).dropWhile IsSpace = TrimSpace s ++ (b ++ '\n' :: r) := by
    rw [hinput]
    apply dropWhile_allSpace_append ha
    obtain ⟨c, t, hct, hc⟩ := hcore.1
    exact ⟨c, t ++ (b ++ '\n' :: r), by rw [hct]; rfl, hc⟩
  have hci : ∀ t : Str, CountIndent (TrimSpace s ++ t) = 0 := by
    intro t
    obtain ⟨c, u, hcu, hc⟩ := core_head_ne_space hcore
    rw [hcu]
    exact CountIndent_replicate 0 (u ++ t) hc
  by_cases hr : ∃ c ∈ r, IsSpace c = false
  · have hT : TrimSpace (s ++ '\n' :: r) =
        (TrimSpace s ++ b) ++ '\n' :: r.rdropWhile IsSpace := by
      unfold TrimSpace at hdrop ⊢
      rw [hdrop]
      have e : (s.dropWhile IsSpace).rdropWhile IsSpace ++ (b ++ '\n' :: r) =
          ((s.dropWhile IsSpace).rdropWhile IsSpace ++ b ++ ['\n']) ++ r := by simp
      rw [e, rdropWhile_append_right _ hr]
      simp
    refine ⟨TrimSpace s ++ b, Split (r.rdropWhile IsSpace) '\n', ?_, ?_, hci b⟩
    · rw [hT]
      unfold Split
      rw [List.splitOn, List.splitOn]
      exact List.splitOnP_first (fun x => x == '\n') (TrimSpace s ++ b) hnlc '\n'
        (by simp) _
    · have := TrimSpace_core (a := []) (fun _ h => by cases h) hb hcore
      simpa using this
  · have hall : allSpace (b ++ '\n' :: r) := by
      intro c hc
      rcases List.mem_append.mp hc with h | h
      · exact hb c h
      · rcases List.mem_cons.mp h with rfl | h
        · decide
        · by_contra hcs
          exact hr ⟨c, h, by simpa using hcs⟩
    have hT : TrimSpace (s ++ '\n' :: r) = TrimSpace s := by
      have := TrimSpace_core ha hall hcore
      rw [hinput]
      simpa [List.append_assoc] using this
    refine ⟨TrimSpace s, [], ?_, TrimSpace_idem s, ?_⟩
    · rw [hT]
      unfold Split
      rw [List.splitOn]
      exact List.splitOnP_eq_single (fun x => x == '\n') (TrimSpace s)
        (fun x hx => hnlc x (List.mem_append_left _ hx))
    · have := hci []
      simpa using this

/-- The item text of a dash line is never empty: the trimmed line ends with a character
that is not white space, and that character stands behind the dash and the space. -/
theorem dash_item_nonempty {l : Str} (h : HasPrefix (TrimSpace l) ['-', ' '] = true) :
    TrimSpace ((TrimSpace l).drop 2) ≠ [] := by
  have hne : TrimSpace l ≠ [] := by
    intro h0
    rw [h0] at h
    cases h
  obtain ⟨_, r, c, hrc, hc⟩ := (trim_decomp l hne).1
  unfold HasPrefix at h
  rw [List.isPrefixOf_iff_prefix] at h
  obtain ⟨u, hu⟩ := h
  rw [← hu]
  simp only [List.cons_append, List.nil_append, List.drop_succ_cons, List.drop_zero]
  intro h0
  have hall := TrimSpace_nil_allSpace h0
  rw [← hu] at hrc
  cases u using List.reverseRecOn with
  | nil =>
    have : r ++ [c] = ['-'] ++ [' '] := by simpa using hrc.symm
    have hc' := (List.append_inj' this rfl).2
    simp only [List.cons.injEq, and_true] at hc'
    rw [hc'] at hc
    exact absurd hc (by decide)
  | append_singleton u y _ =>
    have : r ++ [c] = ('-' :: ' ' :: u) ++ [y] := by simpa using hrc.symm
    have hc' := (List.append_inj' this rfl).2
    simp only [List.cons.injEq, and_true] at hc'
    have hy := hall y (by simp)
    rw [← hc', hc] at hy
    cases hy

/-- The loop of `parseArrayItems` over a run of dash lines that ends at a line of
another kind, or at the end of the text. -/
theorem parseArrayItems_run (lib : GoLib) (opts : DecodeOptions) (indent : Int)
    (rest : List Str) (hrest : ∀ l, rest.head? = some l → ¬ DashLine indent l) :
    ∀ (dashes : List Str) (fuel pos : Nat) (items : List Value),
      (∀ l ∈ dashes, DashLine indent l) →
      parseArrayItems lib opts (fuel + dashes.length + 1)
          { rest := dashes ++ rest, pos := pos } indent items =
        .ok (.arr (items ++ dashes.map fun l => parsePrimitive lib ((TrimSpace l).drop 2)),
          { rest := rest, pos := pos + dashes.length }) := by
  intro dashes
  induction dashes with
  | nil =>
    intro fuel pos items _
    simp only [List.nil_append, List.length_nil, Nat.add_zero, List.map_nil, List.append_nil]
    rw [parseArrayItems]
    cases rest with
    | nil => rfl
    | cons l rest =>
      have hl := hrest l rfl
      unfold DashLine at hl
      simp only []
      by_cases h1 : (CountIndent l : Int) < indent
      · rw [if_pos h1]
      · rw [if_neg h1]
        by_cases h2 : (CountIndent l : Int) = indent
        · rw [if_pos h2]
          have h3 : ¬ HasPrefix (TrimSpace l) ['-', ' '] = true := fun h => hl ⟨h2, h⟩
          rw [if_neg h3]
        · rw [if_neg h2]
  | cons d dashes ih =>
    intro fuel pos items hd
    obtain ⟨h1, h2⟩ := hd d (List.mem_cons_self _ _)
    have e : fuel + (d :: dashes).length + 1 = (fuel + dashes.length + 1) + 1 := by
      simp only [List.length_cons]; omega
    rw [e, List.cons_append, parseArrayItems]
    simp only [h1, lt_irrefl, if_false, if_true, h2, dash_item_nonempty h2, parser.advance,
      List.tail_cons]
    rw [ih fuel (pos + 1) _ (fun l hl => hd l (List.mem_cons_of_mem _ hl))]
    simp only [List.map_cons, List.append_assoc, List.singleton_append, List.length_cons,
      parsePrimitive_TrimSpace]
    congr 3
    omega

/-! ## Termination of the parser -/

theorem indentLines_ok (opts : EncodeOptions) (hpad : 0 ≤ opts.Indent) (lines : List Str) :
    indentLines opts lines =
      .ok (lines.map fun l => List.replicate opts.Indent.toNat ' ' ++ l) := by
  induction lines with
  | nil => rfl
  | cons l ls ih =>
    simp only [indentLines, Repeat, if_neg (not_lt.mpr hpad), ih, List.map_cons]

theorem indentLines_noError (opts : EncodeOptions) (lines : List Str) :
    (indentLines opts lines).noError := by
  induction lines with
  | nil => trivial
  | cons l ls ih =>
    simp only [indentLines]
    split
    · trivial
    · split
      · trivial
      · rename_i h; rw [h] at ih; exact ih
      · trivial
      · rename_i h; rw [h] at ih; exact ih

theorem encodeTabularArray_noError (lib : GoLib) (opts : EncodeOptions) {arr : List Value}
    (depth : Int) (h : isTabularArray arr = true) :
    (encodeTabularArray lib opts arr depth).noError := by
  obtain ⟨first, rest, rfl, _⟩ := isTabularArray_spec h
  cases hR : Repeat (wrapInt (depth * opts.Indent)) with
  | none => simp only [encodeTabularArray, hR]; trivial
  | some indent =>
    rw [encodeTabularArray_eq lib opts depth (isTabularArray_flat h) hR]; trivial


theorem noError_lift {r : Res (List Str)} (f : List Str → Res (List Str)) :
    r.noError → (∀ x, (f x).noError) →
    (match r with
      | .ok x => f x
      | .error e => .error e
      | .panic => .panic
      | .outOfFuel => .outOfFuel : Res (List Str)).noError := by
  intro h hf
  cases r with
  | ok x => exact hf x
  | error e => exact h
  | panic => trivial
  | outOfFuel => exact h

theorem noError_here (opts : EncodeOptions) (one : Str → List Str) (head : Str)
    (valueLines : List Str) (c : Bool) :
    (match valueLines, c with
      | [single], false => .ok (one single)
      | _, _ =>
        match indentLines opts valueLines with
        | .ok nested => .ok (head :: nested)
        | .error e => .error e
        | .panic => .panic
        | .outOfFuel => .outOfFuel : Res (List Str)).noError := by
  split
  · trivial
  · exact noError_lift (fun nested => .ok (head :: nested)) (indentLines_noError opts valueLines)
      (fun _ => trivial)

mutual
theorem encodeValue_noError (lib : GoLib) (opts : EncodeOptions) :
    ∀ (v : Value) (depth : Int), (encodeValue lib opts v depth).noError
  | .null, _ => trivial
  | .bool _, _ => trivial
  | .int _, _ => trivial
  | .float _, _ => trivial
  | .str _, _ => trivial
  | .obj [], _ => by rw [encodeValue]; trivial
  | .obj (kv :: rest), depth => by
    rw [encodeValue]
    split
    · trivial
    · exact encodeObjectLoop_noError lib opts _ (kv :: rest) depth
  | .arr [], _ => by rw [encodeValue]; trivial
  | .arr (x :: rest), depth => by
    rw [encodeValue]
    split
    · rename_i h; exact encodeTabularArray_noError lib opts depth h
    · split
      · trivial
      · exact encodeArrayLoop_noError lib opts _ (x :: rest) depth
theorem encodeObjectLoop_noError (lib : GoLib) (opts : EncodeOptions) (indent : Str) :
    ∀ (fields : List (Str × Value)) (depth : Int),
      (encodeObjectLoop lib opts indent fields depth).noError
  | [], _ => by rw [encodeObjectLoop]; trivial
  | (key, value) :: rest, depth => by
    have hv := encodeValue_noError lib opts value (wrapInt (depth + 1))
    have hr := encodeObjectLoop_noError lib opts indent rest depth
    rw [encodeObjectLoop]
    refine noError_lift _ hv fun valueLines => ?_
    refine noError_lift _ (noError_here opts (fun single => [indent ++ key ++ ": ".toList ++ single])
      (indent ++ key ++ [':']) valueLines (isComplexValue value)) fun lines => ?_
    exact noError_lift (fun more => .ok (lines ++ more)) hr fun _ => trivial
theorem encodeArrayLoop_noError (lib : GoLib) (opts : EncodeOptions) (indent : Str) :
    ∀ (items : List Value) (depth : Int),
      (encodeArrayLoop lib opts indent items depth).noError
  | [], _ => by rw [encodeArrayLoop]; trivial
  | item :: rest, depth => by
    have hv := encodeValue_noError lib opts item (wrapInt (depth + 1))
    have hr := encodeArrayLoop_noError lib opts indent rest depth
    rw [encodeArrayLoop]
    refine noError_lift _ hv fun itemLines => ?_
    refine noError_lift _ (noError_here opts (fun single => [indent ++ "- ".toList ++ single])
      (indent ++ ['-']) itemLines (isComplexValue item)) fun lines => ?_
    exact noError_lift (fun more => .ok (lines ++ more)) hr fun _ => trivial
end

theorem succeeds_iff {α : Type} {r : Res α} : r.succeeds ↔ ∃ x, r = .ok x := by
  cases r with
  | ok x => exact ⟨fun _ => ⟨x, rfl⟩, fun _ => trivial⟩
  | error e => exact ⟨fun h => absurd h id, fun ⟨_, h⟩ => by cases h⟩
  | panic => exact ⟨fun h => absurd h id, fun ⟨_, h⟩ => by cases h⟩
  | outOfFuel => exact ⟨fun h => absurd h id, fun ⟨_, h⟩ => by cases h⟩

theorem succeeds_lift {r : Res (List Str)} (f : List Str → Res (List Str)) :
    r.succeeds → (∀ x, (f x).succeeds) →
    (match r with
      | .ok x => f x
      | .error e => .error e
      | .panic => .panic
      | .outOfFuel => .outOfFuel : Res (List Str)).succeeds := by
  intro h hf
  cases r with
  | ok x => exact hf x
  | error e => exact h
  | panic => exact h
  | outOfFuel => exact h

theorem succeeds_here (opts : EncodeOptions) (hpad : 0 ≤ opts.Indent) (one : Str → List Str)
    (head : Str) (valueLines : List Str) (c : Bool) :
    (match valueLines, c with
      | [single], false => .ok (one single)
      | _, _ =>
        match indentLines opts valueLines with
        | .ok nested => .ok (head :: nested)
        | .error e => .error e
        | .panic => .panic
        | .outOfFuel => .outOfFuel : Res (List Str)).succeeds := by
  split
  · trivial
  · rw [indentLines_ok opts hpad]; trivial

theorem Repeat_fits {opts : EncodeOptions} {B depth : Int} (hpad : 0 ≤ opts.Indent)
    (hfit : B * opts.Indent < 2 ^ 63) (h0 : 0 ≤ depth) (hlt : depth < B) :
    Repeat (wrapInt (depth * opts.Indent)) =
      some (List.replicate (depth * opts.Indent).toNat ' ') := by
  have h1 : 0 ≤ depth * opts.Indent := Int.mul_nonneg h0 hpad
  have h2 : depth * opts.Indent ≤ B * opts.Indent :=
    Int.mul_le_mul_of_nonneg_right (le_of_lt hlt) hpad
  rw [wrapInt_of_range (by omega) (by omega), Repeat, if_neg (not_lt.mpr h1)]

mutual
theorem encodeValue_succeeds (lib : GoLib) (opts : EncodeOptions) (hpad : 0 ≤ opts.Indent)
    (B : Int) (hB : B < 2 ^ 63) (hfit : B * opts.Indent < 2 ^ 63) :
    ∀ (v : Value) (depth : Int), 0 ≤ depth → depth + (Value.height v : Int) ≤ B →
      (encodeValue lib opts v depth).succeeds
  | .null, _, _, _ => trivial
  | .bool _, _, _, _ => trivial
  | .int _, _, _, _ => trivial
  | .float _, _, _, _ => trivial
  | .str _, _, _, _ => trivial
  | .obj [], _, _, _ => by rw [encodeValue]; trivial
  | .obj (kv :: rest), depth, h0, hh => by
    rw [Value.height] at hh
    rw [encodeValue]
    simp only [Repeat_fits hpad hfit h0 (by push_cast at hh; omega)]
    exact encodeObjectLoop_succeeds lib opts hpad B hB hfit _ (kv :: rest) depth h0
      (by push_cast at hh; omega)
  | .arr [], _, _, _ => by rw [encodeValue]; trivial
  | .arr (x :: rest), depth, h0, hh => by
    rw [Value.height] at hh
    have hR := Repeat_fits hpad hfit h0 (show depth < B by push_cast at hh; omega)
    rw [encodeValue]
    split
    · rename_i h
      obtain ⟨first, rest', harr, _⟩ := isTabularArray_spec h
      rw [harr] at h ⊢
      rw [encodeTabularArray_eq lib opts depth (isTabularArray_flat h) hR]; trivial
    · simp only [hR]
      exact encodeArrayLoop_succeeds lib opts hpad B hB hfit _ (x :: rest) depth h0
        (by push_cast at hh; omega)
theorem encodeObjectLoop_succeeds (lib : GoLib) (opts : EncodeOptions) (hpad : 0 ≤ opts.Indent)
    (B : Int) (hB : B < 2 ^ 63) (hfit : B * opts.Indent < 2 ^ 63) (indent : Str) :
    ∀ (fields : List (Str × Value)) (depth : Int), 0 ≤ depth →
      depth + 1 + (Value.heightFields fields : Int) ≤ B →
      (encodeObjectLoop lib opts indent fields depth).succeeds
  | [], _, _, _ => by rw [encodeObjectLoop]; trivial
  | (key, value) :: rest, depth, h0, hh => by
    rw [Value.heightFields] at hh
    have hw : wrapInt (depth + 1) = depth + 1 := wrapInt_of_range (by omega) (by omega)
    have hv := encodeValue_succeeds lib opts hpad B hB hfit value (depth + 1) (by omega)
      (by push_cast at hh; omega)
    have hr := encodeObjectLoop_succeeds lib opts hpad B hB hfit indent rest depth h0
      (by push_cast at hh; omega)
    rw [encodeObjectLoop, hw]
    refine succeeds_lift _ hv fun valueLines => ?_
    refine succeeds_lift _ (succeeds_here opts hpad
      (fun single => [indent ++ key ++ ": ".toList ++ single])
      (indent ++ key ++ [':']) valueLines (isComplexValue value)) fun lines => ?_
    exact succeeds_lift (fun more => .ok (lines ++ more)) hr fun _ => trivial
theorem encodeArrayLoop_succeeds (lib : GoLib) (opts : EncodeOptions) (hpad : 0 ≤ opts.Indent)
    (B : Int) (hB : B < 2 ^ 63) (hfit : B * opts.Indent < 2 ^ 63) (indent : Str) :
    ∀ (items : List Value) (depth : Int), 0 ≤ depth →
      depth + 1 + (Value.heightItems items : Int) ≤ B →
      (encodeArrayLoop lib opts indent items depth).succeeds
  | [], _, _, _ => by rw [encodeArrayLoop]; trivial
  | item :: rest, depth, h0, hh => by
    rw [Value.heightItems] at hh
    have hw : wrapInt (depth + 1) = depth + 1 := wrapInt_of_range (by omega) (by omega)
    have hv := encodeValue_succeeds lib opts hpad B hB hfit item (depth + 1) (by omega)
      (by push_cast at hh; omega)
    have hr := encodeArrayLoop_succeeds lib opts hpad B hB hfit indent rest depth h0
      (by push_cast at hh; omega)
    rw [encodeArrayLoop, hw]
    refine succeeds_lift _ hv fun itemLines => ?_
    refine succeeds_lift _ (succeeds_here opts hpad
      (fun single => [indent ++ "- ".toList ++ single])
      (indent ++ ['-']) itemLines (isComplexValue item)) fun lines => ?_
    exact succeeds_lift (fun more => .ok (lines ++ more)) hr fun _ => trivial
end

/-! ## Independence of the key order -/

theorem SameValue_scalar_eq {v w : Value} (h : isComplexValue v = false)
    (hs : SameValue v w) : w = v := by
  cases v with
  | null => simp only [SameValue] at hs; exact hs.symm
  | bool b => simp only [SameValue] at hs; exact hs.symm
  | int n => simp only [SameValue] at hs; exact hs.symm
  | float f => simp only [SameValue] at hs; exact hs.symm
  | str s => simp only [SameValue] at hs; exact hs.symm
  | obj o => simp [isComplexValue] at h
  | arr a => simp [isComplexValue] at h

theorem SameFields_flat_eq :
    ∀ (r c : List (Str × Value)), (∀ kv ∈ r, isComplexValue kv.2 = false) →
      SameFields r c → c = r := by
  intro r
  induction r with
  | nil =>
    intro c _ h
    cases c with
    | nil => rfl
    | cons e c => simp [SameFields] at h
  | cons kv r ih =>
    intro c hflat h
    obtain ⟨k, v⟩ := kv
    cases c with
    | nil => simp [SameFields] at h
    | cons e c =>
      obtain ⟨k', v'⟩ := e
      simp only [SameFields] at h
      obtain ⟨hk, hv, hr⟩ := h
      rw [← hk, SameValue_scalar_eq (hflat (k, v) (List.mem_cons_self _ _)) hv,
        ih c (fun kv' h' => hflat kv' (List.mem_cons_of_mem _ h')) hr]

theorem SameFields_keys :
    ∀ (r c : List (Str × Value)), SameFields r c → mapKeys c = mapKeys r := by
  intro r
  induction r with
  | nil =>
    intro c h
    cases c with
    | nil => rfl
    | cons e c => simp [SameFields] at h
  | cons kv r ih =>
    intro c h
    obtain ⟨k, v⟩ := kv
    cases c with
    | nil => simp [SameFields] at h
    | cons e c =>
      obtain ⟨k', v'⟩ := e
      simp only [SameFields] at h
      obtain ⟨hk, _, hr⟩ := h
      simp only [mapKeys, List.map_cons, hk]
      have := ih c hr
      simp only [mapKeys] at this
      rw [this]

theorem mapIndex_of_mem {r : List (Str × Value)} {f : Str} {v : Value}
    (hnd : (mapKeys r).Nodup) (h : (f, v) ∈ r) : mapIndex r f = v := by
  have h1 := mapIndex_mem (List.mem_map_of_mem Prod.fst h : f ∈ mapKeys r)
  have hinj := List.inj_on_of_nodup_map hnd h1 h rfl
  exact (Prod.mk.inj hinj).2

theorem mapIndex_absent {r : List (Str × Value)} {f : Str} (h : f ∉ mapKeys r) :
    mapIndex r f = .null := by
  induction r with
  | nil => rfl
  | cons e r ih =>
    obtain ⟨k, w⟩ := e
    simp only [mapKeys, List.map_cons, List.mem_cons, not_or] at h
    have hb : (f == k) = false := by simpa using h.1
    have := ih h.2
    simp only [mapIndex, List.lookup, hb] at this ⊢
    exact this

theorem mapIndex_perm {r r2 : List (Str × Value)} (hp : r2.Perm r)
    (hnd : (mapKeys r).Nodup) (f : Str) : mapIndex r2 f = mapIndex r f := by
  have hk : (mapKeys r2).Perm (mapKeys r) := hp.map _
  by_cases hf : f ∈ mapKeys r
  · exact mapIndex_of_mem (hk.nodup_iff.mpr hnd) (hp.mem_iff.mpr (mapIndex_mem hf))
  · rw [mapIndex_absent hf, mapIndex_absent (fun h => hf (hk.mem_iff.mp h))]

theorem SameValue_rows {fields fields2 : List Str} {r r2 : List (Str × Value)}
    (hF : fields2.Perm fields) (hp : r2.Perm r) (hnd : (mapKeys r).Nodup)
    (hflat : r.any (fun kv => isComplexValue kv.2) = false) :
    SameValue (readBackRow fields (.obj r)) (readBackRow fields2 (.obj r2)) := by
  simp only [readBackRow, SameValue]
  refine ⟨fields.map fun f => (f, mapIndex r2 f), hF.map _, ?_⟩
  clear hF
  induction fields with
  | nil => simp [SameFields]
  | cons f fields ih =>
    simp only [List.map_cons, SameFields, true_and]
    rw [mapIndex_perm hp hnd f]
    exact ⟨SameValue_refl_scalar (mapIndex_not_complex hflat f), ih⟩

theorem SameItems_rows {fields fields2 : List Str} (hF : fields2.Perm fields) :
    ∀ (a b : List Value),
      (∀ item ∈ a, ∃ r, item = .obj r ∧ (mapKeys r).Nodup ∧
        r.any (fun kv => isComplexValue kv.2) = false) →
      SameItems a b →
      SameItems (a.map (readBackRow fields)) (b.map (readBackRow fields2)) := by
  intro a
  induction a with
  | nil =>
    intro b _ h
    cases b with
    | nil => simp [SameItems]
    | cons e b => simp [SameItems] at h
  | cons item a ih =>
    intro b hall h
    cases b with
    | nil => simp [SameItems] at h
    | cons e b =>
      simp only [SameItems] at h
      obtain ⟨r, rfl, hnd, hflat⟩ := hall item (List.mem_cons_self _ _)
      have hflat2 : ∀ kv ∈ r, isComplexValue kv.2 = false := by
        intro kv hkv
        have := List.any_eq_false.mp hflat kv hkv
        simpa using this
      cases e with
      | obj r2 =>
        obtain ⟨hv, hrest⟩ := h
        simp only [SameValue] at hv
        obtain ⟨c, hperm, hc⟩ := hv
        have hcr := SameFields_flat_eq r c hflat2 hc
        rw [hcr] at hperm
        simp only [List.map_cons, SameItems]
        exact ⟨SameValue_rows hF hperm hnd hflat,
          ih b (fun i hi => hall i (List.mem_cons_of_mem _ hi)) hrest⟩
      | null => simp [SameValue] at h
      | bool _ => simp [SameValue] at h
      | int _ => simp [SameValue] at h
      | float _ => simp [SameValue] at h
      | str _ => simp [SameValue] at h
      | arr _ => simp [SameValue] at h

theorem SameValue_readBack_both (lib : GoLib) {v v2 : Value}
    (h : GoodScalar lib v ∨ GoodTable lib v) (hs : SameValue v v2) :
    SameValue (readBack v) (readBack v2) := by
  rcases h with hc | ht
  · rw [SameValue_scalar_eq hc.1 hs, readBack_scalar hc.1]
    exact SameValue_refl_scalar hc.1
  · obtain ⟨first, rest, rfl, _⟩ := id ht
    obtain ⟨_, helig, _⟩ := goodTable_facts lib ht
    have hall : ∀ item ∈ Value.obj first :: rest, ∃ r, item = .obj r ∧ (mapKeys r).Nodup ∧
        r.any (fun kv => isComplexValue kv.2) = false := by
      intro item hi
      obtain ⟨r, hr, hnd, _, hflat⟩ := helig.2 item hi
      refine ⟨r, hr, hnd, ?_⟩
      rw [List.any_eq_false]
      intro kv hkv
      simp [hflat kv hkv]
    cases v2 with
    | arr b =>
      simp only [SameValue] at hs
      cases b with
      | nil => simp [SameItems] at hs
      | cons e b =>
        cases e with
        | obj first2 =>
          have hs0 := hs
          simp only [SameItems, SameValue] at hs0
          obtain ⟨⟨c, hperm, hc⟩, _⟩ := hs0
          obtain ⟨r0, hr0, _, hflat0⟩ := hall (.obj first) (List.mem_cons_self _ _)
          cases hr0
          have hflat1 : ∀ kv ∈ first, isComplexValue kv.2 = false := by
            intro kv hkv
            have := List.any_eq_false.mp hflat0 kv hkv
            simpa using this
          rw [SameFields_flat_eq first c hflat1 hc] at hperm
          simp only [readBack, SameValue]
          exact SameItems_rows (hperm.map _) _ _ hall hs
        | null => simp [SameItems, SameValue] at hs
        | bool _ => simp [SameItems, SameValue] at hs
        | int _ => simp [SameItems, SameValue] at hs
        | float _ => simp [SameItems, SameValue] at hs
        | str _ => simp [SameItems, SameValue] at hs
        | arr _ => simp [SameItems, SameValue] at hs
    | null => simp [SameValue] at hs
    | bool _ => simp [SameValue] at hs
    | int _ => simp [SameValue] at hs
    | float _ => simp [SameValue] at hs
    | str _ => simp [SameValue] at hs
    | obj _ => simp [SameValue] at hs

theorem SameFields_readBack (lib : GoLib) :
    ∀ (x c : List (Str × Value)), (∀ kv ∈ x, GoodField lib kv) → SameFields x c →
      SameFields (x.map fun kv => (kv.1, readBack kv.2))
        (c.map fun kv => (kv.1, readBack kv.2)) := by
  intro x
  induction x with
  | nil =>
    intro c _ h
    cases c with
    | nil => simp [SameFields]
    | cons e c => simp [SameFields] at h
  | cons kv x ih =>
    intro c hgood h
    obtain ⟨k, v⟩ := kv
    cases c with
    | nil => simp [SameFields] at h
    | cons e c =>
      obtain ⟨k2, v2⟩ := e
      simp only [SameFields] at h
      obtain ⟨hk, hv, hr⟩ := h
      simp only [List.map_cons, SameFields]
      exact ⟨hk, SameValue_readBack_both lib (hgood (k, v) (List.mem_cons_self _ _)).2 hv,
        ih c (fun kv2 h2 => hgood kv2 (List.mem_cons_of_mem _ h2)) hr⟩

/-! ## Quoting and unquoting a string -/

/-- The text with a backslash before each quote never starts with a quote. -/
theorem escaped_head_ne_quote (t : Str) :
    (replaceAux ['"'] ['\\', '"'] 0 t).head? ≠ some '"' := by
  cases t with
  | nil => simp [replaceAux]
  | cons c r =>
    by_cases hc : c = '"'
    · subst hc
      simp [replaceAux, List.isPrefixOf]
    · have hb : ('"' == c) = false := by simpa using fun h => hc h.symm
      simp only [replaceAux, List.isPrefixOf, hb, Bool.false_and]
      simpa using hc

/-- Replacing every backslash-quote pair by a quote undoes replacing every quote by a
backslash-quote pair. -/
theorem unescape_escape : ∀ t : Str,
    replaceAux ['\\', '"'] ['"'] 0 (replaceAux ['"'] ['\\', '"'] 0 t) = t
  | [] => rfl
  | c :: r => by
    have ih := unescape_escape r
    by_cases hc : c = '"'
    · subst hc
      simp [replaceAux, List.isPrefixOf, ih]
    · have hb : ('"' == c) = false := by simpa using fun h => hc h.symm
      have hhead := escaped_head_ne_quote r
      have e1 : replaceAux ['"'] ['\\', '"'] 0 (c :: r) =
          c :: replaceAux ['"'] ['\\', '"'] 0 r := by
        simp [replaceAux, List.isPrefixOf, hb]
      rw [e1]
      cases hX : replaceAux ['"'] ['\\', '"'] 0 r with
      | nil =>
        rw [hX] at ih
        rw [← ih]
        by_cases h2 : c = '\\'
        · subst h2; rfl
        · have hb2 : ('\\' == c) = false := by simpa using fun h => h2 h.symm
          simp [replaceAux, List.isPrefixOf, hb2]
      | cons d X =>
        rw [hX] at ih hhead
        have hd : d ≠ '"' := by simpa using hhead
        have hb3 : ('"' == d) = false := by simpa using fun h => hd h.symm
        have e2 : replaceAux ['\\', '"'] ['"'] 0 (c :: d :: X) =
            c :: replaceAux ['\\', '"'] ['"'] 0 (d :: X) := by
          simp [replaceAux, List.isPrefixOf, hb3]
        rw [e2, ih]

theorem parsePrimitive_quoteString (lib : GoLib) (s : Str) :
    parsePrimitive lib (quoteString s) = .str s := by
  have hcore : Core (quoteString s) :=
    ⟨⟨'"', _, rfl, by decide⟩, ⟨'"' :: ReplaceAll s ['"'] ['\\', '"'], '"', rfl, by decide⟩⟩
  have hcond : byteLen (quoteString s) ≥ 2 ∧ (quoteString s).head? = some '"' ∧
      (quoteString s).getLast? = some '"' := by
    rw [quoted_cond_iff]
    refine ⟨?_, rfl, ?_⟩
    · simp [quoteString]
    · have e : quoteString s = ('"' :: ReplaceAll s ['"'] ['\\', '"']) ++ ['"'] := rfl
      rw [e, List.getLast?_append]
      rfl
  have hmid : (quoteString s).tail.dropLast = ReplaceAll s ['"'] ['\\', '"'] := by
    simp [quoteString]
  unfold parsePrimitive
  simp only [TrimSpace_of_core hcore]
  rw [if_pos hcond, hmid]
  simp only [ReplaceAll, unescape_escape]

/-! ## Lines of a table -/

/-- A line feed in a joined text comes from a part or from the separator. -/
theorem Join_no_newline {cells : List Str} {sep : Str} (hsep : '\n' ∉ sep)
    (hall : ∀ c ∈ cells, '\n' ∉ c) : '\n' ∉ Join cells sep := by
  induction cells with
  | nil => simp [Join, List.intercalate]
  | cons c cells ih =>
    cases cells with
    | nil => rw [Join_singleton]; exact hall c (List.mem_cons_self _ _)
    | cons d cells =>
      rw [Join_cons_cons]
      simp only [List.mem_append, not_or]
      exact ⟨⟨hall c (List.mem_cons_self _ _), hsep⟩,
        ih (fun x hx => hall x (List.mem_cons_of_mem _ hx))⟩

theorem doubleQuoted_no_newline {s : Str} (h : '\n' ∉ s) : '\n' ∉ doubleQuoted s := by
  rw [← quoteString_eq]
  exact (quoteString_facts s h).2

theorem specCellText_no_newline (lib : GoLib) (delimiter : Str) {v : Value}
    (hv : (∃ n, v = .int n) ∨ (∃ s, v = .str s ∧ '\n' ∉ s)) :
    '\n' ∉ specCellText lib delimiter v := by
  rcases hv with ⟨n, rfl⟩ | ⟨s, rfl, hs⟩
  · simp only [specCellText, decimalText_eq]
    intro h
    have := FormatInt_mem_range h
    revert this
    decide
  · simp only [specCellText]
    split
    · exact doubleQuoted_no_newline hs
    · exact hs

theorem specHeader_no_newline (n : Nat) {fields : List Str} (h : ∀ f ∈ fields, '\n' ∉ f) :
    '\n' ∉ specHeader n fields := by
  have hj : '\n' ∉ Join fields [','] := Join_no_newline (by decide) h
  have hd : '\n' ∉ decimalText n := by
    rw [decimalText_eq]
    intro h
    have := FormatInt_mem_range h
    revert this
    decide
  simp only [specHeader, List.mem_append, not_or]
  exact ⟨⟨⟨⟨by decide, hd⟩, by decide⟩, hj⟩, by decide⟩

/-! ## What a failed coercion leaves behind -/

theorem assignString_error (lib : GoLib) (src : Decoder.Src) (dst : Decoder.GoVal)
    (e : ToonError) (h : (Decoder.assignString lib src dst).2 = .error e) :
    (Decoder.assignString lib src dst).1 = dst := by
  unfold Decoder.assignString at h ⊢
  split <;> first | rfl | (simp at h)

theorem assignBool_error (src : Decoder.Src) (dst : Decoder.GoVal)
    (e : ToonError) (h : (Decoder.assignBool src dst).2 = .error e) :
    (Decoder.assignBool src dst).1 = dst := by
  unfold Decoder.assignBool at h ⊢
  split
  · rfl
  · simp at h
  · split
    · rename_i hb; simp [hb] at h
    · rfl
  · rfl

theorem assignInt_error (conv : Decoder.GoConv) (k : Decoder.IntKind) (src : Decoder.Src)
    (dst : Decoder.GoVal) (e : ToonError)
    (h : (Decoder.assignInt conv k src dst).2 = .error e) :
    (Decoder.assignInt conv k src dst).1 = dst := by
  unfold Decoder.assignInt at h ⊢
  split
  · rfl
  · simp at h
  · simp at h
  · split
    · rename_i hb; simp [hb] at h
    · rfl
  · rfl

theorem assignUint_error (conv : Decoder.GoConv) (k : Decoder.UintKind) (src : Decoder.Src)
    (dst : Decoder.GoVal) (e : ToonError)
    (h : (Decoder.assignUint conv k src dst).2 = .error e) :
    (Decoder.assignUint conv k src dst).1 = dst := by
  unfold Decoder.assignUint at h ⊢
  split
  · rfl
  · simp at h
  · simp at h
  · split
    · rename_i hb; simp [hb] at h
    · rfl
  · rfl

theorem assignFloat_error (lib : GoLib) (conv : Decoder.GoConv) (k : Decoder.FloatKind)
    (src : Decoder.Src) (dst : Decoder.GoVal) (e : ToonError)
    (h : (Decoder.assignFloat lib conv k src dst).2 = .error e) :
    (Decoder.assignFloat lib conv k src dst).1 = dst := by
  unfold Decoder.assignFloat at h ⊢
  simp only [] at h ⊢
  split
  · rfl
  · simp at h
  · simp at h
  · split
    · rename_i hb; simp [hb] at h
    · rfl
  · rfl

theorem assignSlice_error (assign : Decoder.Src → Decoder.GoType → Decoder.GoVal →
      Decoder.Assigned) (src : Decoder.Src) (elem : Decoder.GoType) (dst : Decoder.GoVal)
    (e : ToonError) (h : (Decoder.assignSlice assign src elem dst).2 = .error e) :
    (Decoder.assignSlice assign src elem dst).1 = dst := by
  unfold Decoder.assignSlice at h ⊢
  split
  · rfl
  · split
    · rename_i hb; simp [hb] at h
    · rfl
    · rfl
    · rfl
  · rfl

/-- A failed coercion into a variable that is not an array, a map, a struct or a
pointer leaves the variable as it was. -/
theorem assignReflectValue_error (lib : GoLib) (conv : Decoder.GoConv) (opts : DecodeOptions)
    (fuel : Nat) (src : Decoder.Src) (t : Decoder.GoType) (dst : Decoder.GoVal)
    (e : ToonError)
    (hkind : Decoder.Dest.filledInPlace (.pointer t dst) = false)
    (h : (Decoder.assignReflectValue lib conv opts (fuel + 1) src t dst).2 = .error e) :
    (Decoder.assignReflectValue lib conv opts (fuel + 1) src t dst).1 = dst := by
  cases src with
  | invalid => simp [Decoder.assignReflectValue] at h
  | concrete v =>
    cases t with
    | Interface => simp [Decoder.assignReflectValue] at h
    | String =>
      simp only [Decoder.assignReflectValue] at h ⊢
      split at h
      · simp at h
      · rename_i ha; rw [if_neg ha]; exact assignString_error lib _ _ e h
    | Bool =>
      simp only [Decoder.assignReflectValue] at h ⊢
      split at h
      · simp at h
      · rename_i ha; rw [if_neg ha]; exact assignBool_error _ _ e h
    | Int k =>
      simp only [Decoder.assignReflectValue] at h ⊢
      split at h
      · simp at h
      · rename_i ha; rw [if_neg ha]; exact assignInt_error conv k _ _ e h
    | Uint k =>
      simp only [Decoder.assignReflectValue] at h ⊢
      split at h
      · simp at h
      · rename_i ha; rw [if_neg ha]; exact assignUint_error conv k _ _ e h
    | Float k =>
      simp only [Decoder.assignReflectValue] at h ⊢
      split at h
      · simp at h
      · rename_i ha; rw [if_neg ha]; exact assignFloat_error lib conv k _ _ e h
    | Slice elem =>
      simp only [Decoder.assignReflectValue] at h ⊢
      split at h
      · simp at h
      · rename_i ha; rw [if_neg ha]; exact assignSlice_error _ _ _ _ e h
    | Array len elem => simp [Decoder.Dest.filledInPlace] at hkind
    | Map key elem => simp [Decoder.Dest.filledInPlace] at hkind
    | Struct fields => simp [Decoder.Dest.filledInPlace] at hkind
    | Ptr elem => simp [Decoder.Dest.filledInPlace] at hkind
    | Other name =>
      simp only [Decoder.assignReflectValue] at h ⊢
      split at h
      · simp at h
      · rename_i ha; rw [if_neg ha]
  | boxed v =>
    cases t with
    | Interface => simp [Decoder.assignReflectValue] at h
    | String =>
      simp only [Decoder.assignReflectValue] at h ⊢
      split at h
      · simp at h
      · rename_i ha; rw [if_neg ha]; exact assignString_error lib _ _ e h
    | Bool =>
      simp only [Decoder.assignReflectValue] at h ⊢
      split at h
      · simp at h
      · rename_i ha; rw [if_neg ha]; exact assignBool_error _ _ e h
    | Int k =>
      simp only [Decoder.assignReflectValue] at h ⊢
      split at h
      · simp at h
      · rename_i ha; rw [if_neg ha]; exact assignInt_error conv k _ _ e h
    | Uint k =>
      simp only [Decoder.assignReflectValue] at h ⊢
      split at h
      · simp at h
      · rename_i ha; rw [if_neg ha]; exact assignUint_error conv k _ _ e h
    | Float k =>
      simp only [Decoder.assignReflectValue] at h ⊢
      split at h
      · simp at h
      · rename_i ha; rw [if_neg ha]; exact assignFloat_error lib conv k _ _ e h
    | Slice elem =>
      simp only [Decoder.assignReflectValue] at h ⊢
      split at h
      · simp at h
      · rename_i ha; rw [if_neg ha]; exact assignSlice_error _ _ _ _ e h
    | Array len elem => simp [Decoder.Dest.filledInPlace] at hkind
    | Map key elem => simp [Decoder.Dest.filledInPlace] at hkind
    | Struct fields => simp [Decoder.Dest.filledInPlace] at hkind
    | Ptr elem => simp [Decoder.Dest.filledInPlace] at hkind
    | Other name =>
      simp only [Decoder.assignReflectValue] at h ⊢
      split at h
      · simp at h
      · rename_i ha; rw [if_neg ha]
/-! ## The claims -/

/-- C2. `Decode(Encode(v))` into an `interface{}` destination returns exactly `v` when
`v` is `null`, `true`, `false` or any `int64` integer (negative and extreme values
included); an integer comes back as an integer. -/
theorem scalar_fidelity_null_bool_int (lib : GoLib) (v : Value)
    (hv : v = .null ∨ v = .bool true ∨ v = .bool false ∨ ∃ n, isInt64 n ∧ v = .int n) :
    roundTrip lib v .Interface = .ok v := by
  rcases hv with rfl | rfl | rfl | ⟨n, hn, rfl⟩
  · rfl
  · rfl
  · rfl
  · have henc : Encode lib (.int n) = .ok (FormatInt n) := by
      simp only [Encode, Encoder_Encode, EncodeLines, encodeValue, Join_singleton]
    have hmem : ∀ c ∈ FormatInt n, 45 ≤ c.toNat ∧ c.toNat ≤ 57 := fun _ hc =>
      FormatInt_mem_range hc
    have hparse : Parse lib (FormatInt n) DefaultDecodeOptions = .ok (.int n) := by
      rw [Parse_single_line lib _ (FormatInt_core n), parsePrimitive_FormatInt lib hn]
      · intro h; have := hmem _ h; revert this; decide
      · intro h; have := hmem _ h; revert this; decide
      · exact HasPrefix_dash_false (fun h => by have := hmem _ h; revert this; decide)
    rw [roundTrip_of_Parse lib _ _ _ henc hparse]
    rfl

/-- C2, at the smallest `int64`. -/
theorem scalar_fidelity_null_bool_int_witness :
    roundTrip asciiLib (.int (-9223372036854775808)) .Interface =
      .ok (.int (-9223372036854775808)) :=
  scalar_fidelity_null_bool_int asciiLib _
    (Or.inr (Or.inr (Or.inr ⟨_, ⟨by decide, by decide⟩, rfl⟩)))
/-- C10. A line `k:` at column 0 followed by a non-empty block of `key: scalar` lines,
each behind exactly `Indent` spaces and with distinct identifier keys, parses to the
object whose only key `k` holds the object of the block: every key of the block, mapped
to `parsePrimitive` of its value text. -/
theorem nested_block_parses (lib : GoLib) (opts : DecodeOptions) (k : Str)
    (block : List (Str × Str)) (hI : 0 ≤ opts.Indent ∧ opts.Indent < 2 ^ 63)
    (hk : isIdentifier k = true) (hne : block ≠ [])
    (hblock : ∀ kv ∈ block, isIdentifier kv.1 = true ∧ TrimSpace kv.2 ≠ [] ∧ '\n' ∉ kv.2)
    (hnodup : (block.map Prod.fst).Nodup) :
    Parse lib
        (Join ((k ++ [':']) :: block.map (fun kv => kvLine opts.Indent.toNat kv.1 kv.2)) ['\n'])
        opts =
      .ok (.obj [(k, .obj (block.map fun kv => (kv.1, parsePrimitive lib kv.2)))]) := by
  obtain ⟨init, ⟨kl, tl⟩, rfl⟩ : ∃ init last, block = init ++ [last] :=
    ⟨block.dropLast, block.getLast hne, (List.dropLast_append_getLast hne).symm⟩
  obtain ⟨hkl, htl, hnl⟩ := hblock (kl, tl) (by simp)
  obtain ⟨hcoreT, a, b, ha, hb, hdecomp⟩ := trim_decomp tl htl
  have htrimAM : TrimSpace (a ++ TrimSpace tl) = TrimSpace tl := by
    have := TrimSpace_core (b := []) ha (fun _ h => by cases h) hcoreT
    simpa using this
  have hlastAM : ∃ r c, a ++ TrimSpace tl = r ++ [c] ∧ IsSpace c = false := by
    obtain ⟨r, c, hrc, hc⟩ := hcoreT.2
    exact ⟨a ++ r, c, by rw [hrc]; simp, hc⟩
  -- the block as the parser sees it: the last line has lost its trailing white space
  let block' : List (Str × Str) := init ++ [(kl, a ++ TrimSpace tl)]
  have hblock' : ∀ kv ∈ block', isIdentifier kv.1 = true ∧ TrimSpace kv.2 ≠ [] := by
    intro kv hkv
    rcases List.mem_append.mp hkv with h | h
    · exact ⟨(hblock kv (by simp [h])).1, (hblock kv (by simp [h])).2.1⟩
    · rw [List.mem_singleton] at h
      rw [h]
      exact ⟨hkl, by rw [htrimAM]; exact htl⟩
  have hnl' : ∀ l ∈ (k ++ [':']) :: block'.map (fun kv => kvLine opts.Indent.toNat kv.1 kv.2),
      '\n' ∉ l := by
    intro l hl
    rcases List.mem_cons.mp hl with rfl | hl
    · simp only [List.mem_append, List.mem_singleton, not_or]
      exact ⟨identifier_not_mem hk (by decide), by decide⟩
    · obtain ⟨kv, hkv, rfl⟩ := List.mem_map.mp hl
      rcases List.mem_append.mp hkv with h | h
      · exact kvLine_no_newline (hblock kv (by simp [h])).1 (hblock kv (by simp [h])).2.2
      · rw [List.mem_singleton] at h
        rw [h]
        refine kvLine_no_newline hkl ?_
        intro hmem
        apply hnl
        show '\n' ∈ tl
        rw [hdecomp]
        simp only [List.mem_append] at hmem ⊢
        tauto
  have hkeys : block'.map Prod.fst = (init ++ [(kl, tl)]).map Prod.fst := by
    simp [block']
  have hvals : (block'.map fun kv => (kv.1, parsePrimitive lib kv.2)) =
      (init ++ [(kl, tl)]).map fun kv => (kv.1, parsePrimitive lib kv.2) := by
    simp only [block', List.map_append, List.map_cons, List.map_nil]
    rw [← parsePrimitive_TrimSpace lib (a ++ TrimSpace tl), htrimAM, parsePrimitive_TrimSpace]
  have htrim : TrimSpace (Join ((k ++ [':']) ::
        (init ++ [(kl, tl)]).map (fun kv => kvLine opts.Indent.toNat kv.1 kv.2)) ['\n']) =
      Join ((k ++ [':']) :: block'.map (fun kv => kvLine opts.Indent.toNat kv.1 kv.2)) ['\n'] := by
    have e1 : kvLine opts.Indent.toNat kl tl =
        kvLine opts.Indent.toNat kl (a ++ TrimSpace tl) ++ b := by
      rw [← kvLine_append, ← hdecomp]
    simp only [block', List.map_append, List.map_cons, List.map_nil, e1]
    obtain ⟨c, r, hcr, hc⟩ := (identifier_core hk).1
    exact TrimSpace_Join ⟨c, r ++ [':'], by rw [hcr]; rfl, hc⟩ (kvLine_last hlastAM) hb
  rw [Parse_of_lines lib opts (by simp) hnl' htrim]
  have hne' : block' ≠ [] := by simp [block']
  have hlen : ((k ++ [':']) :: block'.map
      (fun kv => kvLine opts.Indent.toNat kv.1 kv.2)).length = block'.length + 1 := by simp
  rw [hlen, parseValue_nested_block lib opts k block' hI hk hne' hblock'
    (by rw [hkeys]; exact hnodup), hvals]

/-- C10, at the document of `TestDecodeNestedObject`. -/
theorem nested_block_parses_witness :
    Parse asciiLib "user:\n  name: Alice\n  age: 30".toList DefaultDecodeOptions =
      .ok (.obj [("user".toList,
        .obj [("name".toList, .str "Alice".toList), ("age".toList, .int 30)])]) :=
  nested_block_parses asciiLib DefaultDecodeOptions "user".toList
    [("name".toList, "Alice".toList), ("age".toList, "30".toList)]
    ⟨by decide, by decide⟩ (by decide) (by simp) (by decide) (by decide)
/-- C8, amended. For a tabular-eligible array of `n` objects whose cells are integers
or strings without line feed, whose field names hold no line feed, and for a delimiter
without line feed, the text of the top-level `Encode` has exactly `n + 1` lines: the
header `[n]\x7bf1,...,fk\x7d:` over the keys of the first element in its own order, then
one row per element in array order, each joining with the configured delimiter the cell
texts of `f1..fk` (decimal digits for an integer; the string itself, or its
double-quoted form when it contains the delimiter or `NeedsQuoting` flags it).  The
lines are those of the text, cut at its line feeds; they are also the entries of
`EncodeLines`; and every such cell is a value of the element. -/
theorem tabular_lines_shape (lib : GoLib) (opts : EncodeOptions) (first : List (Str × Value))
    (rest : List Value) (helig : TabularEligible first rest)
    (hcells : ∀ r, Value.obj r ∈ Value.obj first :: rest → ∀ kv ∈ r,
      (∃ n, kv.2 = .int n) ∨ (∃ s, kv.2 = .str s ∧ '\n' ∉ s))
    (hkeys : ∀ f ∈ mapKeys first, '\n' ∉ f) (hdelim : '\n' ∉ opts.Delimiter) :
    (∃ text, Encoder_Encode lib opts (.arr (.obj first :: rest)) = .ok text ∧
      Split text '\n' = specHeader (rest.length + 1) (mapKeys first) ::
        (Value.obj first :: rest).map (specRow lib opts.Delimiter (mapKeys first)) ∧
      (Split text '\n').length = (rest.length + 1) + 1) ∧
    EncodeLines lib opts (.arr (.obj first :: rest)) =
        .ok (specHeader (rest.length + 1) (mapKeys first) ::
          (Value.obj first :: rest).map (specRow lib opts.Delimiter (mapKeys first))) ∧
    ∀ r, Value.obj r ∈ Value.obj first :: rest → ∀ f ∈ mapKeys first,
      (f, mapIndex r f) ∈ r := by
  have hmem : ∀ r, Value.obj r ∈ Value.obj first :: rest → ∀ f ∈ mapKeys first,
      (f, mapIndex r f) ∈ r := by
    intro r hr f hf
    obtain ⟨r2, hr2, _, hset, _⟩ := helig.2 _ hr
    cases hr2
    exact mapIndex_mem ((hset f).mpr hf)
  have hlines : EncodeLines lib opts (.arr (.obj first :: rest)) =
      .ok (specHeader (rest.length + 1) (mapKeys first) ::
        (Value.obj first :: rest).map (specRow lib opts.Delimiter (mapKeys first))) := by
    rw [EncodeLines_table lib opts helig, tabularHeader_eq_spec]
    congr 2
    apply List.map_congr_left
    intro item hi
    obtain ⟨r, rfl, _⟩ := helig.2 item hi
    simp only [rowText, specRow, Join]
    congr 1
    apply List.map_congr_left
    intro f hf
    exact cellText_eq_spec lib opts
      ((hcells r hi _ (hmem r hi f hf)).imp id fun ⟨s, hs, _⟩ => ⟨s, hs⟩)
  have hnl : ∀ l ∈ specHeader (rest.length + 1) (mapKeys first) ::
      (Value.obj first :: rest).map (specRow lib opts.Delimiter (mapKeys first)),
      '\n' ∉ l := by
    intro l hl
    rcases List.mem_cons.mp hl with rfl | hl
    · exact specHeader_no_newline _ hkeys
    · obtain ⟨item, hi, rfl⟩ := List.mem_map.mp hl
      obtain ⟨r, rfl, _⟩ := helig.2 item hi
      show '\n' ∉ Join _ opts.Delimiter
      apply Join_no_newline hdelim
      intro c hc
      obtain ⟨f, hf, rfl⟩ := List.mem_map.mp hc
      exact specCellText_no_newline lib _ (hcells r hi _ (hmem r hi f hf))
  have hsplit := Split_Join (List.cons_ne_nil _ _) hnl
  refine ⟨⟨_, by simp only [Encoder_Encode, hlines], hsplit, ?_⟩, hlines, hmem⟩
  rw [hsplit]
  simp

/-- C8 amended, at the array of `TestEncodeTabularArray`, the second element listing
its keys in the other order. -/
theorem tabular_lines_shape_witness :
    ∃ text, Encoder_Encode asciiLib DefaultEncodeOptions
        (.arr [.obj [("id".toList, .int 1), ("name".toList, .str "Alice".toList)],
          .obj [("name".toList, .str "Bob".toList), ("id".toList, .int 2)]]) = .ok text ∧
      Split text '\n' = ["[2]\x7bid,name\x7d:".toList, "1,Alice".toList, "2,Bob".toList] ∧
      (Split text '\n').length = (1 + 1) + 1 :=
  (tabular_lines_shape asciiLib DefaultEncodeOptions
    [("id".toList, .int 1), ("name".toList, .str "Alice".toList)]
    [.obj [("name".toList, .str "Bob".toList), ("id".toList, .int 2)]]
    ⟨by simp, by
      intro item hi
      simp only [List.mem_cons, List.mem_singleton, List.not_mem_nil, or_false] at hi
      rcases hi with rfl | rfl
      · exact ⟨_, rfl, by decide, fun _ => Iff.rfl, by decide⟩
      · refine ⟨_, rfl, by decide, ?_, by decide⟩
        intro k
        simp only [mapKeys, List.map_cons, List.map_nil, List.mem_cons, List.not_mem_nil,
          or_false]
        exact or_comm⟩
    (by
      intro r hr kv hkv
      simp only [List.mem_cons, Value.obj.injEq, List.not_mem_nil, or_false] at hr
      rcases hr with rfl | rfl
      · simp only [List.mem_cons, List.not_mem_nil, or_false] at hkv
        rcases hkv with rfl | rfl
        · exact Or.inl ⟨_, rfl⟩
        · exact Or.inr ⟨_, rfl, by decide⟩
      · simp only [List.mem_cons, List.not_mem_nil, or_false] at hkv
        rcases hkv with rfl | rfl
        · exact Or.inr ⟨_, rfl, by decide⟩
        · exact Or.inl ⟨_, rfl⟩)
    (by decide) (by decide)).1

/-- C8, as stated, fails for a string cell with a line feed: the array of the one
object with `a` = the string `x`, line feed, `y` is tabular-eligible and its cell is a
string, yet the text of `Encode` is the header, then `"x`, then `y"`: three lines, not
`n + 1 = 2`, for every library. -/
theorem table_cell_line_feed_adds_line :
    (TabularEligible [("a".toList, .str "x\ny".toList)] [] ∧
      ∀ r, Value.obj r ∈ [Value.obj [("a".toList, .str "x\ny".toList)]] → ∀ kv ∈ r,
        (∃ n, kv.2 = .int n) ∨ (∃ s, kv.2 = .str s)) ∧
    ¬ ∃ (lib : GoLib) (text : Str),
      Encoder_Encode lib DefaultEncodeOptions (.arr [.obj [("a".toList, .str "x\ny".toList)]]) =
        .ok text ∧ (Split text '\n').length = 1 + 1 := by
  refine ⟨⟨⟨by simp, ?_⟩, ?_⟩, ?_⟩
  · intro item hi
    simp only [List.mem_singleton] at hi
    subst hi
    exact ⟨_, rfl, by decide, fun _ => Iff.rfl, by decide⟩
  · intro r hr kv hkv
    simp only [List.mem_singleton, Value.obj.injEq] at hr
    subst hr
    simp only [List.mem_singleton] at hkv
    subst hkv
    exact Or.inr ⟨_, rfl⟩
  · rintro ⟨lib, text, h, hlen⟩
    have h1 : Encoder_Encode lib DefaultEncodeOptions
        (.arr [.obj [("a".toList, .str "x\ny".toList)]]) =
        .ok "[1]\x7ba\x7d:\n\"x\ny\"".toList := by rfl
    rw [h1] at h
    cases h
    revert hlen
    decide

/-- C9. The scalar grammar: for every text, `parsePrimitive` returns what the cases of
§4.1 (7), taken in their order, give for the trimmed text: the unescaped content of a
text of length at least two between double quotes; else `null`; else a boolean; else a
base-10 `int64`; else a float; else the bare string. -/
theorem parsePrimitive_scalar_grammar (lib : GoLib) (value : Str) :
    parsePrimitive lib value = scalarLiteral lib (TrimSpace value) :=
  parsePrimitive_eq_scalarLiteral lib value
/-- C1. A non-empty flat object with identifier keys whose values are `null`, booleans,
`int64` integers or strings without line feed that `parsePrimitive` reads back from
their encoding: `DecodeBytes(EncodeBytes(x))` into a `map[string]interface{}` succeeds
with a map that has the fields of `x` (in some order); in particular an integer value
comes back as that integer, not as a string. -/
theorem flat_object_roundtrip_bytes (lib : GoLib) (x : List (Str × Value)) (hne : x ≠ [])
    (hnodup : (x.map Prod.fst).Nodup) (hkeys : ∀ kv ∈ x, isIdentifier kv.1 = true)
    (hvals : ∀ kv ∈ x, kv.2 = .null ∨ (∃ b, kv.2 = .bool b) ∨
      (∃ n, isInt64 n ∧ kv.2 = .int n) ∨
      (∃ s, kv.2 = .str s ∧ '\n' ∉ s ∧ parsePrimitive lib (encodeString lib s) = .str s)) :
    ∃ m, roundTripBytes lib (.obj x) .MapStringInterface = .ok (.obj m) ∧ m.Perm x ∧
      ∀ k n, (k, Value.int n) ∈ x → (k, Value.int n) ∈ m := by
  have hscalar : ∀ kv ∈ x, GoodScalar lib kv.2 := by
    intro kv hkv
    rcases hvals kv hkv with h | ⟨b, h⟩ | ⟨n, hn, h⟩ | ⟨s, h, hnl, hp⟩
    · rw [h]; exact goodScalar_null lib
    · rw [h]; exact goodCell_scalar lib (Or.inr (Or.inl ⟨b, rfl⟩))
    · rw [h]; exact goodCell_scalar lib (Or.inl ⟨n, hn, rfl⟩)
    · rw [h]; exact goodScalar_str lib hnl hp
  have hfields : ∀ kv ∈ x, GoodField lib kv := fun kv hkv =>
    ⟨hkeys kv hkv, Or.inl (hscalar kv hkv)⟩
  have hback : (x.map fun kv => (kv.1, readBack kv.2)) = x := by
    conv_rhs => rw [← List.map_id x]
    apply List.map_congr_left
    intro kv hkv
    rw [readBack_scalar (hscalar kv hkv).1]
    rfl
  have h := roundTrip_object lib x hne hnodup hfields .MapStringInterface
  rw [hback] at h
  exact ⟨x, h, List.Perm.refl x, fun _ _ hk => hk⟩

/-- C1, at the map of `TestEncodeDecodeBytes`. -/
theorem flat_object_roundtrip_bytes_witness :
    ∃ m, roundTripBytes asciiLib
        (.obj [("test".toList, .str "value".toList), ("num".toList, .int 42)])
        .MapStringInterface = .ok (.obj m) ∧
      m.Perm [("test".toList, .str "value".toList), ("num".toList, .int 42)] ∧
      ∀ k n, (k, Value.int n) ∈ [("test".toList, Value.str "value".toList),
        ("num".toList, Value.int 42)] → (k, Value.int n) ∈ m :=
  flat_object_roundtrip_bytes asciiLib
    [("test".toList, .str "value".toList), ("num".toList, .int 42)] (by simp) (by decide)
    (by decide)
    (by
      intro kv hkv
      simp only [List.mem_cons, List.not_mem_nil, or_false] at hkv
      rcases hkv with rfl | rfl
      · exact Or.inr (Or.inr (Or.inr ⟨_, rfl, by decide, by decide⟩))
      · exact Or.inr (Or.inr (Or.inl ⟨_, ⟨by decide, by decide⟩, rfl⟩)))

/-- C6, as stated, fails at the empty object: its encoding is the text `\x7b\x7d`, which
the parser reads as a scalar, so no library behaviour makes the result an object. -/
theorem empty_object_not_roundtrip :
    ¬ ∃ lib y, roundTrip lib (.obj []) .Interface = .ok y ∧ SameValue (.obj []) y := by
  rintro ⟨lib, y, h, hs⟩
  have h1 : roundTrip lib (.obj []) .Interface =
      assignReflectValue (parsePrimitive lib "\x7b\x7d".toList) .Interface := by
    rfl
  have h2 : parsePrimitive lib "\x7b\x7d".toList =
      match lib.ParseFloat "\x7b\x7d".toList with
      | some f => .float f
      | none => .str "\x7b\x7d".toList := by
    rfl
  rw [h1, h2] at h
  cases hf : lib.ParseFloat "\x7b\x7d".toList with
  | none =>
    rw [hf] at h
    simp only [assignReflectValue, Res.ok.injEq] at h
    subst h
    simp [SameValue] at hs
  | some f =>
    rw [hf] at h
    simp only [assignReflectValue, Res.ok.injEq] at h
    subst h
    simp [SameValue] at hs

/-- C6, amended. A non-empty top-level object with identifier keys whose values are
scalar cells (`int64`, boolean, plain word read back by `parsePrimitive`) or tables
(non-empty arrays of objects that share one non-empty set of identifier keys and hold
such cells): `Decode(Encode(x))` with the default options succeeds, into either
destination, with a value equal to `x` up to the order of keys; arrays keep their
length, the order of their rows and their cells. -/
theorem object_with_tables_roundtrip (lib : GoLib) (x : List (Str × Value)) (hne : x ≠ [])
    (hnodup : (x.map Prod.fst).Nodup)
    (hfields : ∀ kv ∈ x, isIdentifier kv.1 = true ∧ (GoodCell lib kv.2 ∨ GoodTable lib kv.2))
    (dst : DstType) :
    ∃ y, roundTrip lib (.obj x) dst = .ok y ∧ SameValue (.obj x) y := by
  have hgood : ∀ kv ∈ x, GoodField lib kv := by
    intro kv hkv
    obtain ⟨hk, hv⟩ := hfields kv hkv
    exact ⟨hk, hv.imp (goodCell_scalar lib) id⟩
  refine ⟨.obj (x.map fun kv => (kv.1, readBack kv.2)), ?_, ?_⟩
  · rw [roundTrip_object lib x hne hnodup hgood dst]
    obtain ⟨kv0, x', rfl⟩ := List.exists_cons_of_ne_nil hne
    cases dst <;> rfl
  · simp only [SameValue]
    refine ⟨_, List.Perm.refl _, ?_⟩
    clear hgood hnodup hne
    induction x with
    | nil => simp [SameFields]
    | cons kv x ih =>
      obtain ⟨k, v⟩ := kv
      simp only [List.map_cons, SameFields, true_and]
      exact ⟨SameValue_readBack lib (hfields (k, v) (List.mem_cons_self _ _)).2,
        ih (fun kv' h' => hfields kv' (List.mem_cons_of_mem _ h'))⟩
/-- C6 amended, at an object with a table (rows listing their keys in different
orders), a boolean and an integer. -/
theorem object_with_tables_roundtrip_witness :
    ∃ y, roundTrip asciiLib
        (.obj [("users".toList, .arr [
            .obj [("id".toList, .int 1), ("name".toList, .str "Alice".toList)],
            .obj [("name".toList, .str "Bob".toList), ("id".toList, .int 2)]]),
          ("active".toList, .bool true), ("count".toList, .int 2)]) .Interface = .ok y ∧
      SameValue
        (.obj [("users".toList, .arr [
            .obj [("id".toList, .int 1), ("name".toList, .str "Alice".toList)],
            .obj [("name".toList, .str "Bob".toList), ("id".toList, .int 2)]]),
          ("active".toList, .bool true), ("count".toList, .int 2)]) y :=
  object_with_tables_roundtrip asciiLib _ (by simp) (by decide)
    (by
      have hint : ∀ n : Int, isInt64 n → GoodCell asciiLib (.int n) := fun n hn =>
        Or.inl ⟨n, hn, rfl⟩
      have h1 : GoodCell asciiLib (.int 1) := hint 1 ⟨by decide, by decide⟩
      have h2 : GoodCell asciiLib (.int 2) := hint 2 ⟨by decide, by decide⟩
      have hA : GoodCell asciiLib (.str "Alice".toList) :=
        Or.inr (Or.inr ⟨_, rfl, by decide, by decide⟩)
      have hB : GoodCell asciiLib (.str "Bob".toList) :=
        Or.inr (Or.inr ⟨_, rfl, by decide, by decide⟩)
      intro kv hkv
      simp only [List.mem_cons, List.not_mem_nil, or_false] at hkv
      rcases hkv with rfl | rfl | rfl
      · refine ⟨by decide, Or.inr ⟨_, _, rfl, by decide, ⟨by simp, ?_⟩, ?_⟩⟩
        · intro item hi
          simp only [List.mem_cons, List.not_mem_nil, or_false] at hi
          rcases hi with rfl | rfl
          · exact ⟨_, rfl, by decide, fun _ => Iff.rfl, by decide⟩
          · refine ⟨_, rfl, by decide, ?_, by decide⟩
            intro k
            simp only [mapKeys, List.map_cons, List.map_nil, List.mem_cons, List.not_mem_nil,
              or_false]
            exact or_comm
        · intro r hr kv hkv
          simp only [List.mem_cons, Value.obj.injEq, List.not_mem_nil, or_false] at hr
          rcases hr with rfl | rfl
          · simp only [List.mem_cons, List.not_mem_nil, or_false] at hkv
            rcases hkv with rfl | rfl
            · exact ⟨by decide, h1⟩
            · exact ⟨by decide, hA⟩
          · simp only [List.mem_cons, List.not_mem_nil, or_false] at hkv
            rcases hkv with rfl | rfl
            · exact ⟨by decide, hB⟩
            · exact ⟨by decide, h2⟩
      · exact ⟨by decide, Or.inl (Or.inr (Or.inl ⟨true, rfl⟩))⟩
      · exact ⟨by decide, Or.inl h2⟩)
    .Interface

/-- C3, at the string `- x`, which holds no line break and no control character:
`NeedsQuoting` does not flag it, the encoder writes it bare, and the parser reads the
line as a list with one item. -/
theorem dash_string_decodes_as_list (lib : GoLib) :
    NeedsQuoting lib "- x".toList = false ∧
      roundTrip lib (.str "- x".toList) .Interface =
        .ok (.arr [parsePrimitive lib "x".toList]) := by
  constructor <;> rfl

/-- C4, at the string `a:b`, which `NeedsQuoting` flags: the encoder writes it between
quotes, and the parser, which looks for the colon before it looks at quotes, reads the
line as a key with a value. -/
theorem quoted_colon_string_decodes_as_object (lib : GoLib) :
    NeedsQuoting lib "a:b".toList = true ∧
      Encode lib (.str "a:b".toList) = .ok "\"a:b\"".toList ∧
      roundTrip lib (.str "a:b".toList) .Interface =
        .ok (.obj [("\"a".toList, parsePrimitive lib "b\"".toList)]) := by
  refine ⟨?_, ?_, ?_⟩ <;> rfl

/-- C5, at the array of `TestEncodeTabularArray`: at the top level the header line is
read as a key with an empty value and the first row as a scalar document, so the
result is the scalar of the text `1,Alice`, which is never an array. -/
theorem top_level_table_decodes_as_scalar (lib : GoLib) :
    Encode lib (.arr [.obj [("id".toList, .int 1), ("name".toList, .str "Alice".toList)],
        .obj [("id".toList, .int 2), ("name".toList, .str "Bob".toList)]]) =
        .ok "[2]\x7bid,name\x7d:\n1,Alice\n2,Bob".toList ∧
      Parse lib "[2]\x7bid,name\x7d:\n1,Alice\n2,Bob".toList DefaultDecodeOptions =
        .ok (parsePrimitive lib "1,Alice".toList) ∧
      ∀ items, parsePrimitive lib "1,Alice".toList ≠ .arr items := by
  refine ⟨by rfl, by rfl, ?_⟩
  intro items
  have h2 : parsePrimitive lib "1,Alice".toList =
      match lib.ParseFloat "1,Alice".toList with
      | some f => .float f
      | none => .str "1,Alice".toList := by
    rfl
  rw [h2]
  cases lib.ParseFloat "1,Alice".toList <;> simp

/-- C7, at the object `\x7b"user": \x7b"name": "Alice"\x7d\x7d`: the encoder indents the
nested key line twice (by the depth and again when it re-indents the nested lines), and
the parser rejects the line as over-indented. -/
theorem nested_object_indented_twice (lib : GoLib) :
    Encode lib (.obj [("user".toList, .obj [("name".toList, .str "Alice".toList)])]) =
        .ok "user:\n    name: Alice".toList ∧
      ∃ e, roundTrip lib (.obj [("user".toList, .obj [("name".toList, .str "Alice".toList)])])
          .Interface = .error e ∧ e.Message = "unexpected indentation at line 2" ∧
        e.Line = 2 ∧ e.Column = 4 := by
  refine ⟨by rfl, NewToonError ("unexpected indentation at line " ++ toString (1 + 1)) 2 4,
    by rfl, by decide, by rfl, by rfl⟩

/-- C13. A document whose first line is a key line `k:` with an empty value (the text
of the key holds no colon; white space may follow the colon) and whose second line is
not blank, starts with exactly four spaces and is not a tabular header, is rejected by
`Parse` under `Indent = 2` with the error `unexpected indentation at line 2`, column 4.
The lines are those of the text as `Parse` cuts it, after its `TrimSpace`. -/
theorem indent_four_under_two_errors (lib : GoLib) (opts : DecodeOptions)
    (input key b l2 : Str) (rest : List Str) (hindent : opts.Indent = 2)
    (hlines : Split (TrimSpace input) '\n' = (key ++ ':' :: b) :: l2 :: rest)
    (hkey : ':' ∉ key) (hb : allSpace b)
    (hfour : CountIndent l2 = 4) (hnonblank : TrimSpace l2 ≠ [])
    (hnothdr : matchTabularHeader (TrimSpace l2) = none) :
    Parse lib input opts = .error (NewToonError "unexpected indentation at line 2" 2 4) := by
  obtain ⟨c, r, hcr, hc⟩ := first_line_head hlines (by simp)
  have hcore : Core (key ++ [':']) := by
    refine ⟨?_, key, ':', rfl, by decide⟩
    cases key with
    | nil => exact ⟨':', [], rfl, by decide⟩
    | cons k ks =>
      simp only [List.cons_append, List.cons.injEq] at hcr
      exact ⟨k, ks ++ [':'], rfl, hcr.1 ▸ hc⟩
  have hl1 : key ++ ':' :: b = [] ++ (key ++ [':']) ++ b := by simp
  have htrim : TrimSpace (key ++ ':' :: b) = key ++ [':'] := by
    rw [hl1]
    exact TrimSpace_core (by intro x hx; simp at hx) hb hcore
  have hci : CountIndent (key ++ ':' :: b) = 0 := by
    rw [hcr]
    exact CountIndent_replicate 0 r (by rintro rfl; exact absurd hc (by decide))
  unfold Parse
  simp only [hlines, List.length_cons]
  rw [if_neg (by omega)]
  have hfuel : 3 * (rest.length + 1 + 1) + 4 = (3 * rest.length + 6) + 1 + 1 + 1 + 1 := by omega
  rw [hfuel, parseValue]
  simp only []
  rw [loop_line lib opts _ 0 0 [] _ _ (by rw [htrim]; exact core_ne_nil hcore)
    (by rw [hci]; rfl)]
  rw [htrim, Index_colon_append _ hkey]
  have hdrop : List.drop (key.length + 1) (key ++ [':']) = [] := by simp
  have hnil : TrimSpace ([] : Str) = [] := rfl
  simp only [hdrop, hnil, if_true]
  rw [parseMultiLineValue]
  simp only [hnothdr, hfour, hindent]
  have hw : wrapInt (0 + 2) = 2 := by decide
  rw [hw, if_neg (by intro h; exact absurd h.1 (by decide))]
  rw [parseValue]
  simp only []
  rw [parseValueLoop]
  simp only [hnonblank, hfour, if_false]
  rw [if_neg (by decide), if_pos (by decide)]
  try rfl

/-- C13, at a nested block written with four spaces: `user:` over `    name: Alice`. -/
theorem indent_four_under_two_errors_witness :
    Parse asciiLib "user:\n    name: Alice".toList DefaultDecodeOptions =
      .error (NewToonError "unexpected indentation at line 2" 2 4) :=
  indent_four_under_two_errors asciiLib DefaultDecodeOptions "user:\n    name: Alice".toList
    "user".toList [] "    name: Alice".toList [] rfl (by rfl) (by decide)
    (fun _ h => by cases h) (by rfl) (by decide) (by rfl)

/-- C15, at the text of the list `[1, 2]`: `Parse` returns the array of the integers 1
and 2, and coercing it into a `[]int` fails, as it does into a `[2]int64`.  The elements
`src.Index(i)` of a `[]interface{}` have kind `Interface`, for which `assignInt` has no
case; so the coercion of any array with at least one element into a slice of any signed
integer kind fails and leaves the destination as it was.  Only a destination with
`interface{}` elements receives the elements. -/
theorem int_slice_coercion_fails (lib : GoLib) (conv : Decoder.GoConv) :
    Parse lib "- 1\n- 2".toList DefaultDecodeOptions = .ok (.arr [.int 1, .int 2]) ∧
    Decoder.Decode lib conv DefaultDecodeOptions "- 1\n- 2".toList
        (.pointer (.Slice (.Int .Int)) (.slice none)) =
      (.pointer (.Slice (.Int .Int)) (.slice none),
        .error (NewToonError "cannot convert interface \x7b\x7d to int" 0 0)) ∧
    Decoder.Decode lib conv DefaultDecodeOptions "- 1\n- 2".toList
        (.pointer (.Array 2 (.Int .Int64)) (.array [.int 0, .int 0])) =
      (.pointer (.Array 2 (.Int .Int64)) (.array [.int 0, .int 0]),
        .error (NewToonError "cannot convert interface \x7b\x7d to int" 0 0)) ∧
    (∀ (opts : DecodeOptions) (x : Value) (rest : List Value) (k : Decoder.IntKind)
        (content : Decoder.GoVal),
      Decoder.assignValue lib conv opts (.arr (x :: rest))
          (.pointer (.Slice (.Int k)) content) =
        (.pointer (.Slice (.Int k)) content,
          .error (NewToonError "cannot convert interface \x7b\x7d to int" 0 0))) ∧
    Decoder.Decode lib conv DefaultDecodeOptions "- 1\n- 2".toList
        (.pointer (.Slice .Interface) (.slice none)) =
      (.pointer (.Slice .Interface) (.slice (some [.dyn (.int 1), .dyn (.int 2)])),
        .ok ()) := by
  refine ⟨by rfl, by rfl, by rfl, ?_, by rfl⟩
  intro opts x rest k content
  cases k <;> rfl

/-- C12, at its own example: the text `a: 1` / `b: 2` and a struct whose only field is
`A int` with the tag `json:"a"`.  With `Strict = false` the decoder fails on the matching
key `a` instead of succeeding, in either order of the two keys; with `Strict = true` it
fails with the same conversion error, not with an unknown-field error, when `a` is
visited first.  The value `src.MapIndex(key)` has kind `Interface`, for which `assignInt`
has no case.  When the field has type `interface{}` the decoder does what the claim
says: the lenient call stores 1 and ignores `b`, the strict call reports `b`. -/
theorem struct_int_field_rejected (lib : GoLib) (conv : Decoder.GoConv) :
    Decoder.Decode lib conv { DefaultDecodeOptions with Strict := false } "a: 1\nb: 2".toList
        (.pointer (.Struct [(⟨"A".toList, "a".toList, [], true⟩, .Int .Int)])
          (.struct [.int 0])) =
      (.pointer (.Struct [(⟨"A".toList, "a".toList, [], true⟩, .Int .Int)]) (.struct [.int 0]),
        .error (NewToonError "cannot convert interface \x7b\x7d to int" 0 0)) ∧
    Decoder.assignValue lib conv { DefaultDecodeOptions with Strict := false }
        (.obj [("b".toList, .int 2), ("a".toList, .int 1)])
        (.pointer (.Struct [(⟨"A".toList, "a".toList, [], true⟩, .Int .Int)])
          (.struct [.int 0])) =
      (.pointer (.Struct [(⟨"A".toList, "a".toList, [], true⟩, .Int .Int)]) (.struct [.int 0]),
        .error (NewToonError "cannot convert interface \x7b\x7d to int" 0 0)) ∧
    Decoder.Decode lib conv { DefaultDecodeOptions with Strict := true } "a: 1\nb: 2".toList
        (.pointer (.Struct [(⟨"A".toList, "a".toList, [], true⟩, .Int .Int)])
          (.struct [.int 0])) =
      (.pointer (.Struct [(⟨"A".toList, "a".toList, [], true⟩, .Int .Int)]) (.struct [.int 0]),
        .error (NewToonError "cannot convert interface \x7b\x7d to int" 0 0)) ∧
    Decoder.Decode lib conv { DefaultDecodeOptions with Strict := false } "a: 1\nb: 2".toList
        (.pointer (.Struct [(⟨"A".toList, "a".toList, [], true⟩, .Interface)])
          (.struct [.dyn .null])) =
      (.pointer (.Struct [(⟨"A".toList, "a".toList, [], true⟩, .Interface)])
        (.struct [.dyn (.int 1)]), .ok ()) ∧
    (Decoder.Decode lib conv { DefaultDecodeOptions with Strict := true } "a: 1\nb: 2".toList
        (.pointer (.Struct [(⟨"A".toList, "a".toList, [], true⟩, .Interface)])
          (.struct [.dyn .null]))).2 =
      .error (NewToonError "unknown field: b" 0 0) := by
  refine ⟨by rfl, by rfl, by rfl, by rfl, by rfl⟩

/-- C14, as stated, fails at three destinations, whatever the library.  A nil
`map[int]interface{}` that receives the text `a: 1` is left as an empty map that is no
longer nil, because `assignMap` allocates the map before it converts the first key.  A
nil `*int` that receives the same text is left pointing to a new zero, because the
pointer is allocated before the element is assigned.  A struct with the field
`A interface{}` that receives `a: 1` / `b: 2` in strict mode has `A` set to 1 when the
unknown key `b` stops the call.  Each call returns an error. -/
theorem failed_decode_leaves_changes :
    ¬ ∃ (lib : GoLib) (conv : Decoder.GoConv),
      ¬ (Decoder.Decode lib conv DefaultDecodeOptions "a: 1".toList
            (.pointer (.Map (.Int .Int) .Interface) (.map none)) =
          (.pointer (.Map (.Int .Int) .Interface) (.map (some [])),
            .error (NewToonError "cannot parse int from string: a" 0 0)) ∧
        Decoder.Decode lib conv DefaultDecodeOptions "a: 1".toList
            (.pointer (.Ptr (.Int .Int)) (.ptr none)) =
          (.pointer (.Ptr (.Int .Int)) (.ptr (some (.int 0))),
            .error (NewToonError "cannot convert map[string]interface \x7b\x7d to int" 0 0)) ∧
        Decoder.Decode lib conv DefaultDecodeOptions "a: 1\nb: 2".toList
            (.pointer (.Struct [(⟨"A".toList, [], [], true⟩, .Interface)])
              (.struct [.dyn .null])) =
          (.pointer (.Struct [(⟨"A".toList, [], [], true⟩, .Interface)])
            (.struct [.dyn (.int 1)]), .error (NewToonError "unknown field: b" 0 0))) := by
  rintro ⟨lib, conv, h⟩
  exact h ⟨by rfl, by rfl, by rfl⟩

/-- C14, amended. If `Decode` returns an error, the destination is left exactly in its
pre-call state whenever the error is that of `Parse` (the coercion has not started), or
the destination is not a pointer to a variable of kind array, map, struct or pointer:
that is, for an argument that is no pointer or a nil pointer, and for a variable of kind
`interface`, string, bool, integer, float or slice (a slice is built aside and stored
only after every element has been converted).  An error of `Parse` is returned as it
is. -/
theorem failed_decode_keeps_destination (lib : GoLib) (conv : Decoder.GoConv)
    (opts : DecodeOptions) (data : Str) (dst : Decoder.Dest) (e : ToonError)
    (herr : (Decoder.Decode lib conv opts data dst).2 = .error e)
    (hkind : Parse lib data opts = .error e ∨ Decoder.Dest.filledInPlace dst = false) :
    (Decoder.Decode lib conv opts data dst).1 = dst ∧
    ∀ e2, Parse lib data opts = .error e2 →
      Decoder.Decode lib conv opts data dst = (dst, .error e2) := by
  refine ⟨?_, fun e2 h2 => by simp only [Decoder.Decode, h2]⟩
  unfold Decoder.Decode at herr ⊢
  cases hp : Parse lib data opts with
  | error e2 => rfl
  | panic => rfl
  | outOfFuel => rfl
  | ok parsed =>
    rw [hp] at herr hkind
    simp only [] at herr ⊢
    rcases hkind with hk | hk
    · cases hk
    · cases dst with
      | notPointer => rfl
      | nilPointer =>
        unfold Decoder.assignValue
        simp only []
        split <;> rfl
      | pointer t c =>
        simp only [Decoder.assignValue] at herr ⊢
        rw [assignReflectValue_error lib conv opts _ _ t c e hk herr]

/-- C14 amended, at two destinations that hold a value before the call: the text `abc`
into an `int` holding 5, and the list `- 1` / `- x` into a `[]int` holding `[7]`. Both
calls return an error and leave the content as it was. -/
theorem failed_decode_keeps_destination_witness :
    ((Decoder.Decode asciiLib Decoder.asciiConv DefaultDecodeOptions "abc".toList
        (.pointer (.Int .Int) (.int 5))).2 =
      .error (NewToonError "cannot parse int from string: abc" 0 0) ∧
      (Decoder.Decode asciiLib Decoder.asciiConv DefaultDecodeOptions "abc".toList
        (.pointer (.Int .Int) (.int 5))).1 = .pointer (.Int .Int) (.int 5)) ∧
    ((Decoder.Decode asciiLib Decoder.asciiConv DefaultDecodeOptions "- 1\n- x".toList
        (.pointer (.Slice (.Int .Int)) (.slice (some [.int 7])))).2 =
      .error (NewToonError "cannot convert interface \x7b\x7d to int" 0 0) ∧
      (Decoder.Decode asciiLib Decoder.asciiConv DefaultDecodeOptions "- 1\n- x".toList
        (.pointer (.Slice (.Int .Int)) (.slice (some [.int 7])))).1 =
        .pointer (.Slice (.Int .Int)) (.slice (some [.int 7]))) :=
  ⟨⟨by rfl, (failed_decode_keeps_destination asciiLib Decoder.asciiConv DefaultDecodeOptions
      "abc".toList (.pointer (.Int .Int) (.int 5))
      (NewToonError "cannot parse int from string: abc" 0 0) (by rfl) (Or.inr rfl)).1⟩,
    ⟨by rfl, (failed_decode_keeps_destination asciiLib Decoder.asciiConv DefaultDecodeOptions
      "- 1\n- x".toList (.pointer (.Slice (.Int .Int)) (.slice (some [.int 7])))
      (NewToonError "cannot convert interface \x7b\x7d to int" 0 0) (by rfl) (Or.inr rfl)).1⟩⟩

/-- C16, as stated, fails at the narrow kinds, whatever the library: the text `300`
decoded into an `int8` succeeds and leaves 44, and the text `-1` decoded into a `uint8`
succeeds and leaves 255. -/
theorem narrow_int_wraps :
    ¬ ∃ (lib : GoLib) (conv : Decoder.GoConv),
      ¬ (Parse lib "300".toList DefaultDecodeOptions = .ok (.int 300) ∧
        Decoder.Decode lib conv DefaultDecodeOptions "300".toList
            (.pointer (.Int .Int8) (.int 0)) =
          (.pointer (.Int .Int8) (.int 44), .ok ()) ∧
        Parse lib "-1".toList DefaultDecodeOptions = .ok (.int (-1)) ∧
        Decoder.Decode lib conv DefaultDecodeOptions "-1".toList
            (.pointer (.Uint .Uint8) (.uint 0)) =
          (.pointer (.Uint .Uint8) (.uint 255), .ok ())) := by
  rintro ⟨lib, conv, h⟩
  exact h ⟨by rfl, by rfl, by rfl, by rfl⟩

/-- C16, amended to the values the destination kind can hold.  When `Parse` returns the
`int64` integer `n`, decoding into a destination of a signed kind of width `w` with
`-2^(w-1) ≤ n < 2^(w-1)`, or of an unsigned kind of width `w` with `0 ≤ n < 2^w`,
succeeds and leaves the destination holding `n`. -/
theorem int_destination_in_range (lib : GoLib) (conv : Decoder.GoConv)
    (opts : DecodeOptions) (data : Str) (n : Int) (content ucontent : Decoder.GoVal)
    (hn : isInt64 n) (hparse : Parse lib data opts = .ok (.int n)) :
    (∀ k : Decoder.IntKind, -2 ^ (k.bits - 1) ≤ n → n < 2 ^ (k.bits - 1) →
      Decoder.Decode lib conv opts data (.pointer (.Int k) content) =
        (.pointer (.Int k) (.int n), .ok ())) ∧
    (∀ k : Decoder.UintKind, 0 ≤ n → n < 2 ^ k.bits →
      Decoder.Decode lib conv opts data (.pointer (.Uint k) ucontent) =
        (.pointer (.Uint k) (.uint n.toNat), .ok ())) := by
  constructor
  · intro k h1 h2
    rw [Decode_int_truncates lib conv opts data n content hn hparse k,
      (truncInt_spec k n).mpr ⟨h1, h2⟩]
  · intro k h1 h2
    have h := (truncUint_spec k n hn).mpr ⟨h1, h2⟩
    rw [Decode_uint_truncates lib conv opts data n ucontent hparse k]
    have e : Decoder.truncUint k.bits (Decoder.int64ToUint64 n) = n.toNat := by
      omega
    rw [e]

/-- C16 amended, at the text `42` and the kinds `int8` and `uint8`. -/
theorem int_destination_in_range_witness :
    Decoder.Decode asciiLib Decoder.asciiConv DefaultDecodeOptions "42".toList
        (.pointer (.Int .Int8) (.int 0)) =
      (.pointer (.Int .Int8) (.int 42), .ok ()) ∧
    Decoder.Decode asciiLib Decoder.asciiConv DefaultDecodeOptions "42".toList
        (.pointer (.Uint .Uint8) (.uint 0)) =
      (.pointer (.Uint .Uint8) (.uint 42), .ok ()) :=
  have h := int_destination_in_range asciiLib Decoder.asciiConv DefaultDecodeOptions
    "42".toList 42 (.int 0) (.uint 0) ⟨by decide, by decide⟩ (by rfl)
  ⟨h.1 .Int8 (by decide) (by decide), h.2 .Uint8 (by decide) (by decide)⟩

/-- C20. For an array whose objects have unique keys, `isTabularArray` holds exactly
when the array is non-empty, every element is an object, every element has the key set
of the first element, every value inside every element is scalar, and the first element
has at least one key; `encodeArray` returns the tabular form in that case, and in every
other case the literal `[]` (empty array) or the list form of `encodeArrayLoop`. -/
theorem tabular_eligibility (lib : GoLib) (opts : EncodeOptions) (arr : List Value)
    (depth : Int) (huniq : ∀ r, .obj r ∈ arr → (mapKeys r).Nodup) :
    (isTabularArray arr = true ↔ SpecTabular arr) ∧
    (SpecTabular arr → encodeArray lib opts arr depth = encodeTabularArray lib opts arr depth) ∧
    (¬ SpecTabular arr → encodeArray lib opts arr depth =
      match arr with
      | [] => .ok ["[]".toList]
      | _ :: _ =>
        match Repeat (wrapInt (depth * opts.Indent)) with
        | none => .panic
        | some indent => encodeArrayLoop lib opts indent arr depth) := by
  have hiff : isTabularArray arr = true ↔ SpecTabular arr := by
    constructor
    · exact isTabular_specTabular huniq
    · intro h
      obtain ⟨first, rest, rfl, he⟩ := specTabular_eligible huniq h
      exact eligible_isTabular he
  refine ⟨hiff, ?_, ?_⟩
  · intro h
    have ht := hiff.mpr h
    cases arr with
    | nil => exact absurd rfl h.1
    | cons x rest =>
      unfold encodeArray
      rw [encodeValue]
      simp only [ht, if_true]
  · intro h
    have ht : isTabularArray arr = false := by
      cases hb : isTabularArray arr
      · rfl
      · exact absurd (hiff.mp hb) h
    cases arr with
    | nil =>
      unfold encodeArray
      rw [encodeValue]
    | cons x rest =>
      unfold encodeArray
      rw [encodeValue]
      simp only [ht, Bool.false_eq_true, if_false]
      try rfl

/-- C20, at two objects that list the same two keys in different orders. -/
theorem tabular_eligibility_witness :
    (isTabularArray [.obj [("id".toList, .int 1), ("name".toList, .str "Alice".toList)],
        .obj [("name".toList, .str "Bob".toList), ("id".toList, .int 2)]] = true ↔
      SpecTabular [.obj [("id".toList, .int 1), ("name".toList, .str "Alice".toList)],
        .obj [("name".toList, .str "Bob".toList), ("id".toList, .int 2)]]) ∧
    (SpecTabular [.obj [("id".toList, .int 1), ("name".toList, .str "Alice".toList)],
        .obj [("name".toList, .str "Bob".toList), ("id".toList, .int 2)]] →
      encodeArray asciiLib DefaultEncodeOptions
        [.obj [("id".toList, .int 1), ("name".toList, .str "Alice".toList)],
          .obj [("name".toList, .str "Bob".toList), ("id".toList, .int 2)]] 0 =
      encodeTabularArray asciiLib DefaultEncodeOptions
        [.obj [("id".toList, .int 1), ("name".toList, .str "Alice".toList)],
          .obj [("name".toList, .str "Bob".toList), ("id".toList, .int 2)]] 0) ∧
    (¬ SpecTabular [.obj [("id".toList, .int 1), ("name".toList, .str "Alice".toList)],
        .obj [("name".toList, .str "Bob".toList), ("id".toList, .int 2)]] →
      encodeArray asciiLib DefaultEncodeOptions
        [.obj [("id".toList, .int 1), ("name".toList, .str "Alice".toList)],
          .obj [("name".toList, .str "Bob".toList), ("id".toList, .int 2)]] 0 =
      match Repeat (wrapInt (0 * DefaultEncodeOptions.Indent)) with
      | none => .panic
      | some indent => encodeArrayLoop asciiLib DefaultEncodeOptions indent
          [.obj [("id".toList, .int 1), ("name".toList, .str "Alice".toList)],
            .obj [("name".toList, .str "Bob".toList), ("id".toList, .int 2)]] 0) :=
  tabular_eligibility asciiLib DefaultEncodeOptions
    [.obj [("id".toList, .int 1), ("name".toList, .str "Alice".toList)],
      .obj [("name".toList, .str "Bob".toList), ("id".toList, .int 2)]] 0
    (by
      intro r hr
      simp only [List.mem_cons, Value.obj.injEq, List.not_mem_nil, or_false] at hr
      rcases hr with rfl | rfl <;> decide)

/-- C19, as stated, fails for every library whose float parse accepts `inf` or rejects
`1e`, as `strconv.ParseFloat` does both: `NeedsQuoting` leaves `inf` bare although it
parses as a number, and flags `1e` although it parses as none and meets no other
condition of the rule. -/
theorem quoting_rule_not_number_parse :
    ¬ ∃ lib : GoLib,
      ((lib.ParseFloat "inf".toList).isSome = true ∨ lib.ParseFloat "1e".toList = none) ∧
      ∀ s, (NeedsQuoting lib s = true ↔ SpecNeedsQuoting lib s) := by
  rintro ⟨lib, hlib, h⟩
  rcases hlib with hinf | hexp
  · have h1 : NeedsQuoting lib "inf".toList = false := by rfl
    have h2 : SpecNeedsQuoting lib "inf".toList := Or.inr (Or.inr (Or.inl (Or.inr hinf)))
    have := (h _).mpr h2
    rw [h1] at this
    cases this
  · have h1 : NeedsQuoting lib "1e".toList = true := by rfl
    have h2 := (h _).mp h1
    rcases h2 with h2 | h2 | h2 | h2 | h2
    · cases h2
    · revert h2; decide
    · rcases h2 with h2 | h2
      · revert h2; decide
      · rw [hexp] at h2; cases h2
    · revert h2; decide
    · revert h2; decide

/-- C19, amended.  `NeedsQuoting s` holds exactly when `s` is empty, or is `null`, `true`
or `false`, or has the numeric shape `isNumeric` tests (only digits, dots, signs, `e` and
`E`; at most one dot; a sign only in first position; at least one digit), or contains a
colon, comma, double quote, line feed, carriage return or tab, or starts or ends with a
space.  Every text the integer parse of the scalar parser accepts has the numeric shape,
and a string that `NeedsQuoting` does not flag is emitted bare by `encodeString`. -/
theorem needsQuoting_characterised (lib : GoLib) (s : Str) :
    (NeedsQuoting lib s = true ↔
      s = [] ∨
      (s = "null".toList ∨ s = "true".toList ∨ s = "false".toList) ∨
      NumericPattern lib s ∨
      (∃ c ∈ s, c = ':' ∨ c = ',' ∨ c = '"' ∨ c = '\n' ∨ c = '\r' ∨ c = '\t') ∨
      (s.head? = some ' ' ∨ s.getLast? = some ' ')) ∧
    (∀ n, ParseInt s = some n → NumericPattern lib s) ∧
    (NeedsQuoting lib s = false → encodeString lib s = s) := by
  refine ⟨?_, fun n h => ParseInt_numeric lib h, ?_⟩
  · unfold NeedsQuoting
    by_cases h1 : s = []
    · rw [if_pos h1]
      exact iff_of_true rfl (Or.inl h1)
    · rw [if_neg h1]
      by_cases h2 : s = "null".toList ∨ s = "true".toList ∨ s = "false".toList
      · rw [if_pos h2]
        exact iff_of_true rfl (Or.inr (Or.inl h2))
      · rw [if_neg h2]
        by_cases h3 : isNumeric lib s = true
        · rw [if_pos h3]
          exact iff_of_true rfl (Or.inr (Or.inr (Or.inl ((isNumeric_spec lib s).mp h3))))
        · rw [if_neg h3]
          have h3' : ¬ NumericPattern lib s := fun h => h3 ((isNumeric_spec lib s).mpr h)
          rw [List.any_eq_true]
          constructor
          · rintro ⟨c, hc, h⟩
            rw [Bool.or_eq_true] at h
            rcases h with h | h
            · exact Or.inr (Or.inr (Or.inr (Or.inl ⟨c, hc, by simpa using h⟩)))
            · simp only [Bool.and_eq_true, Bool.or_eq_true, decide_eq_true_eq] at h
              obtain ⟨_, _, h⟩ := h
              rcases h with h | h
              · exact Or.inr (Or.inr (Or.inr (Or.inr (Or.inl ((HasPrefix_space s).mp h)))))
              · exact Or.inr (Or.inr (Or.inr (Or.inr (Or.inr ((HasSuffix_space s).mp h)))))
          · rintro (h | h | h | h | h)
            · exact absurd h h1
            · exact absurd h h2
            · exact absurd h h3'
            · obtain ⟨c, hc, h⟩ := h
              exact ⟨c, hc, by rw [Bool.or_eq_true]; exact Or.inl (by simpa using h)⟩
            · have hmem : ' ' ∈ s := by
                rcases h with h | h
                · exact List.mem_of_mem_head? h
                · exact List.mem_of_mem_getLast? h
              refine ⟨' ', hmem, ?_⟩
              rw [Bool.or_eq_true]
              right
              simp only [Bool.and_eq_true, Bool.or_eq_true, decide_eq_true_eq]
              refine ⟨by decide, trivial, ?_⟩
              rcases h with h | h
              · exact Or.inl ((HasPrefix_space s).mpr h)
              · exact Or.inr ((HasSuffix_space s).mpr h)
  · intro h
    unfold encodeString
    rw [h]
    rfl

/-- C17, at the object `\x7b"k": [\x7b"a": 1, "b": 2\x7d]\x7d`: with the tab or the pipe as
delimiter the encoder joins the two cells of the row with it, and the decoder, which
splits rows on the comma only, finds one value for two fields and fails; with the comma
the object comes back. -/
theorem tab_and_pipe_rows_rejected (lib : GoLib) :
    Encoder_Encode lib { DefaultEncodeOptions with Delimiter := DelimiterTab }
        (.obj [("k".toList, .arr [.obj [("a".toList, .int 1), ("b".toList, .int 2)]])]) =
        .ok "k:\n  [1]\x7ba,b\x7d:\n    1\t2".toList ∧
      encodeThenDecode lib { DefaultEncodeOptions with Delimiter := DelimiterTab }
        DefaultDecodeOptions
        (.obj [("k".toList, .arr [.obj [("a".toList, .int 1), ("b".toList, .int 2)]])])
        .Interface =
        .error (NewToonError "field count mismatch at line 3: expected 2, got 1" 3 0) ∧
      Encoder_Encode lib { DefaultEncodeOptions with Delimiter := DelimiterPipe }
        (.obj [("k".toList, .arr [.obj [("a".toList, .int 1), ("b".toList, .int 2)]])]) =
        .ok "k:\n  [1]\x7ba,b\x7d:\n    1|2".toList ∧
      encodeThenDecode lib { DefaultEncodeOptions with Delimiter := DelimiterPipe }
        DefaultDecodeOptions
        (.obj [("k".toList, .arr [.obj [("a".toList, .int 1), ("b".toList, .int 2)]])])
        .Interface =
        .error (NewToonError "field count mismatch at line 3: expected 2, got 1" 3 0) ∧
      encodeThenDecode lib { DefaultEncodeOptions with Delimiter := DelimiterComma }
        DefaultDecodeOptions
        (.obj [("k".toList, .arr [.obj [("a".toList, .int 1), ("b".toList, .int 2)]])])
        .Interface =
        .ok (.obj [("k".toList, .arr [.obj [("a".toList, .int 1), ("b".toList, .int 2)]])]) := by
  refine ⟨by rfl, ?_, by rfl, ?_, by rfl⟩
  · have h : encodeThenDecode lib { DefaultEncodeOptions with Delimiter := DelimiterTab }
        DefaultDecodeOptions
        (.obj [("k".toList, .arr [.obj [("a".toList, .int 1), ("b".toList, .int 2)]])])
        .Interface =
        .error (NewToonError ("field count mismatch at line " ++ toString (2 + 1) ++
          ": expected " ++ toString 2 ++ ", got " ++ toString 1) 3 0) := by rfl
    rw [h]
    decide
  · have h : encodeThenDecode lib { DefaultEncodeOptions with Delimiter := DelimiterPipe }
        DefaultDecodeOptions
        (.obj [("k".toList, .arr [.obj [("a".toList, .int 1), ("b".toList, .int 2)]])])
        .Interface =
        .error (NewToonError ("field count mismatch at line " ++ toString (2 + 1) ++
          ": expected " ++ toString 2 ++ ", got " ++ toString 1) 3 0) := by rfl
    rw [h]
    decide

/-- C18, at the object `\x7b"k": [\x7b"a": "true", "b": "12"\x7d]\x7d`: the encoder quotes both
cells, the row splitter drops the quotes, and the cells come back as the boolean `true`
and the integer `12`, not as the strings they were.  A `null` cell is written as the
empty text and comes back as what `parsePrimitive` makes of it, which is never `null`. -/
theorem quoted_cells_lose_their_kind (lib : GoLib) :
    Encode lib (.obj [("k".toList, .arr [.obj [("a".toList, .str "true".toList),
        ("b".toList, .str "12".toList)]])]) =
        .ok "k:\n  [1]\x7ba,b\x7d:\n    \"true\",\"12\"".toList ∧
      roundTrip lib (.obj [("k".toList, .arr [.obj [("a".toList, .str "true".toList),
        ("b".toList, .str "12".toList)]])]) .Interface =
        .ok (.obj [("k".toList, .arr [.obj [("a".toList, .bool true),
          ("b".toList, .int 12)]])]) ∧
      ∃ v, roundTrip lib (.obj [("k".toList, .arr [.obj [("a".toList, .null),
          ("b".toList, .int 1)]])]) .Interface =
          .ok (.obj [("k".toList, .arr [.obj [("a".toList, v), ("b".toList, .int 1)]])]) ∧
        v ≠ .null := by
  refine ⟨by rfl, by rfl, parsePrimitive lib [], by rfl, ?_⟩
  have h2 : parsePrimitive lib [] =
      match lib.ParseFloat [] with
      | some f => .float f
      | none => .str [] := by
    rfl
  rw [h2]
  cases lib.ParseFloat [] <;> simp

/-! ## Claims C21 to C30 -/

/-- C21, at the nested object of the output demonstration (`user` holding `profile`
holding `name` and `settings`): the key lines of the levels 0, 1, 2, 3 start with 0, 4,
8 and 12 spaces under `Indent = 2`, so the lines of a nested value stand two steps
deeper than their key line, not one, and a key line of level n starts with 2 * n * Indent
spaces, not n * Indent. -/
theorem nested_key_lines_at_double_indent (lib : GoLib) :
    EncodeLines lib DefaultEncodeOptions
        (.obj [("user".toList, .obj [("profile".toList, .obj [
          ("name".toList, .str "Alice".toList),
          ("settings".toList, .obj [("theme".toList, .str "dark".toList),
            ("notifications".toList, .bool true)])])])]) =
      .ok ["user:".toList, "    profile:".toList, "        name: Alice".toList,
        "        settings:".toList, "            theme: dark".toList,
        "            notifications: true".toList] ∧
    ["user:".toList, "    profile:".toList, "        name: Alice".toList,
        "        settings:".toList, "            theme: dark".toList,
        "            notifications: true".toList].map CountIndent = [0, 4, 8, 8, 12, 12] ∧
    EncodeLines lib DefaultEncodeOptions (.obj [("k".toList, .arr [.int 1, .int 2])]) =
      .ok ["k:".toList, "    - 1".toList, "    - 2".toList] := by
  refine ⟨by rfl, by decide, by rfl⟩

/-- C22: the branch of `parseArrayItems` for an item with an empty remainder is never
taken, because a trimmed line that starts with a dash and a space has a non-empty
remainder; a line holding only the dash ends the list.  At the array `[1, \x7ba: \x7bb: 2\x7d\x7d]`
the encoder writes the lines `- 1`, `-`, and the element lines, and `Parse` returns the
list `[1]`, also when the element lines stand one step deeper as the parser expects. -/
theorem dash_only_item_not_read (lib : GoLib) :
    (∀ line : Str, HasPrefix (TrimSpace line) ['-', ' '] = true →
      TrimSpace ((TrimSpace line).drop 2) ≠ []) ∧
    Encode lib (.arr [.int 1, .obj [("a".toList, .obj [("b".toList, .int 2)])]]) =
      .ok "- 1\n-\n    a:\n        b: 2".toList ∧
    roundTrip lib (.arr [.int 1, .obj [("a".toList, .obj [("b".toList, .int 2)])]])
      .Interface = .ok (.arr [.int 1]) ∧
    Parse lib "- 1\n- \n  a: 2".toList DefaultDecodeOptions = .ok (.arr [.int 1]) ∧
    Parse lib "k:\n  - 1\n  -\n    a: 2".toList DefaultDecodeOptions =
      .error (NewToonError "unexpected indentation at line 3" 3 2) := by
  refine ⟨fun line h => dash_item_nonempty h, by rfl, by rfl, by rfl, by rfl⟩

/-- C23: among the items of a top-level list, a line with more leading spaces than the
items ends the list without an error: for the lines `- 1` and `    - 2` (four spaces
where none is expected) `Parse` returns the list `[1]`, for every options value. -/
theorem overindented_item_line_accepted (lib : GoLib) (opts : DecodeOptions) :
    Parse lib "- 1\n    - 2".toList opts = .ok (.arr [.int 1]) ∧
    Parse lib "- 1\n    b: 2\n- 3".toList opts = .ok (.arr [.int 1]) ∧
    CountIndent "    - 2".toList = 4 := by
  refine ⟨by rfl, by rfl, by rfl⟩

/-- C24. At one nesting level (indentation `n`), after any block of `key: scalar`
lines, a line at the same indentation that begins with a dash and a space and holds no
colon makes the parse call of that level return the list of that line and the dash lines
that follow it at the same indentation, each item read by `parsePrimitive`; the run ends
at the first line that is not such a dash line, where the cursor stays.  Whatever pairs
the loop had collected (`result`) are not in what it returns. -/
theorem dash_line_replaces_object (lib : GoLib) (opts : DecodeOptions) (n : Nat) (block : List (Str × Str))
    (dash : Str) (dashes rest : List Str) (fuel pos : Nat)
    (hblock : ∀ kv ∈ block, isIdentifier kv.1 = true ∧ TrimSpace kv.2 ≠ [])
    (hdash : ∀ l ∈ dash :: dashes, DashLine n l)
    (hcolon : ':' ∉ dash)
    (hrest : ∀ l, rest.head? = some l → ¬ DashLine n l) :
    (∀ result : List (Str × Value),
      parseValueLoop lib opts (fuel + dashes.length + 3)
          { rest := dash :: dashes ++ rest, pos := pos } n result =
        .ok (.arr ((dash :: dashes).map fun l => parsePrimitive lib ((TrimSpace l).drop 2)),
          { rest := rest, pos := pos + (dashes.length + 1) })) ∧
    parseValue lib opts (fuel + block.length + dashes.length + 4)
        { rest := block.map (fun kv => kvLine n kv.1 kv.2) ++ (dash :: dashes ++ rest),
          pos := pos } n =
      .ok (.arr ((dash :: dashes).map fun l => parsePrimitive lib ((TrimSpace l).drop 2)),
        { rest := rest, pos := pos + block.length + (dashes.length + 1) }) := by
  have hloop : ∀ (result : List (Str × Value)) (q : Nat),
      parseValueLoop lib opts (fuel + dashes.length + 3)
          { rest := dash :: dashes ++ rest, pos := q } n result =
        .ok (.arr ((dash :: dashes).map fun l => parsePrimitive lib ((TrimSpace l).drop 2)),
          { rest := rest, pos := q + (dashes.length + 1) }) := by
    intro result q
    obtain ⟨h1, h2⟩ := hdash dash (List.mem_cons_self _ _)
    have hne : TrimSpace dash ≠ [] := by
      intro h0
      rw [h0] at h2
      cases h2
    have hc : ':' ∉ TrimSpace dash := fun h => hcolon (TrimSpace_subset h)
    have e : fuel + dashes.length + 3 = (fuel + (dash :: dashes).length + 1) + 1 := by
      simp only [List.length_cons]; omega
    rw [e, List.cons_append, loop_line lib opts _ q n result dash _ hne h1]
    simp only [Index_colon_none hc, h2, if_true]
    have := parseArrayItems_run lib opts n rest hrest (dash :: dashes) fuel q [] hdash
    simp only [List.cons_append, List.nil_append, List.length_cons] at this
    simp only [List.length_cons]
    rw [this]
  refine ⟨fun result => hloop result pos, ?_⟩
  have e : fuel + block.length + dashes.length + 4 =
      ((fuel + dashes.length + 3) + block.length) + 1 := by omega
  rw [e, parseValue]
  have hne : block.map (fun kv => kvLine n kv.1 kv.2) ++ (dash :: dashes ++ rest) ≠ [] := by
    simp
  obtain ⟨a, t, hat⟩ := List.exists_cons_of_ne_nil hne
  simp only [hat]
  rw [← hat, loop_kvLines lib opts n _ block _ pos [] hblock, hloop]

/-- C24, at the lines `a: 1`, `- x`, `- y`, `b: 2`: the call returns the list of `x`
and `y` and stops before `b: 2`. -/
theorem dash_line_replaces_object_witness :
    parseValue asciiLib DefaultDecodeOptions (0 + 1 + 1 + 4)
        { rest := ["a: 1".toList, "- x".toList, "- y".toList, "b: 2".toList], pos := 0 } 0 =
      .ok (.arr [.str "x".toList, .str "y".toList], { rest := ["b: 2".toList], pos := 3 }) :=
  (dash_line_replaces_object asciiLib DefaultDecodeOptions 0 [("a".toList, "1".toList)]
    "- x".toList ["- y".toList] ["b: 2".toList] 0 0
    (by decide) (by unfold DashLine; decide) (by decide)
    (by unfold DashLine; decide)).2

/-- C25, amended. For every value tree and every options value with a non-negative
`Indent` such that the nesting height of the tree, and the height times `Indent`, stay
below 2^63, `Encode` returns text.  For every options value whatever, `Encode` returns no
error value (its outcome is text or the abort of `strings.Repeat`), and
`encodeTabularArray`, entered after `isTabularArray` has accepted the array, returns no
error value either: the error of `primitiveToString` is unreachable. -/
theorem encode_total_nonneg_indent (lib : GoLib) (opts : EncodeOptions) (v : Value)
    (hpad : 0 ≤ opts.Indent) (hheight : (Value.height v : Int) < 2 ^ 63)
    (hfit : (Value.height v : Int) * opts.Indent < 2 ^ 63) :
    (∃ text, Encoder_Encode lib opts v = .ok text) ∧
    (∀ opts2 : EncodeOptions, (Encoder_Encode lib opts2 v).noError) ∧
    (∀ (opts2 : EncodeOptions) (arr : List Value) (depth : Int), isTabularArray arr = true →
      (encodeTabularArray lib opts2 arr depth).noError) := by
  refine ⟨?_, ?_, ?_⟩
  · have h := encodeValue_succeeds lib opts hpad _ hheight hfit v 0 (le_refl _) (by omega)
    obtain ⟨lines, hl⟩ := succeeds_iff.mp h
    exact ⟨Join lines ['\n'], by simp only [Encoder_Encode, EncodeLines, hl]⟩
  · intro opts2
    have h := encodeValue_noError lib opts2 v 0
    simp only [Encoder_Encode, EncodeLines]
    cases hE : encodeValue lib opts2 v 0 with
    | ok lines => trivial
    | error e => rw [hE] at h; exact h
    | panic => trivial
    | outOfFuel => rw [hE] at h; exact h
  · intro opts2 arr depth h
    exact encodeTabularArray_noError lib opts2 depth h

/-- C25 amended, at an object holding an array with an integer and an empty object. -/
theorem encode_total_nonneg_indent_witness :
    ((0 : Int) ≤ DefaultEncodeOptions.Indent ∧
      (Value.height (.obj [("a".toList, .arr [.int 1, .obj []])]) : Int) < 2 ^ 63 ∧
      (Value.height (.obj [("a".toList, .arr [.int 1, .obj []])]) : Int) *
        DefaultEncodeOptions.Indent < 2 ^ 63) ∧
    ∃ text, Encoder_Encode asciiLib DefaultEncodeOptions
      (.obj [("a".toList, .arr [.int 1, .obj []])]) = .ok text :=
  ⟨by decide, (encode_total_nonneg_indent asciiLib DefaultEncodeOptions (.obj [("a".toList, .arr [.int 1, .obj []])])
    (by decide) (by decide) (by decide)).1⟩

/-- C25 as stated fails for `Indent = -1`: encoding an object nested in an object
reaches `strings.Repeat` with a negative count, which aborts; no text is returned. -/
theorem negative_indent_panics :
    ¬ ∃ (lib : GoLib) (text : Str),
      Encoder_Encode lib { DefaultEncodeOptions with Indent := -1 }
        (.obj [("a".toList, .obj [("b".toList, .int 1)])]) = .ok text := by
  rintro ⟨lib, text, h⟩
  have hp : Encoder_Encode lib { DefaultEncodeOptions with Indent := -1 }
      (.obj [("a".toList, .obj [("b".toList, .int 1)])]) = .panic := rfl
  rw [hp] at h
  cases h

/-- C26: with a pointer destination, a source that is a boolean, an integer or a
string reaches `src.IsNil()`, which aborts on a value of a kind without nil; so
`Decode` of the text `42` into a `*int` (a nil pointer variable) panics, as do `true` into
a `*bool` and a quoted string into a `*string`. -/
theorem pointer_destination_scalar_panics (lib : GoLib) (conv : Decoder.GoConv)
    (opts : DecodeOptions) (fuel : Nat) (elem : Decoder.GoType) (dst : Decoder.GoVal)
    (b : Bool) (n : Int) (s : Str) :
    Decoder.assignReflectValue lib conv opts (fuel + 1) (.concrete (.bool b)) (.Ptr elem) dst =
      (dst, .panic) ∧
    Decoder.assignReflectValue lib conv opts (fuel + 1) (.concrete (.int n)) (.Ptr elem) dst =
      (dst, .panic) ∧
    Decoder.assignReflectValue lib conv opts (fuel + 1) (.concrete (.str s)) (.Ptr elem) dst =
      (dst, .panic) ∧
    Decoder.Decode lib conv DefaultDecodeOptions "42".toList
        (.pointer (.Ptr (.Int .Int)) (.ptr none)) =
      (.pointer (.Ptr (.Int .Int)) (.ptr none), .panic) ∧
    Decoder.Decode lib conv DefaultDecodeOptions "true".toList
        (.pointer (.Ptr .Bool) (.ptr none)) =
      (.pointer (.Ptr .Bool) (.ptr none), .panic) ∧
    Decoder.Decode lib conv DefaultDecodeOptions "\"hi\"".toList
        (.pointer (.Ptr .String) (.ptr none)) =
      (.pointer (.Ptr .String) (.ptr none), .panic) := by
  refine ⟨by rfl, by rfl, by rfl, by rfl, by rfl, by rfl⟩

/-- C28, amended. For every first line `s` (without a line feed) that is not blank,
holds no colon and, once trimmed, does not begin with a dash and a space, and for every
following text `r`, `Parse` of `s`, a line feed, `r` returns `parsePrimitive(s)`:
everything after the scalar is ignored. -/
theorem top_level_scalar_ignores_rest (lib : GoLib) (opts : DecodeOptions) (s r : Str) (hnl : '\n' ∉ s)
    (hnonblank : TrimSpace s ≠ []) (hcolon : ':' ∉ s)
    (hdash : HasPrefix (TrimSpace s) ['-', ' '] = false) :
    Parse lib (s ++ '\n' :: r) opts = .ok (parsePrimitive lib s) := by
  obtain ⟨l1, rest, hsplit, htrim, hci⟩ := first_line_of_text r hnl hnonblank
  unfold Parse
  simp only [hsplit, List.length_cons]
  rw [if_neg (by omega)]
  have hfuel : 3 * (rest.length + 1) + 4 = (3 * rest.length + 5) + 1 + 1 := by omega
  rw [hfuel, parseValue]
  simp only []
  rw [loop_line lib opts _ 0 0 [] l1 rest (by rw [htrim]; exact hnonblank)
    (by rw [hci]; rfl)]
  have hc : ':' ∉ TrimSpace s := fun h => hcolon (TrimSpace_subset h)
  simp only [htrim, Index_colon_none hc, hdash, parsePrimitive_TrimSpace]
  rfl

/-- C28 amended, at the first line `hello` followed by two lines that are not
well-formed. -/
theorem top_level_scalar_ignores_rest_witness :
    Parse asciiLib ("hello".toList ++ '\n' :: "      x:\n- [".toList) DefaultDecodeOptions =
      .ok (parsePrimitive asciiLib "hello".toList) :=
  top_level_scalar_ignores_rest asciiLib DefaultDecodeOptions "hello".toList
    "      x:\n- [".toList (by decide) (by decide) (by decide) (by decide)

/-- C28 as stated fails for the first line ` - 1` (a space, a dash, a space, `1`): it
is not blank, holds no colon and does not begin with a dash, yet `Parse` trims the text
first and returns the list `[1]`, not `parsePrimitive` of the line. -/
theorem indented_dash_first_line_is_list :
    ('\n' ∉ " - 1".toList ∧ TrimSpace " - 1".toList ≠ [] ∧ ':' ∉ " - 1".toList ∧
      HasPrefix " - 1".toList ['-', ' '] = false) ∧
    ¬ ∃ lib, Parse lib (" - 1".toList ++ '\n' :: "2".toList) DefaultDecodeOptions =
      .ok (parsePrimitive lib " - 1".toList) := by
  refine ⟨⟨by decide, by decide, by decide, by decide⟩, ?_⟩
  rintro ⟨lib, h⟩
  have h1 : Parse lib (" - 1".toList ++ '\n' :: "2".toList) DefaultDecodeOptions =
      .ok (.arr [.int 1]) := by rfl
  have h2 : parsePrimitive lib " - 1".toList =
      match lib.ParseFloat "- 1".toList with
      | some f => .float f
      | none => .str "- 1".toList := by
    rfl
  rw [h1, h2] at h
  cases hf : lib.ParseFloat "- 1".toList <;> rw [hf] at h <;> simp at h

/-- C29, amended. Let `x` and `y` be two listings of one object (equal up to the order
of the keys, at the top level and inside the rows of its tables), with unique identifier
keys, each value a scalar that stands on one line and reads back as itself, or a table of
such cells under its key.  Then parsing the encoding of `x` and parsing the encoding of
`y` both succeed, and the two parsed values are equal up to the order of the keys:
neither the order in which `encodeObject` visits the keys nor the field order of a
table header changes the decoded value. -/
theorem key_order_independent (lib : GoLib) (x y : List (Str × Value)) (hne : x ≠ [])
    (hnodup : (mapKeys x).Nodup)
    (hx : ∀ kv ∈ x, GoodField lib kv) (hy : ∀ kv ∈ y, GoodField lib kv)
    (hsame : SameValue (.obj x) (.obj y)) :
    ∃ vx vy, roundTrip lib (.obj x) .Interface = .ok vx ∧
      roundTrip lib (.obj y) .Interface = .ok vy ∧ SameValue vx vy := by
  simp only [SameValue] at hsame
  obtain ⟨c, hperm, hc⟩ := hsame
  have hkeys : (mapKeys y).Perm (mapKeys x) := by
    rw [← SameFields_keys x c hc]
    exact hperm.map _
  have hyne : y ≠ [] := by
    rintro rfl
    have := hkeys.length_eq
    cases x with
    | nil => exact hne rfl
    | cons e x => simp [mapKeys] at this
  have hynd : (mapKeys y).Nodup := hkeys.nodup_iff.mpr hnodup
  refine ⟨.obj (x.map fun kv => (kv.1, readBack kv.2)),
    .obj (y.map fun kv => (kv.1, readBack kv.2)), ?_, ?_, ?_⟩
  · rw [roundTrip_object lib x hne hnodup hx .Interface]
    obtain ⟨kv0, x2, rfl⟩ := List.exists_cons_of_ne_nil hne
    rfl
  · rw [roundTrip_object lib y hyne hynd hy .Interface]
    obtain ⟨kv0, y2, rfl⟩ := List.exists_cons_of_ne_nil hyne
    rfl
  · simp only [SameValue]
    exact ⟨_, hperm.map _, SameFields_readBack lib x c hx hc⟩

/-- C29 amended, at an object with a one-row table and an integer, listed in two key
orders, the row of the table listing its keys in two orders as well (so the headers
differ). -/
theorem key_order_independent_witness :
    ∃ vx vy,
      roundTrip asciiLib
        (.obj [("t".toList, .arr [.obj [("id".toList, .int 1), ("name".toList, .str "Al".toList)]]),
          ("n".toList, .int 5)]) .Interface = .ok vx ∧
      roundTrip asciiLib
        (.obj [("n".toList, .int 5),
          ("t".toList, .arr [.obj [("name".toList, .str "Al".toList), ("id".toList, .int 1)]])])
        .Interface = .ok vy ∧
      SameValue vx vy :=
  key_order_independent asciiLib _ _ (by simp) (by decide)
    (by
      have h1 : GoodCell asciiLib (.int 1) := Or.inl ⟨1, ⟨by decide, by decide⟩, rfl⟩
      have h5 : GoodCell asciiLib (.int 5) := Or.inl ⟨5, ⟨by decide, by decide⟩, rfl⟩
      have hA : GoodCell asciiLib (.str "Al".toList) :=
        Or.inr (Or.inr ⟨_, rfl, by decide, by decide⟩)
      intro kv hkv
      simp only [List.mem_cons, List.not_mem_nil, or_false] at hkv
      rcases hkv with rfl | rfl
      · refine ⟨by decide, Or.inr ⟨_, _, rfl, by decide, ⟨by simp, ?_⟩, ?_⟩⟩
        · intro item hi
          simp only [List.mem_cons, List.not_mem_nil, or_false] at hi
          subst hi
          exact ⟨_, rfl, by decide, fun _ => Iff.rfl, by decide⟩
        · intro r hr kv hkv
          simp only [List.mem_cons, Value.obj.injEq, List.not_mem_nil, or_false] at hr
          subst hr
          simp only [List.mem_cons, List.not_mem_nil, or_false] at hkv
          rcases hkv with rfl | rfl
          · exact ⟨by decide, h1⟩
          · exact ⟨by decide, hA⟩
      · exact ⟨by decide, Or.inl (goodCell_scalar asciiLib h5)⟩)
    (by
      have h1 : GoodCell asciiLib (.int 1) := Or.inl ⟨1, ⟨by decide, by decide⟩, rfl⟩
      have h5 : GoodCell asciiLib (.int 5) := Or.inl ⟨5, ⟨by decide, by decide⟩, rfl⟩
      have hA : GoodCell asciiLib (.str "Al".toList) :=
        Or.inr (Or.inr ⟨_, rfl, by decide, by decide⟩)
      intro kv hkv
      simp only [List.mem_cons, List.not_mem_nil, or_false] at hkv
      rcases hkv with rfl | rfl
      · exact ⟨by decide, Or.inl (goodCell_scalar asciiLib h5)⟩
      · refine ⟨by decide, Or.inr ⟨_, _, rfl, by decide, ⟨by simp, ?_⟩, ?_⟩⟩
        · intro item hi
          simp only [List.mem_cons, List.not_mem_nil, or_false] at hi
          subst hi
          exact ⟨_, rfl, by decide, fun _ => Iff.rfl, by decide⟩
        · intro r hr kv hkv
          simp only [List.mem_cons, Value.obj.injEq, List.not_mem_nil, or_false] at hr
          subst hr
          simp only [List.mem_cons, List.not_mem_nil, or_false] at hkv
          rcases hkv with rfl | rfl
          · exact ⟨by decide, hA⟩
          · exact ⟨by decide, h1⟩)
    (by
      simp only [SameValue]
      refine ⟨_, List.Perm.swap _ _ _, ?_⟩
      simp only [SameFields, SameItems, SameValue, and_true, true_and]
      exact ⟨_, List.Perm.swap _ _ _, by simp only [SameFields, SameValue, and_self]⟩)

/-- C29 as stated fails for a string value with a line feed: for the object with
`a` = the string `x`, line feed, `b: 2` and `b` = 1, the two key orders give encodings
whose parsed values differ at the key `b` (1 in one order, the text of the second line
in the other), for every library. -/
theorem key_order_changes_value :
    ¬ ∃ (lib : GoLib) (vx vy : Value),
      roundTrip lib (.obj [("a".toList, .str "x\nb: 2".toList), ("b".toList, .int 1)])
        .Interface = .ok vx ∧
      roundTrip lib (.obj [("b".toList, .int 1), ("a".toList, .str "x\nb: 2".toList)])
        .Interface = .ok vy ∧
      SameValue vx vy := by
  rintro ⟨lib, vx, vy, hx, hy, hs⟩
  have h1 : roundTrip lib (.obj [("a".toList, .str "x\nb: 2".toList), ("b".toList, .int 1)])
      .Interface =
      .ok (.obj [("a".toList, parsePrimitive lib "\"x".toList), ("b".toList, .int 1)]) := by
    rfl
  have h2 : roundTrip lib (.obj [("b".toList, .int 1), ("a".toList, .str "x\nb: 2".toList)])
      .Interface =
      .ok (.obj [("b".toList, parsePrimitive lib "2\"".toList),
        ("a".toList, parsePrimitive lib "\"x".toList)]) := by
    rfl
  have h3 : parsePrimitive lib "2\"".toList ≠ .int 1 := by
    have h : parsePrimitive lib "2\"".toList =
        match lib.ParseFloat "2\"".toList with
        | some f => .float f
        | none => .str "2\"".toList := by
      rfl
    rw [h]
    cases lib.ParseFloat "2\"".toList <;> simp
  rw [h1] at hx
  rw [h2] at hy
  cases hx
  cases hy
  simp only [SameValue] at hs
  obtain ⟨c, hperm, hc⟩ := hs
  have hb : ("b".toList, Value.int 1) ∈ c := by
    cases c with
    | nil => simp [SameFields] at hc
    | cons e1 c =>
      cases c with
      | nil =>
        obtain ⟨k1, v1⟩ := e1
        simp [SameFields] at hc
      | cons e2 c =>
        obtain ⟨k1, v1⟩ := e1
        obtain ⟨k2, v2⟩ := e2
        simp only [SameFields, SameValue] at hc
        obtain ⟨_, _, hk2, hv2, _⟩ := hc
        rw [← hk2, ← hv2]
        simp
  have hmem := hperm.mem_iff.mpr hb
  simp only [List.mem_cons, Prod.mk.injEq, List.mem_singleton, List.not_mem_nil, or_false] at hmem
  rcases hmem with ⟨_, h⟩ | ⟨h, _⟩
  · exact h3 h.symm
  · exact absurd h (by decide)

/-- C30. For every options value, `Parse` of a text of white space only (the empty
text included) returns `null`; `Parse` never returns the empty object, for any text; and
the split of the trimmed text never has length 0, so the branch of `Parse` that returns
the empty mapping is unreachable. -/
theorem blank_input_parses_to_null (lib : GoLib) (opts : DecodeOptions) (input : Str) :
    (allSpace input → Parse lib input opts = .ok .null) ∧
    Parse lib input opts ≠ .ok (.obj []) ∧
    (Split (TrimSpace input) '\n').length ≠ 0 := by
  have hlen : (Split (TrimSpace input) '\n').length ≠ 0 := by
    intro h
    exact Split_ne_nil _ _ (List.length_eq_zero.mp h)
  refine ⟨?_, ?_, hlen⟩
  · intro h
    unfold Parse
    rw [TrimSpace_allSpace h]
    rfl
  · unfold Parse
    simp only []
    rw [if_neg hlen]
    intro h
    cases hs : Split (TrimSpace input) '\n' with
    | nil => exact Split_ne_nil _ _ hs
    | cons l ls =>
      rw [hs] at h
      simp only [List.length_cons] at h
      have e : 3 * (ls.length + 1) + 4 = (3 * ls.length + 6) + 1 := by omega
      rw [e, parseValue] at h
      simp only [] at h
      cases hl : parseValueLoop lib opts (3 * ls.length + 6) { rest := l :: ls, pos := 0 } 0 [] with
      | ok r =>
        obtain ⟨v, p'⟩ := r
        rw [hl] at h
        simp only [Res.ok.injEq] at h
        exact parseValueLoop_not_empty lib opts _ _ _ _ _ _ hl h
      | error e => rw [hl] at h; cases h
      | panic => rw [hl] at h; cases h
      | outOfFuel => rw [hl] at h; cases h

/-- C30, at a text of spaces, a tab and line feeds. -/
theorem blank_input_parses_to_null_witness :
    Parse asciiLib "  \n\t \n".toList DefaultDecodeOptions = .ok .null :=
  (blank_input_parses_to_null asciiLib DefaultDecodeOptions "  \n\t \n".toList).1
    (by unfold allSpace; decide)

/-! ## Claim C31 -/

/-- C31. For every string `s` that `NeedsQuoting` flags (whatever it holds: quotes,
backslashes, a backslash directly before a quote, line breaks), `encodeString(s)` is the
quoted form (a quote, `s` with every quote replaced by a backslash-quote pair, a quote),
and `parsePrimitive` of it returns the string `s` exactly.  For every string, replacing
every backslash-quote pair by a quote undoes replacing every quote by a backslash-quote
pair. -/
theorem quoted_string_roundtrip (lib : GoLib) (s : Str) (h : NeedsQuoting lib s = true) :
    parsePrimitive lib (encodeString lib s) = .str s ∧
    encodeString lib s = '"' :: (ReplaceAll s ['"'] ['\\', '"'] ++ ['"']) ∧
    ∀ t : Str, ReplaceAll (ReplaceAll t ['"'] ['\\', '"']) ['\\', '"'] ['"'] = t := by
  have he : encodeString lib s = quoteString s := by
    unfold encodeString
    rw [if_pos h]
  refine ⟨?_, ?_, fun t => unescape_escape t⟩
  · rw [he]; exact parsePrimitive_quoteString lib s
  · rw [he]; rfl

/-- C31, at the string `a`, backslash, quote, `b`, line feed, `c`, backslash. -/
theorem quoted_string_roundtrip_witness :
    NeedsQuoting asciiLib "a\\\"b\nc\\".toList = true ∧
    parsePrimitive asciiLib (encodeString asciiLib "a\\\"b\nc\\".toList) =
      .str "a\\\"b\nc\\".toList :=
  ⟨by decide, (quoted_string_roundtrip asciiLib "a\\\"b\nc\\".toList (by decide)).1⟩

end Toonify
